import Mathlib

/-!
Verification development for the Shield4U crawler (src/app.py, src/crawler_config.py,
src/crawling.py).

The Python source is shallowly embedded: Python strings are modelled as `List Char`,
the URL machinery of Python's standard urllib.parse (urlparse, urlunparse, parse_qs,
urlencode, urljoin) is translated as executable Lean functions, and the crawler's
functions (is_within_scope, normalize_url, mask_sensitive_value, the PageParser
extraction passes, crawl_and_parse, the HTTP route validation) are translated on top.

Modelling notes, stated once here:
* Percent-coding (quote_plus / unquote) is modelled per code point: a byte escape
  %XX decodes to the code point XX and non-ASCII code points pass through literally,
  where CPython encodes and decodes them through UTF-8 byte sequences.  On ASCII
  data the model agrees with CPython exactly.
* str.lower() is modelled on the ASCII range (the case mapping relevant to scheme
  and host canonicalization).
* CPython raises ValueError when `.port` is accessed on a URL whose port component
  is not numeric, or is out of range, or whose netloc has unbalanced brackets; the
  predicate `acceptedUrl` below marks the inputs on which the model and CPython
  coincide, i.e. the inputs accepted by the normalizer.
-/

set_option maxRecDepth 20000

namespace Crawler

/-- Python strings are modelled as lists of code points. -/
abbrev Str := List Char

/-- Shorthand to write a modelled Python string from a Lean literal. -/
def S (s : String) : Str := s.data

/-! ### Character class helpers -/

/-- ASCII letter ('a'-'z' is 97-122, 'A'-'Z' is 65-90). -/
def isAsciiAlpha (c : Char) : Bool :=
  (97 ≤ c.toNat && c.toNat ≤ 122) || (65 ≤ c.toNat && c.toNat ≤ 90)

/-- ASCII digit ('0'-'9' is 48-57). -/
def isAsciiDigit (c : Char) : Bool := 48 ≤ c.toNat && c.toNat ≤ 57

/-- Characters allowed in a URL scheme after the first (CPython scheme_chars). -/
def isSchemeChar (c : Char) : Bool :=
  isAsciiAlpha c || isAsciiDigit c || c = '+' || c = '-' || c = '.'

/-- ASCII lower-casing of one character, the case mapping used by str.lower()
on the data handled here. -/
def pyLowerChar (c : Char) : Char :=
  if 65 ≤ c.toNat && c.toNat ≤ 90 then Char.ofNat (c.toNat + 32) else c

/-- str.lower() on the modelled string. -/
def pyLower (s : Str) : Str := s.map pyLowerChar

/-- Python \w word characters, ASCII range (letters, digits, underscore). -/
def isWordChar (c : Char) : Bool := isAsciiAlpha c || isAsciiDigit c || c = '_'

/-- Python str.strip() whitespace set. -/
def isPySpace (c : Char) : Bool :=
  c = ' ' || c = '\t' || c = '\n' || c = '\r' || c = '\x0b' || c = '\x0c'

/-! ### List scanning helpers, the analogues of str.find / str.split / str.rfind -/

/-- Split at the first occurrence of `c`: `(before, some after)` when `c` occurs,
`(s, none)` otherwise.  Models `s.split(c, 1)` / `s.find(c)`. -/
def splitOnFirst (c : Char) : Str → Str × Option Str
  | [] => ([], none)
  | a :: r =>
    if a = c then ([], some r)
    else
      let (b, o) := splitOnFirst c r
      (a :: b, o)

/-- Split at the last occurrence of `c`: `some (before, after)` when `c` occurs.
Models `s.rpartition(c)` / `s.rfind(c)`. -/
def splitOnLast (c : Char) : Str → Option (Str × Str)
  | [] => none
  | a :: r =>
    match splitOnLast c r with
    | some (x, y) => some (a :: x, y)
    | none => if a = c then some ([], r) else none

/-- Take characters until the first one in `stops`, returning (taken, rest with the
stop still attached).  Models CPython _splitnetloc's min over find positions. -/
def takeUntilStops (stops : List Char) : Str → Str × Str
  | [] => ([], [])
  | a :: r =>
    if a ∈ stops then ([], a :: r)
    else
      let (x, y) := takeUntilStops stops r
      (a :: x, y)

/-- `s.split(c)` (full split, empty string gives a single empty piece). -/
def splitAllChar (c : Char) : Str → List Str
  | [] => [[]]
  | a :: r =>
    if a = c then [] :: splitAllChar c r
    else
      match splitAllChar c r with
      | h :: t => (a :: h) :: t
      | [] => [[a]]

/-- `sep.join(pieces)` for a one-character separator. -/
def joinChar (c : Char) : List Str → Str
  | [] => []
  | [p] => p
  | p :: q :: t => p ++ c :: joinChar c (q :: t)

/-- Does `p` occur as a leading segment of `s`?  Models `s.startswith(p)`. -/
def startsWithSeq (p s : Str) : Bool := s.take p.length = p

/-- Does `p` occur as a trailing segment of `s`?  Models `s.endswith(p)`. -/
def endsWithSeq (p s : Str) : Bool := startsWithSeq p.reverse s.reverse

/-- Does `s` end with character `c`? -/
def endsWithChar (c : Char) (s : Str) : Bool := s.reverse.headD ' ' = c && s ≠ []

/-- Substring containment, models Python's `needle in hay`. -/
def subseqIn (needle hay : Str) : Bool :=
  match hay with
  | [] => needle = ([] : Str)
  | _ :: r => startsWithSeq needle hay || subseqIn needle r

/-- `s.rstrip(c)` for a single strip character. -/
def rstripChar (c : Char) (s : Str) : Str := (s.reverse.dropWhile (· = c)).reverse

/-- Membership test on lists with decidable equality (Python's `x in l`). -/
def memB [DecidableEq α] (x : α) : List α → Bool
  | [] => false
  | a :: r => a = x || memB x r

/-- Concatenation of the images of `f`, used to model list flattening. -/
def catMaps (f : α → List β) : List α → List β
  | [] => []
  | a :: r => f a ++ catMaps f r

/-! ### Decimal numerals (Python's int printing and parsing of port numbers) -/

def digitChar (n : Nat) : Char := Char.ofNat (48 + n)

/-- Decimal representation of a natural number, as printed by an f-string. -/
def natRepr (n : Nat) : Str :=
  if _h : n < 10 then [digitChar n]
  else natRepr (n / 10) ++ [digitChar (n % 10)]
decreasing_by exact Nat.div_lt_self (Nat.lt_of_lt_of_le (by norm_num) (Nat.le_of_not_lt _h)) (by norm_num)

/-- Value of a string of decimal digits. -/
def digitsToNat (s : Str) : Nat := s.foldl (fun acc c => acc * 10 + (c.toNat - 48)) 0

/-- `int(s, 10)` restricted to plain digit strings (the inputs on which CPython's
port parsing succeeds and the model is faithful). -/
def parseDigits (s : Str) : Option Nat :=
  if s ≠ [] ∧ s.all isAsciiDigit then some (digitsToNat s) else none

/-! ### urllib.parse: urlsplit / urlparse -/

/-- Result of urlsplit: (scheme, netloc, path, query, fragment). -/
structure SplitRec where
  scheme : Str
  netloc : Str
  path : Str
  query : Str
  fragment : Str
deriving DecidableEq, Repr

/-- Result of urlparse: urlsplit plus the params component split from the path. -/
structure ParseRec where
  scheme : Str
  netloc : Str
  path : Str
  params : Str
  query : Str
  fragment : Str
deriving DecidableEq, Repr

/-- WHATWG C0-control-or-space characters stripped from the front of a URL. -/
def isC0OrSpace (c : Char) : Bool := c.toNat ≤ 0x20

/-- CPython removes all tab, CR and LF bytes from the URL before splitting. -/
def dropTabCrLf (s : Str) : Str := s.filter fun c => !(c = '\t' || c = '\r' || c = '\n')

/-- Scheme extraction of CPython urlsplit: the text before the first ':' is taken
as the scheme when it is nonempty, starts with an ASCII letter, and consists of
scheme characters; it is lower-cased.  Otherwise the default scheme is kept. -/
def schemeSplit (url : Str) (dflt : Str) : Str × Str :=
  match splitOnFirst ':' url with
  | (before, some after) =>
    if before ≠ [] ∧ isAsciiAlpha (before.headD ' ') ∧ before.all isSchemeChar then
      (pyLower before, after)
    else (dflt, url)
  | (_, none) => (dflt, url)

/-- CPython urlsplit (allow_fragments=True):
lstrip C0 controls and space, drop tab/CR/LF, split scheme, then '//'-netloc
(up to the first of '/', '?', '#'), then fragment at the first '#', then query
at the first '?'. -/
def urlsplit (url : Str) (dflt : Str := []) : SplitRec :=
  let u := dropTabCrLf (url.dropWhile isC0OrSpace)
  let sp := schemeSplit u dflt
  let scheme := sp.1
  let rest0 := sp.2
  let nl := if startsWithSeq (S "//") rest0 then
      takeUntilStops ['/', '?', '#'] (rest0.drop 2)
    else (([] : Str), rest0)
  let netloc := nl.1
  let rest1 := nl.2
  let fr := match splitOnFirst '#' rest1 with
    | (b, some a) => (b, a)
    | (b, none) => (b, ([] : Str))
  let qu := match splitOnFirst '?' fr.1 with
    | (b, some a) => (b, a)
    | (b, none) => (b, ([] : Str))
  ⟨scheme, netloc, qu.1, qu.2, fr.2⟩

/-- The WHATWG pre-cleaning of urlsplit: lstrip C0 controls and space, then
remove every tab, CR and LF. -/
def cleanUrl (url : Str) : Str := dropTabCrLf (url.dropWhile isC0OrSpace)

/-- The netloc step of urlsplit: consume '//' and read up to the first of
'/', '?', '#'. -/
def netSplit (rest0 : Str) : Str × Str :=
  if startsWithSeq (S "//") rest0 then takeUntilStops ['/', '?', '#'] (rest0.drop 2)
  else (([] : Str), rest0)

/-- A string on which the scheme split of urlsplit keeps the default scheme:
either it has no ':', or the text before its first ':' is not a wellformed
scheme. -/
def noSchemeText (s : Str) : Bool :=
  match splitOnFirst ':' s with
  | (_, none) => true
  | (b, some _) => !(b ≠ [] && isAsciiAlpha (b.headD ' ') && b.all isSchemeChar)

/-- CPython _splitparams: split the params off the last path segment — the text
after the first ';' that follows the last '/' (or the first ';' when the path
has no '/'). -/
def splitparams (url : Str) : Str × Str :=
  if ';' ∈ url then
    if '/' ∈ url then
      match splitOnLast '/' url with
      | some (a, b) =>
        match splitOnFirst ';' b with
        | (b1, some b2) => (a ++ '/' :: b1, b2)
        | (_, none) => (url, [])
      | none => (url, [])
    else
      match splitOnFirst ';' url with
      | (a, some b) => (a, b)
      | (_, none) => (url, [])
  else (url, [])

/-- The schemes on which urlparse splits params (CPython uses_params). -/
def usesParams : List Str :=
  [[], S "ftp", S "hdl", S "prospero", S "http", S "imap", S "https", S "shttp",
   S "rtsp", S "rtsps", S "rtspu", S "sip", S "sips", S "mms", S "sftp", S "tel"]

/-- CPython urlparse: urlsplit, then params split off the path when the scheme
uses params. -/
def urlparse (url : Str) (dflt : Str := []) : ParseRec :=
  let s := urlsplit url dflt
  let pp := if memB s.scheme usesParams ∧ ';' ∈ s.path then splitparams s.path
    else (s.path, ([] : Str))
  ⟨s.scheme, s.netloc, pp.1, pp.2, s.query, s.fragment⟩

/-- The text after the last '@' of a netloc (the whole netloc when there is no
userinfo), as CPython _hostinfo reads it. -/
def hostinfoOf (netloc : Str) : Str :=
  match splitOnLast '@' netloc with
  | some (_, after) => after
  | none => netloc

/-- The port text of _hostinfo: the text after the first ':' when nonempty. -/
def portTextOf : Option Str → Option Str
  | some port => if port = [] then none else some port
  | none => none

/-- CPython _hostinfo: the host is the part of the netloc after the last '@' and
before the first ':'; the port text follows that ':' (empty port text counts as
no port). -/
def hostPortOf (netloc : Str) : Str × Option Str :=
  ((splitOnFirst ':' (hostinfoOf netloc)).1,
   portTextOf (splitOnFirst ':' (hostinfoOf netloc)).2)

/-- ParseResult.hostname: lower-cased host, or None when the host is empty. -/
def pyHostname (netloc : Str) : Option Str :=
  let h := (hostPortOf netloc).1
  if h = [] then none else some (pyLower h)

/-- ParseResult.port on the accepted inputs (digit-string ports). -/
def pyPort (netloc : Str) : Option Nat :=
  match (hostPortOf netloc).2 with
  | none => none
  | some p => parseDigits p

/-- The userinfo component: the netloc text before the last '@', when present. -/
def userinfoOf (netloc : Str) : Option Str := (splitOnLast '@' netloc).map (·.1)

/-- Wellformedness of the host text the normalizer renders into its output
netloc: nonempty, already lower-case, and free of the characters that would
disturb a re-parse. -/
def goodHost (h0 : Str) : Prop :=
  h0 ≠ [] ∧ pyLower h0 = h0 ∧ ':' ∉ h0 ∧ '@' ∉ h0 ∧
    ∀ x ∈ h0, x ∉ ['/', '?', '#'] ∧ ¬(x = '\t' ∨ x = '\r' ∨ x = '\n')

/-- The inputs on which accessing `.port` inside the normalizer does not raise in
CPython and the model is faithful: no brackets in the netloc, and a digit-only
in-range port text when a port text is present. -/
def acceptedUrl (url : Str) : Bool :=
  let nl := (urlparse url).netloc
  !(memB '[' nl) && !(memB ']' nl) &&
    (match (hostPortOf nl).2 with
     | none => true
     | some p => p.all isAsciiDigit && p ≠ [] && digitsToNat p ≤ 65535)

/-! ### urllib.parse: urlunsplit / urlunparse -/

/-- Truthiness of the netloc slot (Python None and '' are both falsy). -/
def netlocTruthy : Option Str → Bool
  | none => false
  | some s => s ≠ []

/-- The schemes that use a network location (CPython uses_netloc). -/
def usesNetloc : List Str :=
  [[], S "ftp", S "http", S "gopher", S "nntp", S "telnet", S "imap", S "wais",
   S "file", S "mms", S "https", S "shttp", S "snews", S "prospero", S "rtsp",
   S "rtsps", S "rtspu", S "rsync", S "svn", S "svn+ssh", S "sftp", S "nfs",
   S "git", S "git+ssh", S "ws", S "wss"]

/-- The schemes that allow relative resolution (CPython uses_relative). -/
def usesRelative : List Str :=
  [[], S "ftp", S "http", S "gopher", S "nntp", S "imap", S "wais", S "file",
   S "https", S "shttp", S "mms", S "prospero", S "rtsp", S "rtsps", S "rtspu",
   S "sftp", S "svn", S "svn+ssh", S "ws", S "wss"]

/-- CPython urlunsplit: the '//' marker is emitted when the netloc is truthy, or
when the scheme uses a netloc and the path does not already begin with '//'.
The netloc slot is an Option because normalize_url rebuilds it and may leave it
None. -/
def urlunsplit (scheme : Str) (netloc : Option Str) (path query fragment : Str) : Str :=
  let url0 := if netlocTruthy netloc ||
      (scheme ≠ [] && memB scheme usesNetloc && !startsWithSeq (S "//") path) then
      let p1 := if path ≠ [] ∧ path.headD ' ' ≠ '/' then '/' :: path else path
      '/' :: '/' :: (netloc.getD [] ++ p1)
    else path
  let url1 := if scheme ≠ [] then scheme ++ ':' :: url0 else url0
  let url2 := if query ≠ [] then url1 ++ '?' :: query else url1
  if fragment ≠ [] then url2 ++ '#' :: fragment else url2

/-- CPython urlunparse: reattach the params with ';' when nonempty, then unsplit. -/
def urlunparse (scheme : Str) (netloc : Option Str) (path params query fragment : Str) : Str :=
  urlunsplit scheme netloc (if params ≠ [] then path ++ ';' :: params else path) query fragment

/-! ### urllib.parse: percent-coding, parse_qs, urlencode -/

def hexVal (c : Char) : Option Nat :=
  if 48 ≤ c.toNat && c.toNat ≤ 57 then some (c.toNat - 48)
  else if 97 ≤ c.toNat && c.toNat ≤ 102 then some (c.toNat - 87)
  else if 65 ≤ c.toNat && c.toNat ≤ 70 then some (c.toNat - 55)
  else none

def hexDigitU (n : Nat) : Char := if n < 10 then Char.ofNat (48 + n) else Char.ofNat (55 + n)

/-- The '+'-to-space replacement followed by unquote, fused into one scan, as
parse_qsl applies to each name and value. -/
def unquotePlus : Str → Str
  | [] => []
  | c :: a :: b :: r =>
    if c = '+' then ' ' :: unquotePlus (a :: b :: r)
    else if c = '%' then
      match hexVal a, hexVal b with
      | some x, some y => Char.ofNat (16 * x + y) :: unquotePlus r
      | _, _ => '%' :: unquotePlus (a :: b :: r)
    else c :: unquotePlus (a :: b :: r)
  | c :: r =>
    if c = '+' then ' ' :: unquotePlus r
    else if c = '%' then '%' :: unquotePlus r
    else c :: unquotePlus r

/-- quote_plus safe characters (ALWAYS_SAFE minus nothing: letters, digits, _.-~). -/
def isSafeChar (c : Char) : Bool :=
  isAsciiAlpha c || isAsciiDigit c || c = '_' || c = '.' || c = '-' || c = '~'

/-- quote_plus on one code point: space becomes '+', safe characters pass, other
ASCII is %XX-escaped with uppercase hex digits; non-ASCII passes through in this
model (CPython escapes its UTF-8 bytes). -/
def quotePlusChar (c : Char) : Str :=
  if c = ' ' then ['+']
  else if isSafeChar c || decide (c.toNat ≥ 0x80) then [c]
  else ['%', hexDigitU (c.toNat / 16), hexDigitU (c.toNat % 16)]

def quotePlus (s : Str) : Str := catMaps quotePlusChar s

/-- One name=value piece of parse_qsl: empty pieces are skipped; a piece
without '=' gets an empty value (keep_blank_values=True); name and value are
'+'-replaced and unquoted. -/
def qslPair (nv : Str) : Option (Str × Str) :=
  if nv = [] then none
  else
    match splitOnFirst '=' nv with
    | (n, some v) => some (unquotePlus n, unquotePlus v)
    | (n, none) => some (unquotePlus n, [])

/-- parse_qsl with keep_blank_values=True and the default '&' separator. -/
def parseQsl (qs : Str) : List (Str × Str) :=
  (splitAllChar '&' qs).filterMap qslPair

/-- One step of the dict-of-lists construction of parse_qs: append the value to
an existing key's list, or add a new key at the end. -/
def qsStep (acc : List (Str × List Str)) (kv : Str × Str) : List (Str × List Str) :=
  if acc.any (fun e => e.1 = kv.1) then
    acc.map (fun e => if e.1 = kv.1 then (e.1, e.2 ++ [kv.2]) else e)
  else acc ++ [(kv.1, [kv.2])]

/-- parse_qs builds a dict of value lists: first-occurrence key order, values in
encounter order. -/
def qsGroup (pairs : List (Str × Str)) : List (Str × List Str) :=
  pairs.foldl qsStep []

/-- The keys of a dict-of-lists. -/
def keysOf (l : List (Str × List Str)) : List Str := l.map (·.1)

/-- Lexicographic order on modelled strings by code point, Python's str ≤. -/
def strLe : Str → Str → Bool
  | [], _ => true
  | _ :: _, [] => false
  | a :: x, b :: y => if a = b then strLe x y else decide (a < b)

/-- Insertion into a key-sorted pair list. -/
def insertPairSorted (x : Str × List Str) : List (Str × List Str) → List (Str × List Str)
  | [] => [x]
  | y :: r => if strLe x.1 y.1 then x :: y :: r else y :: insertPairSorted x r

/-- sorted() on the (key, values) items; keys are unique so key order determines
the result. -/
def sortPairs (l : List (Str × List Str)) : List (Str × List Str) :=
  l.foldr insertPairSorted []

/-- urlencode(..., doseq=True): each key/value pair quoted and joined. -/
def urlencodeDoseq (items : List (Str × List Str)) : Str :=
  joinChar '&' (catMaps (fun kv => kv.2.map fun v => quotePlus kv.1 ++ '=' :: quotePlus v) items)

/-- The flattened (key, value) pairs of a dict-of-lists, the list parse_qsl
recovers from the encoding of the items. -/
def flatPairs (items : List (Str × List Str)) : List (Str × Str) :=
  catMaps (fun kv => kv.2.map fun v => (kv.1, v)) items

/-- The characters quote_plus can emit: '+', '%', safe characters, non-ASCII
pass-through, and the uppercase hex digits. -/
def isQuoteOut (c : Char) : Bool :=
  c = '+' || c = '%' || isSafeChar c || decide (c.toNat ≥ 0x80) ||
    (48 ≤ c.toNat && c.toNat ≤ 57) || (65 ≤ c.toNat && c.toNat ≤ 70)

/-! ### urllib.parse: urljoin -/

/-- `segments[1:-1] = filter(None, segments[1:-1])` applied to the tail of the
segment list: drop empty segments except the final one. -/
def filterInnerEmpties : List Str → List Str
  | [] => []
  | [x] => [x]
  | x :: r => if x = [] then filterInnerEmpties r else x :: filterInnerEmpties r

/-- Dot-segment resolution loop of urljoin. -/
def resolveSegments (segments : List Str) : List Str :=
  let resolved := segments.foldl (fun acc seg =>
    if seg = S ".." then acc.dropLast
    else if seg = S "." then acc
    else acc ++ [seg]) []
  if segments.getLast? = some (S "..") ∨ segments.getLast? = some (S ".") then
    resolved ++ [[]]
  else resolved

/-- The path-merging branch of urljoin. -/
def urljoinMerge (b r : ParseRec) (netloc : Str) : Str :=
  let baseParts0 := splitAllChar '/' b.path
  let baseParts := if baseParts0.getLast? ≠ some ([] : Str) then baseParts0.dropLast else baseParts0
  let segments := if r.path.headD ' ' = '/' then splitAllChar '/' r.path
    else
      match baseParts ++ splitAllChar '/' r.path with
      | [] => []
      | hd :: tl => hd :: filterInnerEmpties tl
  let joined := joinChar '/' (resolveSegments segments)
  urlunparse r.scheme (some netloc) (if joined = [] then S "/" else joined) r.params r.query r.fragment

/-- CPython urljoin (allow_fragments=True): parse both URLs (the base scheme is
the default scheme for the relative URL), return the relative URL unchanged on
scheme mismatch, inherit the base netloc for netloc-using schemes, inherit base
path/params/query when the relative URL has none, and otherwise merge and
dot-resolve the path segments. -/
def urljoin (base url : Str) : Str :=
  if base = [] then url
  else if url = [] then base
  else
    let b := urlparse base []
    let r := urlparse url b.scheme
    if ¬(r.scheme = b.scheme ∧ memB r.scheme usesRelative) then url
    else if memB r.scheme usesNetloc ∧ r.netloc ≠ [] then
      urlunparse r.scheme (some r.netloc) r.path r.params r.query r.fragment
    else
      let netloc := if memB r.scheme usesNetloc then b.netloc else r.netloc
      if r.path = [] ∧ r.params = [] then
        urlunparse r.scheme (some netloc) b.path b.params
          (if r.query = [] then b.query else r.query) r.fragment
      else urljoinMerge b r netloc

/-! ### crawler_config.py: CrawlerConfig blacklists and scope check -/

/-- CrawlerConfig.path_blacklist. -/
def path_blacklist : List Str :=
  [S "/admin", S "/administrator", S "/wp-admin", S "/manager", S "/login?logout", S "/logout"]

/-- CrawlerConfig.extension_blacklist. -/
def extension_blacklist : List Str :=
  [S ".jpg", S ".jpeg", S ".png", S ".gif", S ".bmp", S ".svg", S ".mp4", S ".avi",
   S ".mov", S ".wmv", S ".zip", S ".tar", S ".gz", S ".7z", S ".dmg", S ".exe",
   S ".msi", S ".pdf"]

/-- CrawlerConfig.params_to_remove. -/
def params_to_remove : List Str :=
  [S "utm_source", S "utm_medium", S "utm_campaign", S "utm_term", S "utm_content",
   S "gclid", S "fbclid", S "msclkid", S "PHPSESSID", S "JSESSIONID", S "ASPSESSIONID"]

/-- The host-match step of is_within_scope.  With include_subdomains the target
hostname must equal the base hostname or end with "." + base hostname (where a
missing base hostname is rendered "None" by the f-string); otherwise scheme,
hostname and port must be equal as parsed. -/
def scopeHostOk (b t : ParseRec) (include_subdomains : Bool) : Bool :=
  if include_subdomains then
    pyHostname t.netloc = pyHostname b.netloc ||
      (match pyHostname t.netloc with
       | some th => endsWithSeq ('.' :: ((pyHostname b.netloc).getD (S "None"))) th
       | none => false)
  else
    t.scheme = b.scheme && pyHostname t.netloc = pyHostname b.netloc &&
      pyPort t.netloc = pyPort b.netloc

/-- The path step of is_within_scope: reject when the path (defaulted to "/")
contains a blacklisted substring or its lower-cased form ends with a blacklisted
extension. -/
def scopePathOk (t : ParseRec) : Bool :=
  let path := if t.path = [] then S "/" else t.path
  !(path_blacklist.any fun bl => subseqIn bl path) &&
    !(extension_blacklist.any fun ext => endsWithSeq ext (pyLower path))

/-- crawler_config.is_within_scope. -/
def is_within_scope (base_url target_url : Str) (include_subdomains : Bool) : Bool :=
  if target_url = [] then false
  else
    let b := urlparse base_url
    let t := urlparse target_url
    if ¬ scopeHostOk b t include_subdomains then false
    else if ¬ scopePathOk t then false
    else true

/-! ### crawler_config.py: normalize_url -/

/-- The components assembled by normalize_url before urlunparse. -/
structure NormRec where
  scheme : Str
  netloc : Option Str
  path : Str
  params : Str
  query : Str
deriving DecidableEq, Repr

/-- The query pipeline of normalize_url: parse_qs with blanks kept, drop the
tracking keys, sort items by key, re-encode with doseq. -/
def normQuery (q : Str) : Str :=
  urlencodeDoseq (sortPairs
    ((qsGroup (parseQsl q)).filter fun e => !(memB e.1 params_to_remove)))

/-- The trailing-slash step of normalize_url: default empty path to "/", then
append '/' when the policy asks for one, or strip all trailing slashes when it
does not (keeping a bare "/"). -/
def pathPhase (trailing : Bool) (p : Str) : Str :=
  let path := if p = [] then S "/" else p
  if trailing ∧ ¬ endsWithChar '/' path = true then path ++ ['/']
  else if ¬ trailing ∧ path ≠ S "/" ∧ endsWithChar '/' path = true then rstripChar '/' path
  else path

/-- The component form of normalize_url: lower-cased scheme, netloc rebuilt from
the lower-cased hostname plus the port when it is truthy and not the scheme's
default, the filtered-and-sorted query, the slash-adjusted path; params kept,
fragment dropped. -/
def normRec (url : Str) (trailing : Bool) : NormRec :=
  let parts := urlparse url
  let scheme := pyLower parts.scheme
  let hostname := (pyHostname parts.netloc).map pyLower
  let port := pyPort parts.netloc
  let keepPort : Option Nat := match port with
    | some p =>
      if p ≠ 0 ∧ ¬((scheme = S "http" ∧ p = 80) ∨ (scheme = S "https" ∧ p = 443)) then some p
      else none
    | none => none
  let netloc : Option Str := match keepPort with
    | some p => some ((hostname.getD (S "None")) ++ ':' :: natRepr p)
    | none => hostname
  ⟨scheme, netloc, pathPhase trailing parts.path, parts.params, normQuery parts.query⟩

/-- crawler_config.normalize_url. -/
def normalize_url (url : Str) (trailing : Bool := false) : Str :=
  let n := normRec url trailing
  urlunparse n.scheme n.netloc n.path n.params n.query []

/-! #### The exact domain on which normalize_url is idempotent

normalize_url is not idempotent on every URL; the conditions below delimit the
inputs on which re-normalizing reproduces the output. -/

/-- The ';'-reattachment of urlunparse. -/
def attachParams (path params : Str) : Str :=
  if params ≠ [] then path ++ ';' :: params else path

/-- The path-and-params text as it is embedded in the normalized output: the
slash-adjusted path with the params reattached, with the leading '/' that
urlunsplit inserts when a '//' marker precedes it. -/
def renderedPathOf (url : Str) (trailing : Bool) : Str :=
  let n := normRec url trailing
  let url0 := attachParams n.path n.params
  if (netlocTruthy n.netloc ||
        (n.scheme ≠ [] && memB n.scheme usesNetloc && !startsWithSeq (S "//") url0)) &&
      (url0 ≠ [] && url0.headD ' ' ≠ '/') then
    '/' :: url0
  else url0

/-- Re-splitting the rendered path-and-params text and re-applying the
trailing-slash rule reproduces it.  This fails exactly on the paths the
rstrip('/') step collapses (all-slash paths become empty and are re-defaulted
to "/"; a strip that exposes a ';' after the last remaining '/' changes the
params split). -/
def stableResplit (trailing : Bool) (url : Str) : Bool :=
  let rp := renderedPathOf url trailing
  let pp := if memB (normRec url trailing).scheme usesParams ∧ ';' ∈ rp then splitparams rp
    else (rp, ([] : Str))
  attachParams (pathPhase trailing pp.1) pp.2 = rp

/-- The normalizer keeps a truthy non-default port while the hostname is
missing, so the f-string renders the literal "None" as host text; re-parsing
lower-cases it to "none". -/
def hostlessPortKeep (url : Str) (trailing : Bool) : Bool :=
  (pyHostname (urlparse url).netloc).isNone && netlocTruthy (normRec url trailing).netloc

/-- A falsy netloc with a rendered path starting in '//' makes the re-parse
read the path text as a netloc. -/
def slashSlashCapture (url : Str) (trailing : Bool) : Bool :=
  !netlocTruthy (normRec url trailing).netloc &&
    startsWithSeq (S "//") (attachParams (normRec url trailing).path (normRec url trailing).params)

/-- The inputs on which normalize_url is idempotent: accepted by the
normalizer, no "None" host rendering, no '//'-capture, and a stable rendered
path. -/
def normalizeIdemSafe (url : Str) (trailing : Bool) : Bool :=
  acceptedUrl url && !hostlessPortKeep url trailing && !slashSlashCapture url trailing &&
    stableResplit trailing url

/-! ### crawler_config.py: sensitive-value masking -/

/-- The alternatives of the masking pattern
(?i)\b(api[-_]?key|secret|token|bearer|password|session|authorization)\b;
the optional separator of api[-_]?key is expanded into its three spellings. -/
def maskKeywords : List Str :=
  [S "apikey", S "api-key", S "api_key", S "secret", S "token", S "bearer",
   S "password", S "session", S "authorization"]

/-- Does the keyword match at the front of `s` (case-insensitively) with a word
boundary after it? -/
def kwMatchHere (s kw : Str) : Bool :=
  pyLower (s.take kw.length) = kw && !((s.drop kw.length).headD ' ' |> isWordChar)

/-- Scan of re.search for the masking pattern: at each position with a word
boundary before it, try every alternative. -/
def maskScan (prev : Option Char) : Str → Bool
  | [] => false
  | c :: r =>
    ((prev.map isWordChar).getD false = false &&
       maskKeywords.any fun kw => kwMatchHere (c :: r) kw) ||
    maskScan (some c) r

/-- config.masking_regex.search(key) as a Boolean. -/
def maskingSearch (key : Str) : Bool := maskScan none key

/-- config.masking_replacement. -/
def masking_replacement : Str := S "[REDACTED]"

/-- crawler_config.mask_sensitive_value. -/
def mask_sensitive_value (key value : Str) : Str :=
  if maskingSearch key then masking_replacement else value

/-! ### crawling.py: the rendered-page model

BeautifulSoup's parse of the page source is abstracted as the element data the
extraction passes read: the title element (whose `.string` is None when the
element does not contain exactly one text child — in particular for an empty
`<title></title>`), meta tags, script/link resource attributes, anchors, forms,
comments and the flattened visible text. -/

/-- A `<title>` element; `stringChild` models Tag.string (None unless the element
has exactly one string child). -/
structure TitleTag where
  stringChild : Option Str
deriving DecidableEq, Repr

structure MetaTag where
  nameAttr : Option Str
  propertyAttr : Option Str
  contentAttr : Option Str
deriving DecidableEq, Repr

structure ATag where
  href : Option Str
deriving DecidableEq, Repr

structure FormTag where
  action : Option Str
  methodAttr : Option Str
  enctype : Option Str
  inputNames : List (Option Str)
deriving DecidableEq, Repr

/-- The parseable-HTML abstraction a PageParser works on. -/
structure HtmlDoc where
  title : Option TitleTag
  metas : List MetaTag
  scriptSrcs : List (Option Str)
  linkHrefs : List (Option Str)
  anchors : List ATag
  forms : List FormTag
  comments : List Str
  text : Str
deriving DecidableEq, Repr

/-- The Python exceptions the extraction passes can raise. -/
inductive PyErr
  | attributeError
deriving DecidableEq, Repr

/-- str(e) for the AttributeError raised by calling .strip() on None. -/
def pyErrMsg : PyErr → Str
  | .attributeError => S "'NoneType' object has no attribute 'strip'"

/-- Python str.strip(). -/
def pyStrip (s : Str) : Str :=
  ((s.dropWhile isPySpace).reverse.dropWhile isPySpace).reverse

/-- `self.soup.title.string.strip() if self.soup.title else ""`: when the title
element exists but its .string is None, the .strip() call raises AttributeError. -/
def titleText (doc : HtmlDoc) : Except PyErr Str :=
  match doc.title with
  | none => .ok []
  | some t =>
    match t.stringChild with
    | none => .error .attributeError
    | some s => .ok (pyStrip s)

/-- The anchor href strings of the page (anchors without an href are skipped). -/
def hrefsOf (doc : HtmlDoc) : List Str := doc.anchors.filterMap (·.href)

/-- Order-determinized model of Python's `list(set(links))`: duplicates removed.
-/
def dedupKeepFirst : List Str → List Str :=
  go []
where
  go (seen : List Str) : List Str → List Str
    | [] => []
    | a :: r => if memB a seen then go seen r else a :: go (a :: seen) r

/-- The visible-link collection of PageParser._parse_dom: resolved absolute
anchor hrefs, deduplicated — but only when link collection is enabled. -/
def visibleLinksOf (base : Str) (doc : HtmlDoc) (collect_links : Bool) : List Str :=
  if collect_links then dedupKeepFirst ((hrefsOf doc).map (urljoin base))
  else []

/-- crawl_and_parse computes `collect_links_for_crawling = remaining_depth > 0`.
Depth values are Python ints. -/
def collectLinksFor (remaining_depth : Int) : Bool := remaining_depth > 0

/-- The meta name/property→content map of _parse_dom (generator surfaced under
the fixed key "generator"). -/
def metaDict (doc : HtmlDoc) : List (Str × Str) :=
  doc.metas.foldl (fun acc tag =>
    match (match tag.nameAttr with | some n => some n | none => tag.propertyAttr),
          tag.contentAttr with
    | some n, some c =>
      let key := if pyLower n = S "generator" then S "generator" else n
      (acc.filter fun e => e.1 ≠ key) ++ [(key, c)]
    | _, _ => acc) []

/-- Script and link resource URLs resolved against the base URL. -/
def resourceUrls (base : Str) (srcs : List (Option Str)) : List Str :=
  (srcs.filterMap id).map (urljoin base)

/-- One form descriptor of _parse_dom. -/
structure FormInfo where
  action : Str
  methodName : Str
  enctype : Str
  inputs : List Str
deriving DecidableEq, Repr

/-- Python str.upper() on the ASCII range. -/
def pyUpper (s : Str) : Str :=
  s.map fun c => if 'a' ≤ c && c ≤ 'z' then Char.ofNat (c.toNat - 32) else c

def formInfoOf (base : Str) (f : FormTag) : FormInfo :=
  { action := urljoin base (f.action.getD [])
    methodName := pyUpper (f.methodAttr.getD (S "GET"))
    enctype := f.enctype.getD (S "application/x-www-form-urlencoded")
    inputs := f.inputNames.filterMap id }

/-- The _parse_dom result fields modelled here. -/
structure DomInfo where
  title : Str
  meta : List (Str × Str)
  scripts : List Str
  links : List Str
  forms : List FormInfo
  visible_links : List Str
deriving DecidableEq, Repr

/-- PageParser._parse_dom.  The title access can raise; everything else is
total. -/
def parse_dom (base : Str) (doc : HtmlDoc) (collect_links : Bool) : Except PyErr DomInfo := do
  let title ← titleText doc
  pure
    { title := title
      meta := metaDict doc
      scripts := resourceUrls base doc.scriptSrcs
      links := resourceUrls base doc.linkHrefs
      forms := doc.forms.map (formInfoOf base)
      visible_links := visibleLinksOf base doc collect_links }

/-- The _parse_fingerprints result fields modelled here. -/
structure Fingerprints where
  cms : List Str
  tech : List Str
deriving DecidableEq, Repr

/-- PageParser._parse_fingerprints restricted to the signals expressible over
the HtmlDoc abstraction: generator-meta CMS detection with the WordPress
special case, the /wp-content/ fallback over resource URLs, and the jQuery/PHP
technology substring checks over the visible text.  Total. -/
def parse_fingerprints (base : Str) (doc : HtmlDoc) : Fingerprints :=
  let gen := (doc.metas.find? fun t => t.nameAttr = some (S "generator")).bind (·.contentAttr)
  let cms0 : List Str := match gen with
    | some g =>
      if subseqIn (S "wordpress") (pyLower g) then [S "wordpress"] else [pyLower g]
    | none => []
  let pageUrls := resourceUrls base doc.scriptSrcs ++ resourceUrls base doc.linkHrefs
  let cms :=
    if pageUrls.any (fun u => subseqIn (S "/wp-content/") u || subseqIn (S "/wp-includes/") u) ∧
        ¬ cms0.any (fun c => subseqIn (S "wordpress") c) then
      cms0 ++ [S "wordpress"]
    else cms0
  let tech0 : List Str := if subseqIn (S "jquery.js") doc.text || subseqIn (S "jQuery") doc.text then [S "jquery"] else []
  let tech := if subseqIn (S ".php") doc.text || subseqIn (S "PHPSESSID") doc.text then tech0 ++ [S "php"] else tech0
  ⟨cms, tech⟩

/-- The _parse_panel_login_signals result. -/
structure LoginSignals where
  is_admin_like : Bool
  candidates : List Str
deriving DecidableEq, Repr

def login_patterns : List Str :=
  [S "/admin", S "/login", S "/signin", S "/manager", S "/wp-login.php",
   S "/administrator", S "/dashboard"]

def loginKeywords : List Str :=
  [S "login", S "admin", S "signin", S "sign in", S "sign-in", S "dashboard",
   S "control panel", S "control-panel", S "controlpanel", S "management"]

/-- PageParser._parse_panel_login_signals.  Visible links are always collected
here; the title access can raise exactly as in _parse_dom. -/
def parse_panel_login_signals (base : Str) (doc : HtmlDoc) : Except PyErr LoginSignals := do
  let links := (hrefsOf doc).map (urljoin base)
  let urlCandidates := links.filter fun l =>
    login_patterns.any fun p => subseqIn (pyLower p) (pyLower l)
  let title ← titleText doc
  let isAdmin := loginKeywords.any fun kw => subseqIn kw (pyLower title)
  let formCandidates := doc.forms.foldl (fun acc f =>
    let inputs := f.inputNames.filterMap id
    let hasPassword := inputs.any fun i => subseqIn (S "password") (pyLower i)
    let hasUser := inputs.any fun i =>
      subseqIn (S "user") (pyLower i) || subseqIn (S "email") (pyLower i) ||
        subseqIn (S "login") (pyLower i)
    if hasPassword ∧ hasUser then
      let action := urljoin base (f.action.getD [])
      if action ≠ [] ∧ ¬ memB action (urlCandidates ++ acc) then acc ++ [action] else acc
    else acc) []
  pure ⟨isAdmin, dedupKeepFirst (urlCandidates ++ formCandidates)⟩

/-- The _parse_osint_exposure result fields modelled here. -/
structure OsintInfo where
  socials : List Str
  cloud_links : List Str
  open_directory_ui : List Str
deriving DecidableEq, Repr

def social_patterns : List Str :=
  [S "twitter.com", S "facebook.com", S "linkedin.com", S "instagram.com",
   S "github.com", S "youtube.com"]

def cloud_patterns : List Str :=
  [S "s3.amazonaws.com", S "storage.googleapis.com", S "blob.core.windows.net",
   S "dropbox.com", S "drive.google.com", S "onedrive.live.com"]

/-- PageParser._parse_osint_exposure restricted to the link-classification
signals expressible over the HtmlDoc abstraction.  Total: it never touches
Tag.string. -/
def parse_osint_exposure (base : Str) (doc : HtmlDoc) : OsintInfo :=
  let links := (hrefsOf doc).map (urljoin base)
  let socials := links.filter fun l => social_patterns.any fun p => subseqIn p (pyLower l)
  let clouds := links.filter fun l => cloud_patterns.any fun p => subseqIn p (pyLower l)
  let openDirs := links.filter fun l =>
    endsWithChar '/' l &&
      ((subseqIn (S "/public/") (pyLower l) || subseqIn (S "/files/") (pyLower l)) ||
        (subseqIn (S "/uploads/") (pyLower l) || subseqIn (S "/documents/") (pyLower l)))
  ⟨socials, clouds, dedupKeepFirst openDirs⟩

/-- PageParser.parse_all: the four passes combined; an exception in a pass
propagates. -/
structure ExtractReport where
  dom : DomInfo
  fingerprints : Fingerprints
  panel_login_signals : LoginSignals
  osint_exposure : OsintInfo
deriving DecidableEq, Repr

def parse_all (base : Str) (doc : HtmlDoc) (collect_links : Bool) : Except PyErr ExtractReport := do
  let dom ← parse_dom base doc collect_links
  let login ← parse_panel_login_signals base doc
  pure ⟨dom, parse_fingerprints base doc, login, parse_osint_exposure base doc⟩

/-- A page whose parse is entirely empty, used as a concrete rendered page. -/
def blankPage : HtmlDoc :=
  { title := none, metas := [], scriptSrcs := [], linkHrefs := [], anchors := [],
    forms := [], comments := [], text := [] }

/-- A parseable page containing an empty title element (`<title></title>`). -/
def emptyTitlePage : HtmlDoc :=
  { title := some ⟨none⟩, metas := [], scriptSrcs := [], linkHrefs := [], anchors := [],
    forms := [], comments := [], text := [] }

/-- A page with three anchors, two of which resolve to the same absolute URL. -/
def twoLinkPage : HtmlDoc :=
  { title := none, metas := [], scriptSrcs := [], linkHrefs := [],
    anchors := [⟨some (S "a")⟩, ⟨some (S "b")⟩, ⟨some (S "a")⟩],
    forms := [], comments := [], text := [] }

/-! ### crawling.py: crawl_and_parse and the session model -/

/-- What the Render Adapter (driver.get + page_source) produced: the final URL
after redirects and the parse of the page source, or the message of the raised
exception. -/
structure RenderedPage where
  final_url : Str
  doc : HtmlDoc
deriving DecidableEq, Repr

/-- The api_input dictionary consumed by crawl_and_parse. -/
structure ApiInput where
  parent_guid : Str
  target_url : Str
  cookies : List (Str × Str)
  max_depth : Int
  remaining_depth : Int
  current_depth : Int
deriving DecidableEq, Repr

/-- The result dictionary of crawl_and_parse, keyed fields modelled as options:
`error` present exactly on the except path, `url`/report present exactly on the
success path. -/
structure CrawlResult where
  error : Option Str
  url : Option Str
  report : Option ExtractReport
deriving DecidableEq, Repr

/-- crawling.crawl_and_parse: the try block renders the page and runs the
parser (link collection gated by remaining_depth > 0); any exception — from the
driver or from a parsing pass — is caught and becomes the `error` result. -/
def crawl_and_parse (inp : ApiInput) (render : Except Str RenderedPage) : CrawlResult :=
  match render with
  | .error e => { error := some e, url := none, report := none }
  | .ok page =>
    match parse_all page.final_url page.doc (collectLinksFor inp.remaining_depth) with
    | .error e => { error := some (pyErrMsg e), url := none, report := none }
    | .ok rep => { error := none, url := some page.final_url, report := some rep }

/-- The session-lifecycle effects of crawl_and_parse, in program order:
setup_driver_session creates the temporary profile directory, the try block
navigates (twice on success, failing during navigation on a render error), and
the finally block calls driver.quit().  The shutil.rmtree(user_data_dir) call
is commented out in the source, so no profile-directory removal effect is ever
emitted. -/
inductive SessionEffect
  | createProfileDir
  | navigate
  | addCookies
  | quitDriver
  | removeProfileDir
deriving DecidableEq, Repr

def crawl_session_effects (render : Except Str RenderedPage) : List SessionEffect :=
  SessionEffect.createProfileDir ::
    (match render with
     | .error _ => [SessionEffect.navigate]
     | .ok _ => [SessionEffect.navigate, SessionEffect.addCookies, SessionEffect.navigate]) ++
    [SessionEffect.quitDriver]

/-! ### app.py: the callback payload and the /crawl route -/

/-- The callback dictionary _run_crawl_async posts to the controller. -/
structure CallbackPayload where
  guid : Str
  parent_guid : Str
  service_name : Str
  status : Str
  result_data : Option CrawlResult
  error_message : Option Str
deriving DecidableEq, Repr

/-- app._run_crawl_async: run the crawl, then build the completed payload when
the result has a url and no error, and the failed payload otherwise. -/
def run_crawl_async (task_guid : Str) (inp : ApiInput) (render : Except Str RenderedPage) :
    CallbackPayload :=
  let result := crawl_and_parse inp render
  if result.error.isNone ∧ result.url.isSome then
    { guid := task_guid, parent_guid := inp.parent_guid, service_name := S "crawler",
      status := S "completed", result_data := some result, error_message := none }
  else
    { guid := task_guid, parent_guid := inp.parent_guid, service_name := S "crawler",
      status := S "failed", result_data := none,
      error_message := some (result.error.getD (S "Unknown crawl error")) }

/-- _run_crawl_async ends with a single _post_callback call: one completion
notification per task. -/
def callbacksEmitted (task_guid : Str) (inp : ApiInput) (render : Except Str RenderedPage) :
    List CallbackPayload :=
  [run_crawl_async task_guid inp render]

/-- JSON values of the request payload, with Python truthiness. -/
inductive Jv
  | s (v : Str)
  | n (v : Int)
  | b (v : Bool)
  | null
  | arr (size : Nat)
  | obj (size : Nat)

def truthyJv : Jv → Bool
  | .s v => v ≠ []
  | .n v => v ≠ 0
  | .b v => v
  | .null => false
  | .arr size => size ≠ 0
  | .obj size => size ≠ 0

/-- Dictionary get on the JSON object (keys are unique in a parsed JSON body). -/
def lookupJv (payload : List (Str × Jv)) (k : Str) : Option Jv :=
  match payload with
  | [] => none
  | e :: r => if e.1 = k then some e.2 else lookupJv r k

/-- The response of the /crawl route, reduced to its status outcome. -/
inductive CrawlResp
  | notJson
  | badRequest (missing : List Str)
  | accepted
deriving DecidableEq, Repr

def requiredFields : List Str := [S "task_guid", S "parent_guid", S "target_url"]

/-- app.crawl: reject non-JSON bodies; compute
`missing = [f for f in required if not payload.get(f)]` and reject with 400 when
it is nonempty; otherwise accept. -/
def crawlRoute (is_json : Bool) (payload : List (Str × Jv)) : CrawlResp :=
  if is_json then
    let missing := requiredFields.filter fun f => !truthyJv ((lookupJv payload f).getD .null)
    if missing ≠ [] then .badRequest missing
    else .accepted
  else .notJson

/-- Remove a key from a JSON object. -/
def removeKey (payload : List (Str × Jv)) (k : Str) : List (Str × Jv) :=
  payload.filter fun e => e.1 ≠ k

/-- Set a key in a JSON object. -/
def setKey (payload : List (Str × Jv)) (k : Str) (v : Jv) : List (Str × Jv) :=
  (k, v) :: removeKey payload k

/-! ## Lemmas -/

/-! ### Splitter specifications -/

theorem splitOnFirst_not_mem {c : Char} {s : Str} (h : c ∉ s) :
    splitOnFirst c s = (s, none) := by
  induction s with
  | nil => rfl
  | cons a r ih =>
    have hac : ¬ (a = c) := fun hh => h (hh ▸ List.mem_cons_self a r)
    have hcr : c ∉ r := fun hh => h (List.mem_cons_of_mem a hh)
    simp [splitOnFirst, hac, ih hcr]

theorem splitOnFirst_append {c : Char} {a b : Str} (h : c ∉ a) :
    splitOnFirst c (a ++ c :: b) = (a, some b) := by
  induction a with
  | nil => simp [splitOnFirst]
  | cons x r ih =>
    have hxc : ¬ (x = c) := fun hh => h (hh ▸ List.mem_cons_self x r)
    have hcr : c ∉ r := fun hh => h (List.mem_cons_of_mem x hh)
    simp [splitOnFirst, hxc, ih hcr]

theorem splitOnFirst_spec (c : Char) (s : Str) :
    ((splitOnFirst c s).2 = none ∧ (splitOnFirst c s).1 = s ∧ c ∉ s) ∨
    ∃ t, (splitOnFirst c s).2 = some t ∧ s = (splitOnFirst c s).1 ++ c :: t ∧
      c ∉ (splitOnFirst c s).1 := by
  induction s with
  | nil => exact Or.inl ⟨rfl, rfl, by simp⟩
  | cons a r ih =>
    by_cases hac : a = c
    · subst hac
      exact Or.inr ⟨r, by simp [splitOnFirst], by simp [splitOnFirst], by simp [splitOnFirst]⟩
    · rcases ih with ⟨h2, h1, hc⟩ | ⟨t, h2, hr, hc⟩
      · refine Or.inl ⟨?_, ?_, ?_⟩
        · simp [splitOnFirst, hac, h2]
        · simp [splitOnFirst, hac, h1]
        · intro hmem
          rcases List.mem_cons.1 hmem with heq | hmem'
          · exact hac heq.symm
          · exact hc hmem'
      · refine Or.inr ⟨t, ?_, ?_, ?_⟩
        · simp [splitOnFirst, hac, h2]
        · conv_lhs => rw [hr]
          simp [splitOnFirst, hac]
        · intro hmem
          have : (splitOnFirst c (a :: r)).1 = a :: (splitOnFirst c r).1 := by
            simp [splitOnFirst, hac]
          rw [this] at hmem
          rcases List.mem_cons.1 hmem with heq | hmem'
          · exact hac heq.symm
          · exact hc hmem'

theorem splitOnLast_not_mem {c : Char} {s : Str} (h : c ∉ s) : splitOnLast c s = none := by
  induction s with
  | nil => rfl
  | cons a r ih =>
    have hac : ¬ (a = c) := fun hh => h (hh ▸ List.mem_cons_self a r)
    have hcr : c ∉ r := fun hh => h (List.mem_cons_of_mem a hh)
    simp [splitOnLast, hac, ih hcr]

theorem splitOnLast_append {c : Char} {a b : Str} (h : c ∉ b) :
    splitOnLast c (a ++ c :: b) = some (a, b) := by
  induction a with
  | nil => simp [splitOnLast, splitOnLast_not_mem h]
  | cons x r ih => simp [splitOnLast, ih]

theorem splitOnLast_spec (c : Char) (s : Str) :
    (splitOnLast c s = none ∧ c ∉ s) ∨
    ∃ a b, splitOnLast c s = some (a, b) ∧ s = a ++ c :: b ∧ c ∉ b := by
  induction s with
  | nil => exact Or.inl ⟨rfl, by simp⟩
  | cons x r ih =>
    rcases ih with ⟨h2, hc⟩ | ⟨a, b, h2, hr, hc⟩
    · by_cases hxc : x = c
      · subst hxc
        exact Or.inr ⟨[], r, by simp [splitOnLast, h2], rfl, hc⟩
      · refine Or.inl ⟨by simp [splitOnLast, h2, hxc], ?_⟩
        intro hmem
        rcases List.mem_cons.1 hmem with heq | hmem'
        · exact hxc heq.symm
        · exact hc hmem'
    · exact Or.inr ⟨x :: a, b, by simp [splitOnLast, h2], by rw [hr]; rfl, hc⟩

theorem takeUntilStops_not_mem {stops : List Char} {s : Str} (h : ∀ x ∈ s, x ∉ stops) :
    takeUntilStops stops s = (s, []) := by
  induction s with
  | nil => rfl
  | cons a r ih =>
    have ha : a ∉ stops := h a (List.mem_cons_self a r)
    have hr : ∀ x ∈ r, x ∉ stops := fun x hx => h x (List.mem_cons_of_mem a hx)
    simp [takeUntilStops, ha, ih hr]

theorem takeUntilStops_append_cons {stops : List Char} {a : Str} {d : Char} {ds : Str}
    (ha : ∀ x ∈ a, x ∉ stops) (hd : d ∈ stops) :
    takeUntilStops stops (a ++ d :: ds) = (a, d :: ds) := by
  induction a with
  | nil => simp [takeUntilStops, hd]
  | cons x r ih =>
    have hx : x ∉ stops := ha x (List.mem_cons_self x r)
    have hr : ∀ y ∈ r, y ∉ stops := fun y hy => ha y (List.mem_cons_of_mem x hy)
    simp [takeUntilStops, hx, ih hr]

theorem takeUntilStops_spec (stops : List Char) (s : Str) :
    s = (takeUntilStops stops s).1 ++ (takeUntilStops stops s).2 ∧
    (∀ x ∈ (takeUntilStops stops s).1, x ∉ stops) ∧
    ((takeUntilStops stops s).2 = [] ∨
      ∃ d ds, (takeUntilStops stops s).2 = d :: ds ∧ d ∈ stops) := by
  induction s with
  | nil => exact ⟨rfl, by simp [takeUntilStops], Or.inl rfl⟩
  | cons a r ih =>
    by_cases ha : a ∈ stops
    · refine ⟨by simp [takeUntilStops, ha], by simp [takeUntilStops, ha], ?_⟩
      exact Or.inr ⟨a, r, by simp [takeUntilStops, ha], ha⟩
    · rcases ih with ⟨hrec, hfree, hrest⟩
      refine ⟨?_, ?_, ?_⟩
      · conv_lhs => rw [show a :: r = a :: ((takeUntilStops stops r).1 ++ (takeUntilStops stops r).2) from by rw [← hrec]]
        simp [takeUntilStops, ha]
      · intro x hx
        have : (takeUntilStops stops (a :: r)).1 = a :: (takeUntilStops stops r).1 := by
          simp [takeUntilStops, ha]
        rw [this] at hx
        rcases List.mem_cons.1 hx with rfl | hx'
        · exact ha
        · exact hfree x hx'
      · have : (takeUntilStops stops (a :: r)).2 = (takeUntilStops stops r).2 := by
          simp [takeUntilStops, ha]
        rw [this]
        exact hrest

/-! ### Character facts -/

theorem char_toNat_ofNat {n : Nat} (h : n < 0xD800) : (Char.ofNat n).toNat = n := by
  have hv : Nat.isValidChar n := Or.inl h
  rw [Char.ofNat, dif_pos hv]
  simp [Char.ofNatAux, Char.toNat, UInt32.ofNat', UInt32.toNat]

theorem char_toNat_inj {c d : Char} (h : c.toNat = d.toNat) : c = d := by
  have : Char.ofNat c.toNat = Char.ofNat d.toNat := by rw [h]
  simpa [Char.ofNat_toNat] using this

theorem char_toNat_ne {c d : Char} (h : c ≠ d) : c.toNat ≠ d.toNat :=
  fun he => h (char_toNat_inj he)

theorem pyLowerChar_toNat (c : Char) :
    (pyLowerChar c).toNat =
      if 65 ≤ c.toNat ∧ c.toNat ≤ 90 then c.toNat + 32 else c.toNat := by
  rw [pyLowerChar]
  by_cases h : 65 ≤ c.toNat ∧ c.toNat ≤ 90
  · rw [if_pos (by simp [h.1, h.2]), if_pos h, char_toNat_ofNat (by omega)]
  · rw [if_neg (by simpa using h), if_neg h]

theorem pyLowerChar_idem (c : Char) : pyLowerChar (pyLowerChar c) = pyLowerChar c := by
  apply char_toNat_inj
  rw [pyLowerChar_toNat, pyLowerChar_toNat]
  by_cases h : 65 ≤ c.toNat ∧ c.toNat ≤ 90
  · simp only [if_pos h]
    rw [if_neg (by omega)]
  · simp only [if_neg h]

theorem pyLower_idem (s : Str) : pyLower (pyLower s) = pyLower s := by
  rw [pyLower, pyLower, List.map_map]
  exact List.map_congr_left fun c _ => pyLowerChar_idem c

theorem pyLowerChar_eq_self {c : Char} (h : ¬(65 ≤ c.toNat ∧ c.toNat ≤ 90)) :
    pyLowerChar c = c := by
  rw [pyLowerChar, if_neg (by simpa using h)]

/-! ### Percent-coding roundtrip -/

theorem hexVal_hexDigitU {n : Nat} (h : n < 16) : hexVal (hexDigitU n) = some n := by
  interval_cases n <;> decide

theorem unquotePlus_cons_of_ne {c : Char} (l : Str) (h1 : c ≠ '+') (h2 : c ≠ '%') :
    unquotePlus (c :: l) = c :: unquotePlus l := by
  match l with
  | [] => simp [unquotePlus, h1, h2]
  | [a] => simp [unquotePlus, h1, h2]
  | a :: b :: r => simp [unquotePlus, h1, h2]

theorem unquotePlus_cons_plus (l : Str) :
    unquotePlus ('+' :: l) = ' ' :: unquotePlus l := by
  match l with
  | [] => simp [unquotePlus]
  | [a] => simp [unquotePlus]
  | a :: b :: r => simp [unquotePlus]

theorem unquotePlus_percent_hex {a b : Char} {x y : Nat} (r : Str)
    (ha : hexVal a = some x) (hb : hexVal b = some y) :
    unquotePlus ('%' :: a :: b :: r) = Char.ofNat (16 * x + y) :: unquotePlus r := by
  simp [unquotePlus, ha, hb]

theorem quotePlus_cons (c : Char) (r : Str) :
    quotePlus (c :: r) = quotePlusChar c ++ quotePlus r := rfl

theorem unquotePlus_quotePlus (s : Str) : unquotePlus (quotePlus s) = s := by
  induction s with
  | nil => rfl
  | cons c r ih =>
    rw [quotePlus_cons, quotePlusChar]
    by_cases hsp : c = ' '
    · subst hsp
      rw [if_pos rfl]
      show unquotePlus ('+' :: quotePlus r) = ' ' :: r
      rw [unquotePlus_cons_plus, ih]
    · rw [if_neg hsp]
      by_cases hsafe : (isSafeChar c || decide (c.toNat ≥ 0x80)) = true
      · rw [if_pos hsafe]
        show unquotePlus (c :: quotePlus r) = c :: r
        have h1 : c ≠ '+' := by intro he; subst he; revert hsafe; decide
        have h2 : c ≠ '%' := by intro he; subst he; revert hsafe; decide
        rw [unquotePlus_cons_of_ne _ h1 h2, ih]
      · rw [if_neg hsafe]
        show unquotePlus
            ('%' :: hexDigitU (c.toNat / 16) :: hexDigitU (c.toNat % 16) :: quotePlus r) = c :: r
        have hlt : c.toNat < 128 := by
          simp only [Bool.or_eq_true, not_or, decide_eq_true_eq] at hsafe
          omega
        rw [unquotePlus_percent_hex _ (hexVal_hexDigitU (by omega)) (hexVal_hexDigitU (by omega)),
          ih]
        congr 1
        have hh : 16 * (c.toNat / 16) + c.toNat % 16 = c.toNat := by omega
        rw [hh, Char.ofNat_toNat]

theorem hexDigitU_toNat {n : Nat} (h : n < 16) :
    (hexDigitU n).toNat = if n < 10 then 48 + n else 55 + n := by
  rw [hexDigitU]
  by_cases h10 : n < 10
  · rw [if_pos h10, if_pos h10, char_toNat_ofNat (by omega)]
  · rw [if_neg h10, if_neg h10, char_toNat_ofNat (by omega)]

theorem mem_quotePlusChar {c x : Char} (hx : x ∈ quotePlusChar c) : isQuoteOut x = true := by
  rw [quotePlusChar] at hx
  by_cases hsp : c = ' '
  · rw [if_pos hsp] at hx
    rcases List.mem_cons.1 hx with rfl | hx'
    · decide
    · simp at hx'
  · rw [if_neg hsp] at hx
    by_cases hsafe : (isSafeChar c || decide (c.toNat ≥ 0x80)) = true
    · rw [if_pos hsafe] at hx
      rcases List.mem_cons.1 hx with rfl | hx'
      · rw [isQuoteOut]
        rcases Bool.or_eq_true _ _ |>.mp hsafe with hs | hs <;> simp [hs]
      · simp at hx'
    · rw [if_neg hsafe] at hx
      have hlt : c.toNat < 128 := by
        simp only [Bool.or_eq_true, not_or, decide_eq_true_eq] at hsafe
        omega
      have hdig : ∀ n, n < 16 → isQuoteOut (hexDigitU n) = true := by
        intro n hn
        rw [isQuoteOut]
        rw [hexDigitU_toNat hn]
        by_cases h10 : n < 10
        · rw [if_pos h10]
          have b1 : (48 ≤ 48 + n) = True := by simp
          have b2 : (48 + n ≤ 57) = True := by simp; omega
          simp [b1, b2]
        · rw [if_neg h10]
          have b1 : (65 ≤ 55 + n) = True := by simp; omega
          have b2 : (55 + n ≤ 70) = True := by simp; omega
          simp [b1, b2]
      rcases List.mem_cons.1 hx with rfl | hx'
      · decide
      · rcases List.mem_cons.1 hx' with rfl | hx''
        · exact hdig _ (by omega)
        · rcases List.mem_cons.1 hx'' with rfl | hx3
          · exact hdig _ (by omega)
          · simp at hx3

theorem mem_quotePlus {s : Str} {x : Char} (hx : x ∈ quotePlus s) : isQuoteOut x = true := by
  induction s with
  | nil => simp [quotePlus, catMaps] at hx
  | cons c r ih =>
    rw [quotePlus_cons] at hx
    rcases List.mem_append.1 hx with hx' | hx'
    · exact mem_quotePlusChar hx'
    · exact ih hx'

theorem quoteOut_ne {x : Char} (h : isQuoteOut x = true) :
    x ≠ '&' ∧ x ≠ '=' ∧ x ≠ '#' ∧ x ≠ '?' ∧ x ≠ ':' ∧ x ≠ ';' ∧
      x ≠ '\t' ∧ x ≠ '\r' ∧ x ≠ '\n' := by
  refine ⟨?_, ?_, ?_, ?_, ?_, ?_, ?_, ?_, ?_⟩ <;> (intro he; subst he; revert h; decide)

theorem quoteOut_gt_space {x : Char} (h : isQuoteOut x = true) : 0x20 < x.toNat := by
  rw [isQuoteOut] at h
  simp only [Bool.or_eq_true, decide_eq_true_eq, Bool.and_eq_true] at h
  rcases h with ((((h | h) | h) | h) | h) | h
  · subst h; decide
  · subst h; decide
  · rw [isSafeChar] at h
    simp only [Bool.or_eq_true, decide_eq_true_eq, isAsciiAlpha, isAsciiDigit,
      Bool.and_eq_true] at h
    rcases h with ((((h | h) | h) | h) | h) | h
    · rcases h with h | h <;> omega
    · omega
    · subst h; decide
    · subst h; decide
    · subst h; decide
    · subst h; decide
  · omega
  · omega
  · omega

/-! ### Query pipeline: parsing back the encoded query -/

theorem char_lt_iff_toNat (a b : Char) : a < b ↔ a.toNat < b.toNat := Iff.rfl

theorem splitAllChar_not_mem {c : Char} {s : Str} (h : c ∉ s) : splitAllChar c s = [s] := by
  induction s with
  | nil => rfl
  | cons a r ih =>
    have hac : ¬ (a = c) := fun hh => h (hh ▸ List.mem_cons_self a r)
    have hcr : c ∉ r := fun hh => h (List.mem_cons_of_mem a hh)
    simp [splitAllChar, hac, ih hcr]

theorem splitAllChar_append {c : Char} {a t : Str} (h : c ∉ a) :
    splitAllChar c (a ++ c :: t) = a :: splitAllChar c t := by
  induction a with
  | nil => simp [splitAllChar]
  | cons x r ih =>
    have hxc : ¬ (x = c) := fun hh => h (hh ▸ List.mem_cons_self x r)
    have hcr : c ∉ r := fun hh => h (List.mem_cons_of_mem x hh)
    have hr := ih hcr
    rw [List.cons_append, splitAllChar]
    rw [if_neg hxc, hr]

theorem amp_not_mem_encPair (kv : Str × Str) :
    '&' ∉ quotePlus kv.1 ++ '=' :: quotePlus kv.2 := by
  intro hmem
  rcases List.mem_append.1 hmem with h | h
  · exact (quoteOut_ne (mem_quotePlus h)).1 rfl
  · rcases List.mem_cons.1 h with h | h
    · exact absurd h (by decide)
    · exact (quoteOut_ne (mem_quotePlus h)).1 rfl

theorem qslPair_encPair (kv : Str × Str) :
    qslPair (quotePlus kv.1 ++ '=' :: quotePlus kv.2) = some kv := by
  rw [qslPair, if_neg (by simp)]
  rw [splitOnFirst_append (fun hmem => (quoteOut_ne (mem_quotePlus hmem)).2.1 rfl)]
  show some (unquotePlus (quotePlus kv.1), unquotePlus (quotePlus kv.2)) = some kv
  rw [unquotePlus_quotePlus, unquotePlus_quotePlus]

theorem parseQsl_encodePairs (l : List (Str × Str)) :
    parseQsl (joinChar '&' (l.map fun kv => quotePlus kv.1 ++ '=' :: quotePlus kv.2)) = l := by
  induction l with
  | nil => rfl
  | cons kv rest ih =>
    cases rest with
    | nil =>
      show parseQsl (quotePlus kv.1 ++ '=' :: quotePlus kv.2) = [kv]
      rw [parseQsl, splitAllChar_not_mem (amp_not_mem_encPair kv)]
      rw [List.filterMap_cons, qslPair_encPair]
      rfl
    | cons kv2 rest2 =>
      rw [List.map_cons, List.map_cons]
      rw [show joinChar '&' ((quotePlus kv.1 ++ '=' :: quotePlus kv.2) ::
            (quotePlus kv2.1 ++ '=' :: quotePlus kv2.2) ::
            (rest2.map fun kv => quotePlus kv.1 ++ '=' :: quotePlus kv.2)) =
          (quotePlus kv.1 ++ '=' :: quotePlus kv.2) ++ '&' ::
            joinChar '&' ((quotePlus kv2.1 ++ '=' :: quotePlus kv2.2) ::
              (rest2.map fun kv => quotePlus kv.1 ++ '=' :: quotePlus kv.2)) from rfl]
      rw [parseQsl, splitAllChar_append (amp_not_mem_encPair kv)]
      rw [List.filterMap_cons, qslPair_encPair]
      have ih' := ih
      rw [parseQsl, List.map_cons] at ih'
      exact congrArg (List.cons kv) ih'

theorem flatPairs_map_enc (items : List (Str × List Str)) :
    (flatPairs items).map (fun kv => quotePlus kv.1 ++ '=' :: quotePlus kv.2) =
      catMaps (fun kv => kv.2.map fun v => quotePlus kv.1 ++ '=' :: quotePlus v) items := by
  induction items with
  | nil => rfl
  | cons kv rest ih =>
    rw [flatPairs, catMaps, List.map_append, List.map_map, catMaps]
    rw [show flatPairs rest = catMaps (fun kv => kv.2.map fun v => (kv.1, v)) rest from rfl] at ih
    rw [ih]
    rfl

/-- parse_qsl recovers exactly the flattened pairs from the doseq encoding. -/
theorem parseQsl_urlencodeDoseq (items : List (Str × List Str)) :
    parseQsl (urlencodeDoseq items) = flatPairs items := by
  rw [urlencodeDoseq, ← flatPairs_map_enc]
  exact parseQsl_encodePairs (flatPairs items)

/-! ### Query pipeline: grouping, sorting, and idempotence -/

theorem qsStep_new_key (acc : List (Str × List Str)) (kv : Str × Str)
    (h : ∀ e ∈ acc, e.1 ≠ kv.1) :
    qsStep acc kv = acc ++ [(kv.1, [kv.2])] := by
  rw [qsStep, if_neg ?_]
  intro hany
  rcases List.any_eq_true.1 hany with ⟨e, he, hpe⟩
  exact h e he (by simpa using hpe)

theorem qsStep_old_key (pre : List (Str × List Str)) (k : Str) (cur : List Str)
    (v : Str) (hk : ∀ e ∈ pre, e.1 ≠ k) :
    qsStep (pre ++ [(k, cur)]) (k, v) = pre ++ [(k, cur ++ [v])] := by
  rw [qsStep, if_pos ?_]
  · rw [List.map_append]
    congr 1
    · rw [show (pre.map fun e => if e.1 = (k, v).1 then (e.1, e.2 ++ [(k, v).2]) else e) =
          pre.map id from List.map_congr_left ?_, List.map_id]
      intro e he
      simp [hk e he]
    · simp
  · exact List.any_eq_true.2 ⟨(k, cur), List.mem_append_right _ (List.mem_cons_self _ _), by simp⟩

theorem foldl_qsStep_same_key (pre : List (Str × List Str)) (k : Str) (cur vs₀ : List Str)
    (hk : ∀ e ∈ pre, e.1 ≠ k) :
    (vs₀.map fun v => (k, v)).foldl qsStep (pre ++ [(k, cur)]) = pre ++ [(k, cur ++ vs₀)] := by
  induction vs₀ generalizing cur with
  | nil => simp
  | cons v vs ih =>
    rw [List.map_cons, List.foldl_cons, qsStep_old_key pre k cur v hk, ih (cur ++ [v])]
    simp

theorem foldl_qsStep_flat (items : List (Str × List Str)) :
    ∀ acc, (∀ e ∈ acc, ∀ e2 ∈ items, e.1 ≠ e2.1) → (keysOf items).Nodup →
      (∀ e ∈ items, e.2 ≠ []) →
      (flatPairs items).foldl qsStep acc = acc ++ items := by
  induction items with
  | nil => intro acc _ _ _; simp [flatPairs, catMaps]
  | cons kv rest ih =>
    intro acc hdisj hnodup hne
    have hkvne : kv.2 ≠ [] := hne kv (List.mem_cons_self _ _)
    rcases hkv2 : kv.2 with _ | ⟨v, vs'⟩
    · exact absurd hkv2 hkvne
    · rw [show flatPairs (kv :: rest) = (kv.2.map fun v => (kv.1, v)) ++ flatPairs rest from rfl]
      rw [List.foldl_append, hkv2, List.map_cons, List.foldl_cons]
      rw [qsStep_new_key acc (kv.1, v) (fun e he => hdisj e he kv (List.mem_cons_self _ _))]
      rw [foldl_qsStep_same_key acc kv.1 [v] vs'
        (fun e he => hdisj e he kv (List.mem_cons_self _ _))]
      have hkeyfresh : kv.1 ∉ keysOf rest := by
        intro hmem
        rw [keysOf, List.map_cons] at hnodup
        exact (List.nodup_cons.1 hnodup).1 (by rwa [keysOf] at hmem)
      have hacc' : ∀ e ∈ acc ++ [(kv.1, [v] ++ vs')], ∀ e2 ∈ rest, e.1 ≠ e2.1 := by
        intro e he e2 he2
        rcases List.mem_append.1 he with he | he
        · exact hdisj e he e2 (List.mem_cons_of_mem _ he2)
        · rcases List.mem_cons.1 he with rfl | hf
          · intro hcontra
            exact hkeyfresh (by rw [keysOf, List.mem_map]; exact ⟨e2, he2, hcontra.symm⟩)
          · simp at hf
      have hrest_nodup : (keysOf rest).Nodup := by
        rw [keysOf, List.map_cons] at hnodup
        exact (List.nodup_cons.1 hnodup).2
      rw [ih (acc ++ [(kv.1, [v] ++ vs')]) hacc' hrest_nodup
        (fun e he => hne e (List.mem_cons_of_mem _ he))]
      rw [List.append_assoc]
      congr 1
      have hkv : (kv.1, [v] ++ vs') = kv := by
        rw [show [v] ++ vs' = v :: vs' from rfl, ← hkv2]
      rw [hkv]
      rfl

theorem qsGroup_flatPairs {items : List (Str × List Str)}
    (hnodup : (keysOf items).Nodup) (hne : ∀ e ∈ items, e.2 ≠ []) :
    qsGroup (flatPairs items) = items := by
  have := foldl_qsStep_flat items [] (by simp) hnodup hne
  simpa [qsGroup] using this

theorem qsGroup_spec (pairs : List (Str × Str)) :
    (keysOf (qsGroup pairs)).Nodup ∧ ∀ e ∈ qsGroup pairs, e.2 ≠ [] := by
  suffices hgen : ∀ acc, (keysOf acc).Nodup → (∀ e ∈ acc, e.2 ≠ []) →
      (keysOf (pairs.foldl qsStep acc)).Nodup ∧ ∀ e ∈ pairs.foldl qsStep acc, e.2 ≠ [] by
    exact hgen [] (by simp [keysOf]) (by simp)
  induction pairs with
  | nil => exact fun acc h1 h2 => ⟨h1, h2⟩
  | cons kv rest ih =>
    intro acc h1 h2
    rw [List.foldl_cons]
    apply ih
    · rw [qsStep]
      by_cases h : acc.any (fun e => e.1 = kv.1) = true
      · rw [if_pos h]
        have hkeys : keysOf (acc.map fun e => if e.1 = kv.1 then (e.1, e.2 ++ [kv.2]) else e) =
            keysOf acc := by
          rw [keysOf, keysOf, List.map_map]
          apply List.map_congr_left
          intro e _
          by_cases hek : e.1 = kv.1 <;> simp [hek]
        rw [hkeys]
        exact h1
      · rw [if_neg h]
        have hfresh : kv.1 ∉ keysOf acc := by
          intro hmem
          rcases List.mem_map.1 hmem with ⟨e, he, heq⟩
          exact h (List.any_eq_true.2 ⟨e, he, by simp [heq]⟩)
        rw [keysOf, List.map_append]
        refine List.Nodup.append h1 (by simp) ?_
        intro a ha hb
        rcases List.mem_map.1 hb with ⟨e, he, heq⟩
        rcases List.mem_cons.1 he with rfl | hf
        · exact hfresh (heq ▸ ha)
        · simp at hf
    · intro e he
      rw [qsStep] at he
      by_cases h : acc.any (fun e => e.1 = kv.1) = true
      · rw [if_pos h] at he
        rcases List.mem_map.1 he with ⟨e0, he0, heq⟩
        by_cases hek : e0.1 = kv.1
        · rw [if_pos hek] at heq
          rw [← heq]
          simp
        · rw [if_neg hek] at heq
          exact heq ▸ h2 e0 he0
      · rw [if_neg h] at he
        rcases List.mem_append.1 he with he' | he'
        · exact h2 e he'
        · rcases List.mem_cons.1 he' with rfl | hf
          · simp
          · simp at hf

theorem strLe_total (a b : Str) : strLe a b = true ∨ strLe b a = true := by
  induction a generalizing b with
  | nil => exact Or.inl rfl
  | cons x r ih =>
    cases b with
    | nil => exact Or.inr rfl
    | cons y s =>
      by_cases hxy : x = y
      · subst hxy
        rw [strLe, if_pos rfl, strLe, if_pos rfl]
        exact ih s
      · rw [strLe, if_neg hxy, strLe, if_neg (fun hh => hxy hh.symm)]
        have hne : x.toNat ≠ y.toNat := char_toNat_ne hxy
        rcases Nat.lt_or_ge x.toNat y.toNat with h | h
        · exact Or.inl (by simp [decide_eq_true_eq, char_lt_iff_toNat]; omega)
        · exact Or.inr (by simp [decide_eq_true_eq, char_lt_iff_toNat]; omega)

theorem strLe_trans {a b c : Str} (h1 : strLe a b = true) (h2 : strLe b c = true) :
    strLe a c = true := by
  induction a generalizing b c with
  | nil => rfl
  | cons x r ih =>
    cases b with
    | nil => rw [strLe] at h1; exact absurd h1 (by simp)
    | cons y s =>
      cases c with
      | nil => rw [strLe] at h2; exact absurd h2 (by simp)
      | cons z t =>
        by_cases hxy : x = y
        · subst hxy
          rw [strLe, if_pos rfl] at h1
          by_cases hyz : x = z
          · subst hyz
            rw [strLe, if_pos rfl] at h2 ⊢
            exact ih h1 h2
          · rw [strLe, if_neg hyz] at h2 ⊢
            exact h2
        · rw [strLe, if_neg hxy] at h1
          have hxy' : x.toNat < y.toNat := by
            have := of_decide_eq_true h1
            exact (char_lt_iff_toNat x y).1 this
          by_cases hyz : y = z
          · subst hyz
            rw [strLe, if_neg hxy]
            exact h1
          · rw [strLe, if_neg hyz] at h2
            have hyz' : y.toNat < z.toNat := by
              have := of_decide_eq_true h2
              exact (char_lt_iff_toNat y z).1 this
            have hxzne : x ≠ z := by
              intro hh
              subst hh
              omega
            rw [strLe, if_neg hxzne]
            exact decide_eq_true ((char_lt_iff_toNat x z).2 (by omega))

theorem insertPairSorted_perm (x : Str × List Str) (l : List (Str × List Str)) :
    (insertPairSorted x l).Perm (x :: l) := by
  induction l with
  | nil => exact List.Perm.refl _
  | cons y r ih =>
    rw [insertPairSorted]
    by_cases h : strLe x.1 y.1 = true
    · rw [if_pos h]
    · rw [if_neg h]
      exact (List.Perm.cons y ih).trans (List.Perm.swap x y r)

theorem sortPairs_perm (l : List (Str × List Str)) : (sortPairs l).Perm l := by
  induction l with
  | nil => exact List.Perm.refl _
  | cons x r ih =>
    show (insertPairSorted x (sortPairs r)).Perm (x :: r)
    exact (insertPairSorted_perm x (sortPairs r)).trans (List.Perm.cons x ih)

theorem insertPairSorted_pairwise (x : Str × List Str) (l : List (Str × List Str))
    (hl : l.Pairwise (fun e f => strLe e.1 f.1 = true)) :
    (insertPairSorted x l).Pairwise (fun e f => strLe e.1 f.1 = true) := by
  induction l with
  | nil => simp [insertPairSorted]
  | cons y r ih =>
    rw [insertPairSorted]
    by_cases h : strLe x.1 y.1 = true
    · rw [if_pos h]
      refine List.Pairwise.cons ?_ hl
      intro e he
      rcases List.mem_cons.1 he with rfl | he'
      · exact h
      · exact strLe_trans h ((List.pairwise_cons.1 hl).1 e he')
    · rw [if_neg h]
      have hyx : strLe y.1 x.1 = true := (strLe_total x.1 y.1).resolve_left h
      refine List.Pairwise.cons ?_ (ih (List.pairwise_cons.1 hl).2)
      intro e he
      have hmem : e ∈ x :: r := (insertPairSorted_perm x r).mem_iff.1 he
      rcases List.mem_cons.1 hmem with rfl | he'
      · exact hyx
      · exact (List.pairwise_cons.1 hl).1 e he'

theorem sortPairs_pairwise (l : List (Str × List Str)) :
    (sortPairs l).Pairwise (fun e f => strLe e.1 f.1 = true) := by
  induction l with
  | nil => simp [sortPairs]
  | cons x r ih => exact insertPairSorted_pairwise x (sortPairs r) ih

theorem sortPairs_eq_self {l : List (Str × List Str)}
    (h : l.Pairwise (fun e f => strLe e.1 f.1 = true)) : sortPairs l = l := by
  induction l with
  | nil => rfl
  | cons x r ih =>
    have h' := List.pairwise_cons.1 h
    show insertPairSorted x (sortPairs r) = x :: r
    rw [ih h'.2]
    cases r with
    | nil => rfl
    | cons y t =>
      rw [insertPairSorted, if_pos (h'.1 y (List.mem_cons_self y t))]

/-- normQuery maps canonical item lists (unique keys, nonempty value lists,
no tracked keys, key-sorted) to their own encoding. -/
theorem normQuery_of_canonical {items : List (Str × List Str)}
    (hnodup : (keysOf items).Nodup) (hvals : ∀ e ∈ items, e.2 ≠ [])
    (hpass : ∀ e ∈ items, (!(memB e.1 params_to_remove)) = true)
    (hsorted : items.Pairwise (fun e f => strLe e.1 f.1 = true)) :
    normQuery (urlencodeDoseq items) = urlencodeDoseq items := by
  rw [normQuery, parseQsl_urlencodeDoseq, qsGroup_flatPairs hnodup hvals,
    List.filter_eq_self.2 hpass, sortPairs_eq_self hsorted]

/-- The items produced inside normQuery are canonical. -/
theorem normQuery_items_canonical (q : Str) :
    (keysOf (sortPairs ((qsGroup (parseQsl q)).filter
        (fun e => !(memB e.1 params_to_remove))))).Nodup ∧
    (∀ e ∈ sortPairs ((qsGroup (parseQsl q)).filter
        (fun e => !(memB e.1 params_to_remove))), e.2 ≠ []) ∧
    (∀ e ∈ sortPairs ((qsGroup (parseQsl q)).filter
        (fun e => !(memB e.1 params_to_remove))), (!(memB e.1 params_to_remove)) = true) ∧
    (sortPairs ((qsGroup (parseQsl q)).filter
        (fun e => !(memB e.1 params_to_remove)))).Pairwise
      (fun e f => strLe e.1 f.1 = true) := by
  have hspec := qsGroup_spec (parseQsl q)
  have hitems_mem : ∀ e ∈ sortPairs ((qsGroup (parseQsl q)).filter
      (fun e => !(memB e.1 params_to_remove))),
      e ∈ (qsGroup (parseQsl q)).filter (fun e => !(memB e.1 params_to_remove)) :=
    fun e he => ((sortPairs_perm _).mem_iff).1 he
  refine ⟨?_, ?_, ?_, sortPairs_pairwise _⟩
  · have hsub : (keysOf ((qsGroup (parseQsl q)).filter
        (fun e => !(memB e.1 params_to_remove)))).Sublist (keysOf (qsGroup (parseQsl q))) := by
      simp only [keysOf]
      exact (List.filter_sublist _).map _
    have hfl_nodup := hspec.1.sublist hsub
    have hperm : (keysOf (sortPairs ((qsGroup (parseQsl q)).filter
        (fun e => !(memB e.1 params_to_remove))))).Perm
        (keysOf ((qsGroup (parseQsl q)).filter (fun e => !(memB e.1 params_to_remove)))) := by
      simp only [keysOf]
      exact (sortPairs_perm _).map _
    exact hperm.nodup_iff.2 hfl_nodup
  · exact fun e he => hspec.2 e (List.mem_of_mem_filter (hitems_mem e he))
  · exact fun e he =>
      List.of_mem_filter
        (p := fun (x : Str × List Str) => !(memB x.1 params_to_remove)) (hitems_mem e he)

/-- The query pipeline of normalize_url is idempotent: re-normalizing the
encoded query reproduces it. -/
theorem normQuery_idem (q : Str) : normQuery (normQuery q) = normQuery q := by
  obtain ⟨h1, h2, h3, h4⟩ := normQuery_items_canonical q
  exact normQuery_of_canonical h1 h2 h3 h4

/-! ### Decimal numeral roundtrip -/

theorem digitsToNat_append_digit (a : Str) (c : Char) :
    digitsToNat (a ++ [c]) = digitsToNat a * 10 + (c.toNat - 48) := by
  rw [digitsToNat, digitsToNat, List.foldl_append]
  rfl

theorem natRepr_spec (n : Nat) :
    natRepr n ≠ [] ∧ (∀ c ∈ natRepr n, 48 ≤ c.toNat ∧ c.toNat ≤ 57) ∧
      digitsToNat (natRepr n) = n := by
  induction n using Nat.strong_induction_on with
  | _ n ih =>
    by_cases h : n < 10
    · rw [natRepr, dif_pos h]
      refine ⟨by simp, ?_, ?_⟩
      · intro c hc
        rcases List.mem_singleton.1 hc with rfl
        rw [digitChar, char_toNat_ofNat (by omega)]
        omega
      · rw [show ([digitChar n] : Str) = [] ++ [digitChar n] from rfl, digitsToNat_append_digit]
        rw [digitChar, char_toNat_ofNat (by omega)]
        rw [show digitsToNat [] = 0 from rfl]
        omega
    · rw [natRepr, dif_neg h]
      have ih' := ih (n / 10) (Nat.div_lt_self (by omega) (by norm_num))
      refine ⟨by simp [ih'.1], ?_, ?_⟩
      · intro c hc
        rcases List.mem_append.1 hc with hc | hc
        · exact ih'.2.1 c hc
        · rcases List.mem_singleton.1 hc with rfl
          rw [digitChar, char_toNat_ofNat (by omega)]
          omega
      · rw [digitsToNat_append_digit, ih'.2.2, digitChar, char_toNat_ofNat (by omega)]
        omega

theorem parseDigits_natRepr (n : Nat) : parseDigits (natRepr n) = some n := by
  obtain ⟨hne, hdig, hval⟩ := natRepr_spec n
  have hall : (natRepr n).all isAsciiDigit = true := by
    rw [List.all_eq_true]
    intro c hc
    have := hdig c hc
    rw [isAsciiDigit]
    simp only [Bool.and_eq_true, decide_eq_true_eq]
    omega
  rw [parseDigits, if_pos ⟨hne, hall⟩, hval]

/-! ### Membership and head transfer through the splitters -/

theorem mem_of_splitOnFirst_fst {c x : Char} {s : Str} (h : x ∈ (splitOnFirst c s).1) :
    x ∈ s := by
  rcases splitOnFirst_spec c s with ⟨_, h1, _⟩ | ⟨t, _, hrec, _⟩
  · rwa [h1] at h
  · rw [hrec]
    exact List.mem_append_left _ h

theorem mem_of_splitOnFirst_snd {c x : Char} {s t : Str}
    (h2 : (splitOnFirst c s).2 = some t) (h : x ∈ t) : x ∈ s := by
  rcases splitOnFirst_spec c s with ⟨hn, _, _⟩ | ⟨t', hs, hrec, _⟩
  · rw [hn] at h2; cases h2
  · rw [hs] at h2
    cases h2
    rw [hrec]
    exact List.mem_append_right _ (List.mem_cons_of_mem _ h)

theorem mem_of_takeUntil_fst {stops : List Char} {x : Char} {s : Str}
    (h : x ∈ (takeUntilStops stops s).1) : x ∈ s := by
  have := (takeUntilStops_spec stops s).1
  rw [this]
  exact List.mem_append_left _ h

theorem mem_of_takeUntil_snd {stops : List Char} {x : Char} {s : Str}
    (h : x ∈ (takeUntilStops stops s).2) : x ∈ s := by
  have := (takeUntilStops_spec stops s).1
  rw [this]
  exact List.mem_append_right _ h

theorem splitOnFirst_fst_head {c : Char} {s : Str} (h : (splitOnFirst c s).1 ≠ []) :
    (splitOnFirst c s).1.headD ' ' = s.headD ' ' := by
  rcases splitOnFirst_spec c s with ⟨_, h1, _⟩ | ⟨t, _, hrec, _⟩
  · rw [h1]
  · conv_rhs => rw [hrec]
    rcases hf : (splitOnFirst c s).1 with _ | ⟨a, r⟩
    · exact absurd hf h
    · simp

theorem mem_dropTabCrLf {x : Char} {s : Str} (h : x ∈ dropTabCrLf s) :
    x ∈ s ∧ ¬(x = '\t' ∨ x = '\r' ∨ x = '\n') := by
  have := List.mem_filter.1 h
  refine ⟨this.1, ?_⟩
  have h2 := this.2
  simp only [Bool.not_eq_true', Bool.or_eq_false_iff, decide_eq_false_iff_not] at h2
  tauto

theorem dropTabCrLf_eq_self {s : Str} (h : ∀ x ∈ s, ¬(x = '\t' ∨ x = '\r' ∨ x = '\n')) :
    dropTabCrLf s = s := by
  rw [dropTabCrLf, List.filter_eq_self]
  intro a ha
  have := h a ha
  simp only [Bool.not_eq_true', Bool.or_eq_false_iff, decide_eq_false_iff_not]
  tauto

theorem dropWhile_first_false {p : Char → Bool} {u : Str} {c : Char} {r : Str}
    (h : u.dropWhile p = c :: r) : p c = false := by
  induction u with
  | nil => simp at h
  | cons a t ih =>
    by_cases hp : p a = true
    · rw [List.dropWhile_cons_of_pos hp] at h
      exact ih h
    · rw [List.dropWhile_cons_of_neg hp] at h
      cases h
      simpa using hp

theorem dropWhile_isC0_eq_self {s : Str} {c : Char} {r : Str}
    (hs : s = c :: r) (h : 0x20 < c.toNat) : s.dropWhile isC0OrSpace = s := by
  subst hs
  rw [List.dropWhile_cons_of_neg]
  rw [isC0OrSpace]
  simp only [decide_eq_true_eq, not_le]
  omega

/-! ### Lower-casing preservation facts -/

theorem pyLower_ne_nil {s : Str} (h : s ≠ []) : pyLower s ≠ [] := by
  cases s with
  | nil => exact absurd rfl h
  | cons a r => simp [pyLower]

theorem pyLowerChar_eq_bad {c d : Char} (hd : d.toNat < 97) (h : pyLowerChar c = d) : c = d := by
  rw [pyLowerChar] at h
  by_cases hc : 65 ≤ c.toNat ∧ c.toNat ≤ 90
  · rw [if_pos (by simp only [Bool.and_eq_true, decide_eq_true_eq]; exact hc)] at h
    have ht : (Char.ofNat (c.toNat + 32)).toNat = c.toNat + 32 := char_toNat_ofNat (by omega)
    have hd' : d.toNat = c.toNat + 32 := by rw [← h, ht]
    omega
  · rwa [if_neg (by simpa using hc)] at h

theorem not_mem_pyLower {s : Str} {d : Char} (hd : d.toNat < 97) (h : d ∉ s) :
    d ∉ pyLower s := by
  intro hmem
  rcases List.mem_map.1 hmem with ⟨c, hc, heq⟩
  exact h (pyLowerChar_eq_bad hd heq ▸ hc)

theorem pyLowerChar_schemeChar {c : Char} (h : isSchemeChar c = true) :
    isSchemeChar (pyLowerChar c) = true := by
  rw [pyLowerChar]
  by_cases hc : 65 ≤ c.toNat ∧ c.toNat ≤ 90
  · rw [if_pos (by simp only [Bool.and_eq_true, decide_eq_true_eq]; exact hc)]
    rw [isSchemeChar, isAsciiAlpha]
    have ht : (Char.ofNat (c.toNat + 32)).toNat = c.toNat + 32 := char_toNat_ofNat (by omega)
    simp only [ht, Bool.or_eq_true, Bool.and_eq_true, decide_eq_true_eq]
    left; left; left
    omega
  · rwa [if_neg (by simpa using hc)]

theorem pyLowerChar_alpha {c : Char} (h : isAsciiAlpha c = true) :
    isAsciiAlpha (pyLowerChar c) = true := by
  rw [isAsciiAlpha] at h
  simp only [Bool.or_eq_true, Bool.and_eq_true, decide_eq_true_eq] at h
  rw [pyLowerChar]
  by_cases hc : 65 ≤ c.toNat ∧ c.toNat ≤ 90
  · rw [if_pos (by simp only [Bool.and_eq_true, decide_eq_true_eq]; exact hc)]
    rw [isAsciiAlpha]
    have ht : (Char.ofNat (c.toNat + 32)).toNat = c.toNat + 32 := char_toNat_ofNat (by omega)
    simp only [ht, Bool.or_eq_true, Bool.and_eq_true, decide_eq_true_eq]
    left
    omega
  · rw [if_neg (by simpa using hc)]
    rw [isAsciiAlpha]
    simp only [Bool.or_eq_true, Bool.and_eq_true, decide_eq_true_eq]
    omega

theorem pyLower_all_schemeChar {s : Str} (h : s.all isSchemeChar = true) :
    (pyLower s).all isSchemeChar = true := by
  rw [List.all_eq_true] at h ⊢
  intro x hx
  rcases List.mem_map.1 hx with ⟨c, hc, heq⟩
  exact heq ▸ pyLowerChar_schemeChar (h c hc)

theorem pyLower_headD (s : Str) : (pyLower s).headD ' ' = pyLowerChar (s.headD ' ') := by
  cases s with
  | nil => rfl
  | cons a r => rfl

theorem not_mem_of_all_schemeChar {s : Str} {c : Char} (h : s.all isSchemeChar = true)
    (hc : isSchemeChar c = false) : c ∉ s := by
  intro hmem
  rw [List.all_eq_true] at h
  rw [h c hmem] at hc
  cases hc

/-! ### First-colon decompositions and the scheme split -/

theorem splitOnFirst_cons_ne {c a : Char} {r : Str} (h : a ≠ c) :
    splitOnFirst c (a :: r) = (a :: (splitOnFirst c r).1, (splitOnFirst c r).2) := by
  rcases he : splitOnFirst c r with ⟨b, o⟩
  rw [splitOnFirst, if_neg h, he]

theorem splitOnFirst_append_no {c : Char} {a s : Str} (h : c ∉ a) :
    splitOnFirst c (a ++ s) = (a ++ (splitOnFirst c s).1, (splitOnFirst c s).2) := by
  induction a with
  | nil => simp
  | cons x r ih =>
    have hx : x ≠ c := fun he => h (he ▸ List.mem_cons_self x r)
    have hr : c ∉ r := fun hm => h (List.mem_cons_of_mem x hm)
    rw [List.cons_append, splitOnFirst_cons_ne hx, ih hr, List.cons_append]

theorem colon_prefix {p q b t : Str} (h : p ++ q = b ++ ':' :: t) (hb : ':' ∉ b)
    (hp : ':' ∈ p) : ∃ pt, p = b ++ ':' :: pt := by
  rcases splitOnFirst_spec ':' p with ⟨_, _, hnot⟩ | ⟨pt, hsnd, hrec, hnb⟩
  · exact absurd hp hnot
  · refine ⟨pt, ?_⟩
    have h1 : splitOnFirst ':' (p ++ q) =
        ((splitOnFirst ':' p).1, some (pt ++ q)) := by
      conv_lhs => rw [hrec, List.append_assoc, List.cons_append]
      exact splitOnFirst_append hnb
    have h2 : splitOnFirst ':' (p ++ q) = (b, some t) := by
      rw [h, splitOnFirst_append hb]
    rw [h1] at h2
    have hfst : (splitOnFirst ':' p).1 = b := congrArg Prod.fst h2
    rw [hrec, hfst]

theorem noSchemeText_none {s b : Str} (h : splitOnFirst ':' s = (b, none)) :
    noSchemeText s = true := by
  rw [noSchemeText, h]

theorem noSchemeText_some {s b t : Str} (h : splitOnFirst ':' s = (b, some t)) :
    noSchemeText s =
      !(decide (b ≠ []) && isAsciiAlpha (b.headD ' ') && b.all isSchemeChar) := by
  rw [noSchemeText, h]

theorem schemeSplit_none {url d b : Str} (h : splitOnFirst ':' url = (b, none)) :
    schemeSplit url d = (d, url) := by
  rw [schemeSplit, h]

theorem schemeSplit_some {url d b t : Str} (h : splitOnFirst ':' url = (b, some t)) :
    schemeSplit url d =
      if b ≠ [] ∧ isAsciiAlpha (b.headD ' ') = true ∧ b.all isSchemeChar = true then
        (pyLower b, t)
      else (d, url) := by
  rw [schemeSplit, h]

theorem noSchemeText_of_no_colon {s : Str} (h : ':' ∉ s) : noSchemeText s = true :=
  noSchemeText_none (splitOnFirst_not_mem h)

theorem noSchemeText_of_head {s : Str} (h : isAsciiAlpha (s.headD ' ') = false) :
    noSchemeText s = true := by
  rcases hsp : splitOnFirst ':' s with ⟨b, o⟩
  cases o with
  | none => exact noSchemeText_none hsp
  | some t =>
    rw [noSchemeText_some hsp]
    by_cases hb : b = []
    · subst hb; simp
    · have hh : b.headD ' ' = s.headD ' ' := by
        have hfh := splitOnFirst_fst_head (c := ':') (s := s) (by rw [hsp]; exact hb)
        rw [hsp] at hfh; exact hfh
      rw [Bool.not_eq_true', hh, h, Bool.and_false, Bool.false_and]

theorem noSchemeText_of_bad_before {a d : Str} {c : Char} (ha : ':' ∉ a) (hc : c ≠ ':')
    (hbad : isSchemeChar c = false) : noSchemeText (a ++ c :: d) = true := by
  have hna : ':' ∉ a ++ [c] := by
    intro hm
    rcases List.mem_append.1 hm with hm | hm
    · exact ha hm
    · rcases List.mem_singleton.1 hm with rfl
      exact hc rfl
  have hspl := splitOnFirst_append_no (c := ':') (s := d) hna
  rcases ho : (splitOnFirst ':' d).2 with _ | t2
  all_goals rw [ho] at hspl
  all_goals rw [show a ++ c :: d = (a ++ [c]) ++ d by simp]
  · exact noSchemeText_none hspl
  · rw [noSchemeText_some hspl]
    have hmem : c ∈ (a ++ [c]) ++ (splitOnFirst ':' d).1 := by
      refine List.mem_append_left _ (List.mem_append_right _ ?_)
      exact List.mem_singleton.2 rfl
    have hall : ((a ++ [c]) ++ (splitOnFirst ':' d).1).all isSchemeChar = false := by
      rcases hcase : ((a ++ [c]) ++ (splitOnFirst ':' d).1).all isSchemeChar with _ | _
      · rfl
      · rw [List.all_eq_true] at hcase
        rw [hcase c hmem] at hbad
        cases hbad
    rw [Bool.not_eq_true', hall, Bool.and_false]

theorem schemeSplit_of_noSchemeText {s : Str} (d : Str) (h : noSchemeText s = true) :
    schemeSplit s d = (d, s) := by
  rcases hsp : splitOnFirst ':' s with ⟨b, o⟩
  cases o with
  | none => exact schemeSplit_none hsp
  | some t =>
    rw [noSchemeText_some hsp, Bool.not_eq_true'] at h
    rw [schemeSplit_some hsp, if_neg ?_]
    intro hv
    obtain ⟨h1, h2, h3⟩ := hv
    rw [h3, decide_eq_true h1, Bool.true_and, Bool.and_true, h2] at h
    cases h

theorem mem_schemeSplit_snd {s d : Str} {x : Char} (h : x ∈ (schemeSplit s d).2) : x ∈ s := by
  rcases hsp : splitOnFirst ':' s with ⟨b, o⟩
  cases o with
  | none => rw [schemeSplit_none hsp] at h; exact h
  | some t =>
    rw [schemeSplit_some hsp] at h
    by_cases hv : b ≠ [] ∧ isAsciiAlpha (b.headD ' ') = true ∧ b.all isSchemeChar = true
    · rw [if_pos hv] at h
      exact mem_of_splitOnFirst_snd (by rw [hsp]) h
    · rw [if_neg hv] at h
      exact h

theorem schemeSplit_valid {sc rest : Str} (d : Str) (h1 : sc ≠ [])
    (h2 : isAsciiAlpha (sc.headD ' ') = true) (h3 : sc.all isSchemeChar = true) :
    schemeSplit (sc ++ ':' :: rest) d = (pyLower sc, rest) := by
  have hns : ':' ∉ sc := not_mem_of_all_schemeChar h3 (by decide)
  rw [schemeSplit_some (splitOnFirst_append hns), if_pos ⟨h1, h2, h3⟩]

theorem schemeSplit_cases (url dflt : Str) :
    schemeSplit url dflt = (dflt, url) ∨
    ∃ b t, url = b ++ ':' :: t ∧ b ≠ [] ∧ isAsciiAlpha (b.headD ' ') = true ∧
      b.all isSchemeChar = true ∧ ':' ∉ b ∧ schemeSplit url dflt = (pyLower b, t) := by
  rcases hsp : splitOnFirst ':' url with ⟨b, o⟩
  cases o with
  | none => exact Or.inl (schemeSplit_none hsp)
  | some t =>
    rcases splitOnFirst_spec ':' url with ⟨hn, _, _⟩ | ⟨t', hs, hrec, hnb⟩
    · rw [hsp] at hn; cases hn
    · rw [hsp] at hs hrec hnb
      have hteq : t' = t := Option.some.inj hs.symm
      subst hteq
      by_cases hv : b ≠ [] ∧ isAsciiAlpha (b.headD ' ') = true ∧ b.all isSchemeChar = true
      · exact Or.inr ⟨b, t', hrec, hv.1, hv.2.1, hv.2.2, hnb,
          by rw [schemeSplit_some hsp, if_pos hv]⟩
      · exact Or.inl (by rw [schemeSplit_some hsp, if_neg hv])

/-! ### rstrip, the trailing-slash phase, and the params split -/

theorem headD_append {a b : List α} {d : α} (h : a ≠ []) : (a ++ b).headD d = a.headD d := by
  cases a with
  | nil => exact absurd rfl h
  | cons x r => rfl

theorem rstripChar_decomp (k : Char) (s : Str) :
    ∃ j, s = rstripChar k s ++ j ∧ ∀ x ∈ j, x = k := by
  refine ⟨(s.reverse.takeWhile (· = k)).reverse, ?_, ?_⟩
  · rw [rstripChar]
    conv_lhs => rw [← List.reverse_reverse s,
      ← List.takeWhile_append_dropWhile (p := (· = k)) (l := s.reverse)]
    rw [List.reverse_append]
  · intro x hx
    have hm := List.mem_takeWhile_imp (List.mem_reverse.1 hx)
    simpa using hm

theorem rstripChar_cons_ne_nil {k : Char} {s : Str} (h : rstripChar k s ≠ []) (x : Char) :
    rstripChar k (x :: s) = x :: rstripChar k s := by
  have hne : ¬((s.reverse.dropWhile (· = k)).isEmpty = true) := by
    intro he
    rw [List.isEmpty_iff] at he
    rw [rstripChar, he] at h
    exact h rfl
  rw [rstripChar, List.reverse_cons, List.dropWhile_append, if_neg hne, List.reverse_append,
    rstripChar]
  simp

theorem rstripChar_append {k : Char} {a b : Str} (h : rstripChar k b ≠ []) :
    rstripChar k (a ++ b) = a ++ rstripChar k b := by
  induction a with
  | nil => simp
  | cons x r ih =>
    have hr : rstripChar k (r ++ b) ≠ [] := by
      rw [ih]
      exact fun he => h (List.append_eq_nil.1 he).2
    rw [List.cons_append, rstripChar_cons_ne_nil hr, ih, List.cons_append]

theorem rstripChar_cons {k c : Char} (h : c ≠ k) (s : Str) :
    rstripChar k (c :: s) = c :: rstripChar k s := by
  by_cases hs : rstripChar k s = []
  · have hse : (s.reverse.dropWhile (· = k)).isEmpty = true := by
      rw [rstripChar] at hs
      rw [List.isEmpty_iff]
      rcases he : s.reverse.dropWhile (· = k) with _ | ⟨a, r⟩
      · rfl
      · rw [he] at hs
        simp at hs
    rw [rstripChar, List.reverse_cons, List.dropWhile_append, if_pos hse, hs]
    simp [List.dropWhile_cons, h]
  · exact rstripChar_cons_ne_nil hs c

theorem pathPhase_nil (t : Bool) : pathPhase t [] = S "/" := by
  cases t <;> decide

theorem mem_pathPhase {t : Bool} {p : Str} {x : Char} (h : x ∈ pathPhase t p) :
    x ∈ p ∨ x = '/' := by
  rw [pathPhase] at h
  by_cases hp : p = []
  · subst hp
    rw [if_pos rfl] at h
    right
    by_cases h1 : (t = true) ∧ ¬ endsWithChar '/' (S "/") = true
    · rw [if_pos h1] at h
      rcases List.mem_append.1 h with h | h
      · simpa [S] using h
      · simpa using h
    · rw [if_neg h1] at h
      by_cases h2 : (¬ t = true) ∧ S "/" ≠ S "/" ∧ endsWithChar '/' (S "/") = true
      · exact absurd h2.2.1 (by simp)
      · rw [if_neg h2] at h
        simpa [S] using h
  · rw [if_neg hp] at h
    by_cases h1 : (t = true) ∧ ¬ endsWithChar '/' p = true
    · rw [if_pos h1] at h
      rcases List.mem_append.1 h with h | h
      · exact Or.inl h
      · exact Or.inr (by simpa using h)
    · rw [if_neg h1] at h
      by_cases h2 : (¬ t = true) ∧ p ≠ S "/" ∧ endsWithChar '/' p = true
      · rw [if_pos h2] at h
        obtain ⟨j, hj, _⟩ := rstripChar_decomp '/' p
        exact Or.inl (hj ▸ List.mem_append_left _ h)
      · rw [if_neg h2] at h
        exact Or.inl h

theorem pathPhase_headD {t : Bool} {p : Str} (hp : p ≠ []) (hne : pathPhase t p ≠ []) :
    (pathPhase t p).headD ' ' = p.headD ' ' := by
  rw [pathPhase] at hne ⊢
  rw [if_neg hp] at hne ⊢
  by_cases h1 : (t = true) ∧ ¬ endsWithChar '/' p = true
  · rw [if_pos h1]
    exact headD_append hp
  · rw [if_neg h1] at hne ⊢
    by_cases h2 : (¬ t = true) ∧ p ≠ S "/" ∧ endsWithChar '/' p = true
    · rw [if_pos h2] at hne ⊢
      obtain ⟨j, hj, _⟩ := rstripChar_decomp '/' p
      conv_rhs => rw [hj]
      rw [headD_append hne]
    · rw [if_neg h2]

theorem pathPhase_front {t : Bool} {P Pb Pt : Str} (hP : P = Pb ++ ':' :: Pt)
    (hb : ':' ∉ Pb) : ∃ T, pathPhase t P = Pb ++ ':' :: T := by
  have hPne : P ≠ [] := by
    rw [hP]
    exact fun he => by cases List.append_eq_nil.1 he |>.2
  rw [pathPhase, if_neg hPne]
  by_cases h1 : (t = true) ∧ ¬ endsWithChar '/' P = true
  · refine ⟨Pt ++ ['/'], ?_⟩
    rw [if_pos h1, hP]
    simp
  · rw [if_neg h1]
    by_cases h2 : (¬ t = true) ∧ P ≠ S "/" ∧ endsWithChar '/' P = true
    · refine ⟨rstripChar '/' Pt, ?_⟩
      rw [if_pos h2, hP]
      have hcolon : rstripChar '/' (':' :: Pt) = ':' :: rstripChar '/' Pt :=
        rstripChar_cons (by decide) Pt
      rw [rstripChar_append (by rw [hcolon]; exact fun he => by cases he), hcolon]
    · exact ⟨Pt, by rw [if_neg h2, hP]⟩

theorem mem_attachParams {p par : Str} {x : Char} (h : x ∈ attachParams p par) :
    x ∈ p ∨ x = ';' ∨ x ∈ par := by
  rw [attachParams] at h
  by_cases hp : par ≠ []
  · rw [if_pos hp] at h
    rcases List.mem_append.1 h with h | h
    · exact Or.inl h
    · rcases List.mem_cons.1 h with h | h
      · exact Or.inr (Or.inl h)
      · exact Or.inr (Or.inr h)
  · rw [if_neg hp] at h
    exact Or.inl h

theorem attachParams_headD {p par : Str} (hp : p ≠ []) :
    (attachParams p par).headD ' ' = p.headD ' ' := by
  rw [attachParams]
  by_cases h : par ≠ []
  · rw [if_pos h, headD_append hp]
  · rw [if_neg h]

theorem attachParams_nil_left (par : Str) :
    attachParams [] par = if par ≠ [] then ';' :: par else [] := by
  rw [attachParams]
  by_cases h : par ≠ []
  · rw [if_pos h, if_pos h, List.nil_append]
  · rw [if_neg h, if_neg h]

theorem splitparams_no_semi {url : Str} (h : ';' ∉ url) : splitparams url = (url, []) := by
  rw [splitparams, if_neg h]

theorem splitparams_decomp (url : Str) :
    ∃ q, url = (splitparams url).1 ++ q ∧
      ((splitparams url).2 = [] ∨ q = ';' :: (splitparams url).2) := by
  by_cases h1 : ';' ∈ url
  · by_cases h2 : '/' ∈ url
    · rcases splitOnLast_spec '/' url with ⟨hn, hnm⟩ | ⟨a, b, hsome, hrec, hnb⟩
      · exact absurd h2 hnm
      · rcases splitOnFirst_spec ';' b with ⟨hn2, hfst, _⟩ | ⟨b2, hsome2, hrec2, _⟩
        · rcases hsp2 : splitOnFirst ';' b with ⟨x, o⟩
          rw [hsp2] at hn2
          cases o with
          | some v => cases hn2
          | none =>
            have : splitparams url = (url, []) := by
              simp only [splitparams, if_pos h1, if_pos h2, hsome, hsp2]
            exact ⟨[], by rw [this, List.append_nil], Or.inl (by rw [this])⟩
        · rcases hsp2 : splitOnFirst ';' b with ⟨b1, o⟩
          rw [hsp2] at hsome2 hrec2
          cases hsome2
          have heq : splitparams url = (a ++ '/' :: b1, b2) := by
            simp only [splitparams, if_pos h1, if_pos h2, hsome, hsp2]
          refine ⟨';' :: b2, ?_, Or.inr (by rw [heq])⟩
          rw [heq, hrec, hrec2]
          simp
    · rcases splitOnFirst_spec ';' url with ⟨hn2, hfst, hnm⟩ | ⟨b2, hsome2, hrec2, _⟩
      · exact absurd h1 hnm
      · rcases hsp2 : splitOnFirst ';' url with ⟨b1, o⟩
        rw [hsp2] at hsome2 hrec2
        cases hsome2
        have heq : splitparams url = (b1, b2) := by
          simp only [splitparams, if_pos h1, if_neg h2, hsp2]
        exact ⟨';' :: b2, by rw [heq, ← hrec2], Or.inr (by rw [heq])⟩
  · exact ⟨[], by rw [splitparams_no_semi h1, List.append_nil], Or.inl (by
      rw [splitparams_no_semi h1])⟩

theorem mem_splitparams_fst {url : Str} {x : Char} (h : x ∈ (splitparams url).1) :
    x ∈ url := by
  obtain ⟨q, hq, _⟩ := splitparams_decomp url
  rw [hq]
  exact List.mem_append_left _ h

theorem mem_splitparams_snd {url : Str} {x : Char} (h : x ∈ (splitparams url).2) :
    x ∈ url := by
  obtain ⟨q, hq, hcase⟩ := splitparams_decomp url
  rcases hcase with hc | hc
  · rw [hc] at h
    cases h
  · rw [hq, hc]
    exact List.mem_append_right _ (List.mem_cons_of_mem _ h)

/-! ### Component facts of urlsplit and urlparse -/

theorem splitOnFirst_fst_not_mem (c : Char) (s : Str) : c ∉ (splitOnFirst c s).1 := by
  rcases splitOnFirst_spec c s with ⟨_, h1, hnm⟩ | ⟨t, _, _, hnm⟩
  · rw [h1]; exact hnm
  · exact hnm

theorem urlsplit_comp {url dflt sc rest0 nlp rest1 : Str}
    (hs : schemeSplit (cleanUrl url) dflt = (sc, rest0))
    (hn : netSplit rest0 = (nlp, rest1)) :
    urlsplit url dflt = ⟨sc, nlp,
      (splitOnFirst '?' (splitOnFirst '#' rest1).1).1,
      ((splitOnFirst '?' (splitOnFirst '#' rest1).1).2).getD [],
      ((splitOnFirst '#' rest1).2).getD []⟩ := by
  rw [cleanUrl] at hs
  rw [netSplit] at hn
  rcases hf : splitOnFirst '#' rest1 with ⟨fb, fo⟩
  rcases hq : splitOnFirst '?' fb with ⟨qb, qo⟩
  cases fo <;> cases qo <;>
    simp only [urlsplit, hs, hn, hf, hq, Option.getD_some, Option.getD_none]

theorem startsWithSeq_slash2 {s : Str} (h : startsWithSeq (S "//") s = true) :
    ∃ r, s = '/' :: '/' :: r := by
  rcases s with _ | ⟨a, _ | ⟨b, r⟩⟩
  · simp [startsWithSeq, S] at h
  · simp [startsWithSeq, S] at h
  · refine ⟨r, ?_⟩
    rw [startsWithSeq] at h
    have hab : [a, b] = S "//" := by
      have := of_decide_eq_true h
      simpa [S] using this
    have ha : a = '/' := congrArg (List.headD · ' ') hab
    have hb : b = '/' := congrArg (fun l => (l.drop 1).headD ' ') hab
    rw [ha, hb]

theorem netSplit_neg {rest0 : Str} (h : startsWithSeq (S "//") rest0 = false) :
    netSplit rest0 = ([], rest0) := by
  rw [netSplit, if_neg (by rw [h]; exact fun he => Bool.false_ne_true he)]

theorem netSplit_pos {rest0 : Str} (h : startsWithSeq (S "//") rest0 = true) :
    netSplit rest0 = takeUntilStops ['/', '?', '#'] (rest0.drop 2) := by
  rw [netSplit, if_pos h]

theorem netSplit_build {nl tail : Str} (hnl : ∀ x ∈ nl, x ∉ ['/', '?', '#'])
    (ht : tail = [] ∨ tail.headD ' ' ∈ ['/', '?', '#']) :
    netSplit ('/' :: '/' :: (nl ++ tail)) = (nl, tail) := by
  have hsw : startsWithSeq (S "//") ('/' :: '/' :: (nl ++ tail)) = true := by
    rw [startsWithSeq]
    rfl
  rw [netSplit_pos hsw]
  show takeUntilStops ['/', '?', '#'] (nl ++ tail) = (nl, tail)
  rcases htl : tail with _ | ⟨d, ds⟩
  · rw [List.append_nil]
    exact takeUntilStops_not_mem hnl
  · refine takeUntilStops_append_cons hnl ?_
    rcases ht with he | hh
    · rw [htl] at he; cases he
    · rw [htl] at hh
      simpa using hh

theorem mem_netSplit_snd {rest0 : Str} {x : Char} (h : x ∈ (netSplit rest0).2) : x ∈ rest0 := by
  by_cases hs : startsWithSeq (S "//") rest0 = true
  · rw [netSplit_pos hs] at h
    exact List.mem_of_mem_drop (mem_of_takeUntil_snd h)
  · rw [netSplit_neg (Bool.not_eq_true _ ▸ hs)] at h
    exact h

theorem mem_netSplit_fst {rest0 : Str} {x : Char} (h : x ∈ (netSplit rest0).1) :
    x ∈ rest0 ∧ x ∉ ['/', '?', '#'] := by
  by_cases hs : startsWithSeq (S "//") rest0 = true
  · rw [netSplit_pos hs] at h
    refine ⟨List.mem_of_mem_drop (mem_of_takeUntil_fst h), ?_⟩
    exact (takeUntilStops_spec ['/', '?', '#'] (rest0.drop 2)).2.1 x h
  · rw [netSplit_neg (Bool.not_eq_true _ ▸ hs)] at h
    cases h

theorem mem_cleanUrl {url : Str} {x : Char} (h : x ∈ cleanUrl url) :
    ¬(x = '\t' ∨ x = '\r' ∨ x = '\n') := by
  rw [cleanUrl] at h
  exact (mem_dropTabCrLf h).2

theorem mem_urlsplit_netloc {url dflt : Str} {x : Char}
    (h : x ∈ (urlsplit url dflt).netloc) : x ∈ cleanUrl url ∧ x ∉ ['/', '?', '#'] := by
  rcases hs : schemeSplit (cleanUrl url) dflt with ⟨sc, rest0⟩
  rcases hn : netSplit rest0 with ⟨nlp, rest1⟩
  rw [urlsplit_comp hs hn] at h
  have h1 : x ∈ rest0 ∧ x ∉ ['/', '?', '#'] := by
    have := @mem_netSplit_fst rest0 x
    rw [hn] at this
    exact this h
  refine ⟨mem_schemeSplit_snd (d := dflt) ?_, h1.2⟩
  rw [hs]
  exact h1.1

theorem mem_urlsplit_path {url dflt : Str} {x : Char}
    (h : x ∈ (urlsplit url dflt).path) :
    x ∈ cleanUrl url ∧ x ≠ '#' ∧ x ≠ '?' := by
  rcases hs : schemeSplit (cleanUrl url) dflt with ⟨sc, rest0⟩
  rcases hn : netSplit rest0 with ⟨nlp, rest1⟩
  rw [urlsplit_comp hs hn] at h
  have h1 : x ∈ (splitOnFirst '#' rest1).1 := mem_of_splitOnFirst_fst h
  have h2 : x ∈ rest1 := mem_of_splitOnFirst_fst h1
  have h3 : x ∈ rest0 := by
    have := @mem_netSplit_snd rest0 x
    rw [hn] at this
    exact this h2
  refine ⟨mem_schemeSplit_snd (d := dflt) (by rw [hs]; exact h3), ?_, ?_⟩
  · exact fun he => splitOnFirst_fst_not_mem '#' rest1 (he ▸ h1)
  · exact fun he => splitOnFirst_fst_not_mem '?' (splitOnFirst '#' rest1).1 (he ▸ h)

theorem mem_urlsplit_query {url dflt : Str} {x : Char}
    (h : x ∈ (urlsplit url dflt).query) : x ∈ cleanUrl url ∧ x ≠ '#' := by
  rcases hs : schemeSplit (cleanUrl url) dflt with ⟨sc, rest0⟩
  rcases hn : netSplit rest0 with ⟨nlp, rest1⟩
  rw [urlsplit_comp hs hn] at h
  rcases hq : (splitOnFirst '?' (splitOnFirst '#' rest1).1).2 with _ | qv
  · rw [hq] at h
    cases h
  · rw [hq] at h
    have h1 : x ∈ (splitOnFirst '#' rest1).1 :=
      mem_of_splitOnFirst_snd hq (by simpa using h)
    have h2 : x ∈ rest1 := mem_of_splitOnFirst_fst h1
    have h3 : x ∈ rest0 := by
      have := @mem_netSplit_snd rest0 x
      rw [hn] at this
      exact this h2
    refine ⟨mem_schemeSplit_snd (d := dflt) (by rw [hs]; exact h3), ?_⟩
    exact fun he => splitOnFirst_fst_not_mem '#' rest1 (he ▸ h1)

theorem urlparse_comp (url dflt : Str) :
    (urlparse url dflt).scheme = (urlsplit url dflt).scheme ∧
    (urlparse url dflt).netloc = (urlsplit url dflt).netloc ∧
    (urlparse url dflt).query = (urlsplit url dflt).query ∧
    ((memB (urlsplit url dflt).scheme usesParams ∧ ';' ∈ (urlsplit url dflt).path) →
      (urlparse url dflt).path = (splitparams (urlsplit url dflt).path).1 ∧
      (urlparse url dflt).params = (splitparams (urlsplit url dflt).path).2) ∧
    (¬(memB (urlsplit url dflt).scheme usesParams ∧ ';' ∈ (urlsplit url dflt).path) →
      (urlparse url dflt).path = (urlsplit url dflt).path ∧
      (urlparse url dflt).params = []) := by
  refine ⟨rfl, rfl, rfl, fun hg => ?_, fun hg => ?_⟩
  · rw [urlparse]
    rcases hsp : splitparams (urlsplit url dflt).path with ⟨p1, p2⟩
    simp only [if_pos hg, hsp]
    exact ⟨by trivial, by trivial⟩
  · rw [urlparse]
    simp only [if_neg hg]
    exact ⟨by trivial, by trivial⟩

theorem mem_urlparse_path {url dflt : Str} {x : Char}
    (h : x ∈ (urlparse url dflt).path) : x ∈ (urlsplit url dflt).path := by
  obtain ⟨_, _, _, hyes, hno⟩ := urlparse_comp url dflt
  by_cases hg : memB (urlsplit url dflt).scheme usesParams ∧ ';' ∈ (urlsplit url dflt).path
  · rw [(hyes hg).1] at h
    exact mem_splitparams_fst h
  · rw [(hno hg).1] at h
    exact h

theorem mem_urlparse_params {url dflt : Str} {x : Char}
    (h : x ∈ (urlparse url dflt).params) : x ∈ (urlsplit url dflt).path := by
  obtain ⟨_, _, _, hyes, hno⟩ := urlparse_comp url dflt
  by_cases hg : memB (urlsplit url dflt).scheme usesParams ∧ ';' ∈ (urlsplit url dflt).path
  · rw [(hyes hg).2] at h
    exact mem_splitparams_snd h
  · rw [(hno hg).2] at h
    cases h

/-! ### The hostname/port reading of a netloc and the rebuilt netloc -/

theorem hostinfoOf_no_at {netloc : Str} (h : splitOnLast '@' netloc = none) :
    hostinfoOf netloc = netloc := by
  rw [hostinfoOf, h]

theorem mem_hostinfoOf {netloc : Str} {x : Char} (h : x ∈ hostinfoOf netloc) : x ∈ netloc := by
  rcases splitOnLast_spec '@' netloc with ⟨hn, _⟩ | ⟨a, b, hsome, hrec, _⟩
  · rwa [hostinfoOf, hn] at h
  · rw [hostinfoOf, hsome] at h
    rw [hrec]
    exact List.mem_append_right _ (List.mem_cons_of_mem _ h)

theorem at_not_mem_hostinfoOf (netloc : Str) : '@' ∉ hostinfoOf netloc := by
  rcases splitOnLast_spec '@' netloc with ⟨hn, hnm⟩ | ⟨a, b, hsome, _, hnb⟩
  · rw [hostinfoOf, hn]
    exact hnm
  · rw [hostinfoOf, hsome]
    exact hnb

theorem mem_pyLower_bad {s : Str} {x : Char} (hx : x ∈ pyLower s) (hlt : x.toNat < 97) :
    x ∈ s := by
  rcases List.mem_map.1 hx with ⟨c, hc, heq⟩
  exact (pyLowerChar_eq_bad hlt heq) ▸ hc

theorem goodHost_of_hostname {u h : Str} (hh : pyHostname (urlparse u).netloc = some h) :
    goodHost (pyLower h) := by
  simp only [pyHostname] at hh
  by_cases hz : (hostPortOf (urlparse u).netloc).1 = []
  · rw [if_pos hz] at hh
    cases hh
  · rw [if_neg hz] at hh
    have hhv : h = pyLower (hostPortOf (urlparse u).netloc).1 := (Option.some.inj hh).symm
    subst hhv
    have hmem : ∀ x ∈ (hostPortOf (urlparse u).netloc).1, x ∈ (urlparse u).netloc :=
      fun x hx => mem_hostinfoOf (mem_of_splitOnFirst_fst hx)
    have hnc : ':' ∉ (hostPortOf (urlparse u).netloc).1 :=
      splitOnFirst_fst_not_mem ':' (hostinfoOf (urlparse u).netloc)
    have hna : '@' ∉ (hostPortOf (urlparse u).netloc).1 :=
      fun hm => at_not_mem_hostinfoOf _ (mem_of_splitOnFirst_fst hm)
    have htrans : ∀ x : Char, x.toNat < 97 →
        x ∈ pyLower (pyLower ((hostPortOf (urlparse u).netloc).1)) →
        x ∈ (urlparse u).netloc :=
      fun x hlt hx => hmem x (mem_pyLower_bad (mem_pyLower_bad hx hlt) hlt)
    refine ⟨pyLower_ne_nil (pyLower_ne_nil hz), pyLower_idem _, ?_, ?_, ?_⟩
    · exact not_mem_pyLower (by decide) (not_mem_pyLower (by decide) hnc)
    · exact not_mem_pyLower (by decide) (not_mem_pyLower (by decide) hna)
    · intro x hx
      refine ⟨fun hxs => ?_, fun hxt => ?_⟩
      · have hlt : x.toNat < 97 := by
          rcases List.mem_cons.1 hxs with rfl | hxs2
          · decide
          rcases List.mem_cons.1 hxs2 with rfl | hxs3
          · decide
          rcases List.mem_cons.1 hxs3 with rfl | hxs4
          · decide
          · cases hxs4
        exact (mem_urlsplit_netloc (htrans x hlt hx)).2 hxs
      · have hlt : x.toNat < 97 := by
          rcases hxt with rfl | rfl | rfl <;> decide
        exact mem_cleanUrl (mem_urlsplit_netloc (htrans x hlt hx)).1 hxt

theorem normRec_netloc_noport {u : Str} {t : Bool}
    (hport : pyPort (urlparse u).netloc = none) :
    (normRec u t).netloc = (pyHostname (urlparse u).netloc).map pyLower := by
  simp only [normRec, hport]

theorem normRec_netloc_port_keep {u : Str} {t : Bool} {p : Nat}
    (hport : pyPort (urlparse u).netloc = some p)
    (hcond : p ≠ 0 ∧ ¬((pyLower (urlparse u).scheme = S "http" ∧ p = 80) ∨
      (pyLower (urlparse u).scheme = S "https" ∧ p = 443))) :
    (normRec u t).netloc =
      some ((((pyHostname (urlparse u).netloc).map pyLower).getD (S "None")) ++
        ':' :: natRepr p) := by
  simp only [normRec, hport, if_pos hcond]

theorem normRec_netloc_port_drop {u : Str} {t : Bool} {p : Nat}
    (hport : pyPort (urlparse u).netloc = some p)
    (hcond : ¬(p ≠ 0 ∧ ¬((pyLower (urlparse u).scheme = S "http" ∧ p = 80) ∨
      (pyLower (urlparse u).scheme = S "https" ∧ p = 443)))) :
    (normRec u t).netloc = (pyHostname (urlparse u).netloc).map pyLower := by
  simp only [normRec, hport, if_neg hcond]

theorem at_not_mem_natRepr (p : Nat) : '@' ∉ natRepr p := by
  intro hm
  have hrange := (natRepr_spec p).2.1 '@' hm
  revert hrange
  decide

theorem normRec_netloc_no_at (u : Str) (t : Bool) : '@' ∉ (normRec u t).netloc.getD [] := by
  have hhost : ∀ h, pyHostname (urlparse u).netloc = some h → '@' ∉ pyLower h :=
    fun h hh => (goodHost_of_hostname hh).2.2.2.1
  have hnone : '@' ∉ S "None" := by decide
  rcases hport : pyPort (urlparse u).netloc with _ | p
  · rw [normRec_netloc_noport hport]
    rcases hh : pyHostname (urlparse u).netloc with _ | h
    · simp
    · simp only [Option.map_some', Option.getD_some]
      exact hhost h hh
  · by_cases hcond : p ≠ 0 ∧ ¬((pyLower (urlparse u).scheme = S "http" ∧ p = 80) ∨
      (pyLower (urlparse u).scheme = S "https" ∧ p = 443))
    · rw [normRec_netloc_port_keep hport hcond]
      intro hm
      rw [Option.getD_some] at hm
      rcases List.mem_append.1 hm with hm | hm
      · rcases hh : pyHostname (urlparse u).netloc with _ | h
        · rw [hh] at hm
          exact hnone (by simpa using hm)
        · rw [hh] at hm
          exact hhost h hh (by simpa using hm)
      · rcases List.mem_cons.1 hm with he | hm
        · cases he
        · exact at_not_mem_natRepr p hm
    · rw [normRec_netloc_port_drop hport hcond]
      rcases hh : pyHostname (urlparse u).netloc with _ | h
      · simp
      · simp only [Option.map_some', Option.getD_some]
        exact hhost h hh

theorem userinfoOf_of_not_mem {nl : Str} (h : '@' ∉ nl) : userinfoOf nl = none := by
  rw [userinfoOf, splitOnLast_not_mem h, Option.map_none']

/-! ### Character facts of the rendered components -/

theorem urlsplit_scheme (url dflt : Str) :
    (urlsplit url dflt).scheme = (schemeSplit (cleanUrl url) dflt).1 := rfl

theorem normRec_scheme (u : Str) (t : Bool) :
    (normRec u t).scheme = pyLower (urlparse u).scheme := rfl

theorem normRec_path (u : Str) (t : Bool) :
    (normRec u t).path = pathPhase t (urlparse u).path := rfl

theorem normRec_params (u : Str) (t : Bool) :
    (normRec u t).params = (urlparse u).params := rfl

theorem normRec_query (u : Str) (t : Bool) :
    (normRec u t).query = normQuery (urlparse u).query := by
  simp only [normRec]

theorem normRec_scheme_cases (u : Str) (t : Bool) :
    (normRec u t).scheme = [] ∨
    ((normRec u t).scheme ≠ [] ∧ isAsciiAlpha ((normRec u t).scheme.headD ' ') = true ∧
     (normRec u t).scheme.all isSchemeChar = true ∧
     pyLower (normRec u t).scheme = (normRec u t).scheme) := by
  have hs : (normRec u t).scheme = pyLower (urlparse u).scheme := rfl
  rcases schemeSplit_cases (cleanUrl u) [] with hdef | ⟨b, t2, hrec, hne, hal, hall, hnc, hval⟩
  · left
    have h2 : (urlparse u).scheme = [] := by
      show (urlsplit u []).scheme = []
      rw [urlsplit_scheme, hdef]
    rw [hs, h2]
    rfl
  · right
    have hsc : (urlparse u).scheme = pyLower b := by
      show (urlsplit u []).scheme = pyLower b
      rw [urlsplit_scheme, hval]
    rw [hs, hsc, pyLower_idem]
    refine ⟨pyLower_ne_nil hne, ?_, pyLower_all_schemeChar hall, pyLower_idem b⟩
    rw [pyLower_headD]
    exact pyLowerChar_alpha hal

theorem mem_joinChar {c : Char} {ps : List Str} {x : Char} (h : x ∈ joinChar c ps) :
    x = c ∨ ∃ p ∈ ps, x ∈ p := by
  induction ps with
  | nil => rw [joinChar] at h; cases h
  | cons p rest ih =>
    cases rest with
    | nil =>
      rw [joinChar] at h
      exact Or.inr ⟨p, List.mem_cons_self p [], h⟩
    | cons q t =>
      rw [joinChar] at h
      rcases List.mem_append.1 h with h | h
      · exact Or.inr ⟨p, List.mem_cons_self p (q :: t), h⟩
      rcases List.mem_cons.1 h with rfl | h
      · exact Or.inl rfl
      rcases ih h with h | ⟨p2, hp2, hx⟩
      · exact Or.inl h
      · exact Or.inr ⟨p2, List.mem_cons_of_mem _ hp2, hx⟩

theorem mem_catMaps {f : α → List β} {l : List α} {x : β} (h : x ∈ catMaps f l) :
    ∃ a ∈ l, x ∈ f a := by
  induction l with
  | nil => rw [catMaps] at h; cases h
  | cons a r ih =>
    rw [catMaps] at h
    rcases List.mem_append.1 h with h | h
    · exact ⟨a, List.mem_cons_self a r, h⟩
    · rcases ih h with ⟨b, hb, hx⟩
      exact ⟨b, List.mem_cons_of_mem _ hb, hx⟩

theorem mem_normQuery {q : Str} {x : Char} (h : x ∈ normQuery q) :
    isQuoteOut x = true ∨ x = '&' ∨ x = '=' := by
  rw [normQuery, urlencodeDoseq] at h
  rcases mem_joinChar h with rfl | ⟨p, hp, hx⟩
  · exact Or.inr (Or.inl rfl)
  · rcases mem_catMaps hp with ⟨kv, _, hpf⟩
    rcases List.mem_map.1 hpf with ⟨v, _, rfl⟩
    rcases List.mem_append.1 hx with hx | hx
    · exact Or.inl (mem_quotePlus hx)
    · rcases List.mem_cons.1 hx with rfl | hx
      · exact Or.inr (Or.inr rfl)
      · exact Or.inl (mem_quotePlus hx)

theorem mem_normQuery_char {q : Str} {x : Char} (h : x ∈ normQuery q) :
    x ≠ '#' ∧ ¬(x = '\t' ∨ x = '\r' ∨ x = '\n') ∧ x ≠ ':' := by
  rcases mem_normQuery h with hq | rfl | rfl
  · obtain ⟨_, _, h3, _, h5, _, h7, h8, h9⟩ := quoteOut_ne hq
    refine ⟨h3, fun ht => ?_, h5⟩
    rcases ht with rfl | rfl | rfl
    · exact h7 rfl
    · exact h8 rfl
    · exact h9 rfl
  · exact ⟨by decide, by decide, by decide⟩
  · exact ⟨by decide, by decide, by decide⟩

theorem mem_renderedPathOf {u : Str} {t : Bool} {x : Char} (h : x ∈ renderedPathOf u t) :
    x ≠ '#' ∧ x ≠ '?' ∧ ¬(x = '\t' ∨ x = '\r' ∨ x = '\n') := by
  have hsrc : x ∈ (urlsplit u []).path ∨ x = '/' ∨ x = ';' := by
    have hx0 : x ∈ attachParams (normRec u t).path (normRec u t).params ∨ x = '/' := by
      simp only [renderedPathOf] at h
      split at h
      · rcases List.mem_cons.1 h with rfl | h
        · exact Or.inr rfl
        · exact Or.inl h
      · exact Or.inl h
    rcases hx0 with hx0 | rfl
    · rcases mem_attachParams hx0 with hp | rfl | hpar
      · rw [normRec_path] at hp
        rcases mem_pathPhase hp with hp | rfl
        · exact Or.inl (mem_urlparse_path hp)
        · exact Or.inr (Or.inl rfl)
      · exact Or.inr (Or.inr rfl)
      · rw [normRec_params] at hpar
        exact Or.inl (mem_urlparse_params hpar)
    · exact Or.inr (Or.inl rfl)
  rcases hsrc with hp | rfl | rfl
  · obtain ⟨hcl, hh, hq⟩ := mem_urlsplit_path hp
    exact ⟨hh, hq, mem_cleanUrl hcl⟩
  · exact ⟨by decide, by decide, by decide⟩
  · exact ⟨by decide, by decide, by decide⟩

/-! ### The output of the normalizer re-enters the scheme split as schemeless -/

theorem splitOnFirst_some_rec {c : Char} {s b t : Str} (h : splitOnFirst c s = (b, some t)) :
    s = b ++ c :: t ∧ c ∉ b := by
  rcases splitOnFirst_spec c s with ⟨hn, _, _⟩ | ⟨t2, hs2, hrec, hnm⟩
  · rw [h] at hn; cases hn
  · rw [h] at hs2 hrec hnm
    have ht2 : t2 = t := Option.some.inj hs2.symm
    subst ht2
    exact ⟨hrec, hnm⟩

theorem attachParams_append (p par : Str) :
    attachParams p par = p ++ (if par ≠ [] then ';' :: par else []) := by
  rw [attachParams]
  by_cases h : par ≠ []
  · rw [if_pos h, if_pos h]
  · rw [if_neg h, if_neg h, List.append_nil]

theorem urlparse_path_prefix (u : Str) :
    ∃ j, (urlsplit u []).path = (urlparse u).path ++ j := by
  obtain ⟨_, _, _, hyes, hno⟩ := urlparse_comp u []
  by_cases hg : memB (urlsplit u []).scheme usesParams ∧ ';' ∈ (urlsplit u []).path
  · obtain ⟨q2, hq2, _⟩ := splitparams_decomp (urlsplit u []).path
    exact ⟨q2, by rw [(hyes hg).1]; exact hq2⟩
  · exact ⟨[], by rw [(hno hg).1, List.append_nil]⟩

theorem urlsplit_path_prefix_clean {u : Str}
    (hdef : schemeSplit (cleanUrl u) [] = ([], cleanUrl u))
    (hsw : startsWithSeq (S "//") (cleanUrl u) = false) :
    ∃ J, cleanUrl u = (urlsplit u []).path ++ J := by
  rcases hnet : netSplit (cleanUrl u) with ⟨nlp, rest1⟩
  have hcomp := @urlsplit_comp u ([] : Str) _ _ _ _ (by rw [hdef]) hnet
  have hrest1 : rest1 = cleanUrl u := by
    have hnn : (nlp, rest1) = (([] : Str), cleanUrl u) := by
      rw [← hnet, netSplit_neg hsw]
    exact congrArg Prod.snd hnn
  obtain ⟨j1, hj1⟩ : ∃ j1, rest1 = (splitOnFirst '#' rest1).1 ++ j1 := by
    rcases splitOnFirst_spec '#' rest1 with ⟨_, hfeq, _⟩ | ⟨tt, _, hrec, _⟩
    · exact ⟨[], by rw [hfeq, List.append_nil]⟩
    · exact ⟨'#' :: tt, hrec⟩
  obtain ⟨j2, hj2⟩ : ∃ j2, (splitOnFirst '#' rest1).1 =
      (splitOnFirst '?' (splitOnFirst '#' rest1).1).1 ++ j2 := by
    rcases splitOnFirst_spec '?' (splitOnFirst '#' rest1).1 with ⟨_, hfeq, _⟩ | ⟨tt, _, hrec, _⟩
    · exact ⟨[], by rw [hfeq, List.append_nil]⟩
    · exact ⟨'?' :: tt, hrec⟩
  have hpatheq : (urlsplit u []).path = (splitOnFirst '?' (splitOnFirst '#' rest1).1).1 := by
    rw [hcomp]
  refine ⟨j2 ++ j1, ?_⟩
  rw [← hrest1]
  conv_lhs => rw [hj1, hj2]
  rw [← hpatheq, List.append_assoc]

theorem noSchemeText_of_norm (u : Str) (t : Bool)
    (hsch : (normRec u t).scheme = []) :
    noSchemeText (attachParams (normRec u t).path (normRec u t).params ++
      (if (normRec u t).query ≠ [] then '?' :: (normRec u t).query else [])) = true := by
  by_cases halpha : isAsciiAlpha
      ((attachParams (normRec u t).path (normRec u t).params).headD ' ') = true
  case neg =>
    apply noSchemeText_of_head
    rcases hrp : attachParams (normRec u t).path (normRec u t).params with _ | ⟨c, r⟩
    · rw [List.nil_append]
      by_cases hq : (normRec u t).query ≠ []
      · rw [if_pos hq]
        show isAsciiAlpha '?' = false
        decide
      · rw [if_neg hq]
        show isAsciiAlpha ' ' = false
        decide
    · rw [List.cons_append]
      show isAsciiAlpha c = false
      rw [hrp] at halpha
      exact Bool.not_eq_true _ ▸ halpha
  case pos =>
  have hps : (urlparse u).scheme = [] := by
    rw [normRec_scheme, pyLower] at hsch
    exact List.map_eq_nil.1 hsch
  have hdef : schemeSplit (cleanUrl u) [] = ([], cleanUrl u) := by
    rcases schemeSplit_cases (cleanUrl u) [] with hd | ⟨b, t2, _, hne, _, _, _, hval⟩
    · exact hd
    · exfalso
      have hsc2 : (urlparse u).scheme = pyLower b := by
        show (urlsplit u []).scheme = pyLower b
        rw [urlsplit_scheme, hval]
      rw [hsc2] at hps
      exact pyLower_ne_nil hne hps
  by_cases hcolonP : ':' ∈ (normRec u t).path
  case neg =>
    rw [attachParams_append]
    by_cases hpar : (normRec u t).params ≠ []
    · rw [if_pos hpar, List.append_assoc, List.cons_append]
      exact noSchemeText_of_bad_before hcolonP (by decide) (by decide)
    · rw [if_neg hpar, List.append_nil]
      by_cases hq : (normRec u t).query ≠ []
      · rw [if_pos hq]
        exact noSchemeText_of_bad_before hcolonP (by decide) (by decide)
      · rw [if_neg hq, List.append_nil]
        exact noSchemeText_of_no_colon hcolonP
  case pos =>
  have hPne : (normRec u t).path ≠ [] := fun h0 => by rw [h0] at hcolonP; cases hcolonP
  have hPalpha : isAsciiAlpha ((normRec u t).path.headD ' ') = true := by
    rw [← @attachParams_headD _ ((normRec u t).params) hPne]
    exact halpha
  have hcparts : ':' ∈ (urlparse u).path := by
    rw [normRec_path] at hcolonP
    rcases mem_pathPhase hcolonP with h | h
    · exact h
    · exact absurd h (by decide)
  have hparts : (urlparse u).path ≠ [] := fun h0 => by rw [h0] at hcparts; cases hcparts
  have hpalpha : isAsciiAlpha (((urlparse u).path).headD ' ') = true := by
    have hnz : pathPhase t (urlparse u).path ≠ [] := by
      rw [← normRec_path]; exact hPne
    rw [← pathPhase_headD (t := t) hparts hnz, ← normRec_path]
    exact hPalpha
  by_cases hsw : startsWithSeq (S "//") (cleanUrl u) = true
  · exfalso
    obtain ⟨j, hj⟩ := urlparse_path_prefix u
    have hsplitne : (urlsplit u []).path ≠ [] := by
      rw [hj]
      exact fun he => hparts (List.append_eq_nil.1 he).1
    have hsplitalpha : isAsciiAlpha ((urlsplit u []).path.headD ' ') = true := by
      rw [hj, headD_append hparts]
      exact hpalpha
    rcases hnet : netSplit (cleanUrl u) with ⟨nlp, rest1⟩
    have hcomp := @urlsplit_comp u ([] : Str) _ _ _ _ (by rw [hdef]) hnet
    have hpath : (urlsplit u []).path = (splitOnFirst '?' (splitOnFirst '#' rest1).1).1 := by
      rw [hcomp]
    have hfr1ne : (splitOnFirst '#' rest1).1 ≠ [] := by
      intro he
      rw [hpath, he] at hsplitne
      exact hsplitne rfl
    have hr1ne : rest1 ≠ [] := by
      intro he
      rw [he] at hfr1ne
      exact hfr1ne rfl
    have hh1 : (splitOnFirst '?' (splitOnFirst '#' rest1).1).1.headD ' ' =
        (splitOnFirst '#' rest1).1.headD ' ' :=
      splitOnFirst_fst_head (by rw [← hpath]; exact hsplitne)
    have hh2 : (splitOnFirst '#' rest1).1.headD ' ' = rest1.headD ' ' :=
      splitOnFirst_fst_head hfr1ne
    have hrspec := (takeUntilStops_spec ['/', '?', '#'] ((cleanUrl u).drop 2)).2.2
    rw [← netSplit_pos hsw, hnet] at hrspec
    rcases hrspec with he | ⟨d, ds, hds, hd⟩
    · exact hr1ne he
    · have hds2 : rest1 = d :: ds := hds
      have halphad : isAsciiAlpha d = true := by
        rw [hpath, hh1, hh2, hds2] at hsplitalpha
        exact hsplitalpha
      rcases List.mem_cons.1 hd with rfl | hd2
      · exact absurd halphad (by decide)
      rcases List.mem_cons.1 hd2 with rfl | hd3
      · exact absurd halphad (by decide)
      rcases List.mem_cons.1 hd3 with rfl | hd4
      · exact absurd halphad (by decide)
      · cases hd4
  · -- no '//' at the front: the path is a prefix of the cleaned input
    obtain ⟨K, hK⟩ : ∃ K, cleanUrl u = (urlparse u).path ++ K := by
      obtain ⟨j, hj⟩ := urlparse_path_prefix u
      obtain ⟨J, hJ⟩ := urlsplit_path_prefix_clean hdef (Bool.not_eq_true _ ▸ hsw)
      refine ⟨j ++ J, ?_⟩
      rw [hJ, hj, List.append_assoc]
    rcases hspc : splitOnFirst ':' (cleanUrl u) with ⟨b, o⟩
    cases o with
    | none =>
      exfalso
      rcases splitOnFirst_spec ':' (cleanUrl u) with ⟨_, _, hnm⟩ | ⟨tt, hsome, _, _⟩
      · exact hnm (hK ▸ List.mem_append_left K hcparts)
      · rw [hspc] at hsome
        cases hsome
    | some tc =>
      obtain ⟨hcleaneq, hnb⟩ := splitOnFirst_some_rec hspc
      have hbne : b ≠ [] := by
        intro h0
        subst h0
        rw [List.nil_append] at hcleaneq
        have hhc : ((urlparse u).path).headD ' ' = ':' := by
          rw [← headD_append (b := K) hparts, ← hK, hcleaneq]
          rfl
        rw [hhc] at hpalpha
        exact absurd hpalpha (by decide)
      have hbhead : b.headD ' ' = ((urlparse u).path).headD ' ' := by
        have h1 : (cleanUrl u).headD ' ' = b.headD ' ' := by
          rw [hcleaneq, headD_append hbne]
        have h2 : (cleanUrl u).headD ' ' = ((urlparse u).path).headD ' ' := by
          rw [hK, headD_append hparts]
        rw [← h1, h2]
      have hinv : ¬(b ≠ [] ∧ isAsciiAlpha (b.headD ' ') = true ∧
          b.all isSchemeChar = true) := by
        intro hv
        have h2 := schemeSplit_some (d := ([] : Str)) hspc
        rw [hdef, if_pos hv] at h2
        exact pyLower_ne_nil hv.1 (congrArg Prod.fst h2).symm
      obtain ⟨c0, hc0mem, hc0bad⟩ : ∃ c0 ∈ b, isSchemeChar c0 = false := by
        rcases hall : b.all isSchemeChar with _ | _
        · obtain ⟨c0, hc0, hc0b⟩ := List.all_eq_false.1 hall
          exact ⟨c0, hc0, Bool.not_eq_true _ ▸ hc0b⟩
        · exact absurd ⟨hbne, by rw [hbhead]; exact hpalpha, hall⟩ hinv
      obtain ⟨b1, b2, hbsplit⟩ := List.append_of_mem hc0mem
      obtain ⟨pt, hpt⟩ := colon_prefix (p := (urlparse u).path) (q := K)
        (by rw [← hK]; exact hcleaneq) hnb hcparts
      obtain ⟨T, hT⟩ := pathPhase_front (t := t) hpt hnb
      rw [attachParams_append, normRec_path, hT, hbsplit]
      have hnb1 : ':' ∉ b1 := fun hm => hnb (hbsplit ▸ List.mem_append_left _ hm)
      have hc0ne : c0 ≠ ':' := fun he => hnb (he ▸ hc0mem)
      simp only [List.append_assoc, List.cons_append]
      exact noSchemeText_of_bad_before hnb1 hc0ne hc0bad

/-! ### Round trip of the rebuilt netloc through the hostname/port readers -/

theorem char_ne_of_toNat {c d : Char} (h : c.toNat ≠ d.toNat) : c ≠ d :=
  fun he => h (congrArg Char.toNat he)

theorem digitRange_facts {x : Char} (h : 48 ≤ x.toNat ∧ x.toNat ≤ 57) :
    x ∉ ['/', '?', '#'] ∧ ¬(x = '\t' ∨ x = '\r' ∨ x = '\n') := by
  constructor
  · intro hm
    rcases List.mem_cons.1 hm with rfl | hm2
    · revert h; decide
    rcases List.mem_cons.1 hm2 with rfl | hm3
    · revert h; decide
    rcases List.mem_cons.1 hm3 with rfl | hm4
    · revert h; decide
    · cases hm4
  · intro hm
    rcases hm with rfl | rfl | rfl <;> (revert h; decide)

theorem alpha_gt_space {c : Char} (h : isAsciiAlpha c = true) : 0x20 < c.toNat := by
  rw [isAsciiAlpha] at h
  simp only [Bool.or_eq_true, Bool.and_eq_true, decide_eq_true_eq] at h
  omega

theorem schemeChar_facts {c : Char} (h : isSchemeChar c = true) :
    0x20 < c.toNat ∧ c ≠ ':' ∧ ¬(c = '\t' ∨ c = '\r' ∨ c = '\n') := by
  have hrange : 43 ≤ c.toNat ∧ c.toNat ≠ 58 := by
    simp only [isSchemeChar, isAsciiAlpha, isAsciiDigit, Bool.or_eq_true, Bool.and_eq_true,
      decide_eq_true_eq] at h
    rcases h with ((((⟨h1, h2⟩ | ⟨h1, h2⟩) | ⟨h1, h2⟩) | rfl) | rfl) | rfl
    · omega
    · omega
    · omega
    · decide
    · decide
    · decide
  refine ⟨by omega, ?_, ?_⟩
  · intro he
    subst he
    revert hrange
    decide
  · intro ht
    rcases ht with rfl | rfl | rfl <;> (revert hrange; decide)

theorem at_not_mem_hostport {h0 : Str} (p : Nat) (hna : '@' ∉ h0) :
    '@' ∉ h0 ++ ':' :: natRepr p := by
  intro hm
  rcases List.mem_append.1 hm with hm | hm
  · exact hna hm
  rcases List.mem_cons.1 hm with he | hm
  · exact absurd he (by decide)
  · exact at_not_mem_natRepr p hm

theorem pyHostname_goodHost {h0 : Str} (hg : goodHost h0) : pyHostname h0 = some h0 := by
  obtain ⟨hne, hlow, hnc, hna, _⟩ := hg
  have hinfo : hostinfoOf h0 = h0 := hostinfoOf_no_at (splitOnLast_not_mem hna)
  have hsp : splitOnFirst ':' h0 = (h0, none) := splitOnFirst_not_mem hnc
  simp only [pyHostname, hostPortOf, hinfo, hsp]
  rw [if_neg hne, hlow]

theorem pyPort_goodHost {h0 : Str} (hg : goodHost h0) : pyPort h0 = none := by
  obtain ⟨_, _, hnc, hna, _⟩ := hg
  have hinfo : hostinfoOf h0 = h0 := hostinfoOf_no_at (splitOnLast_not_mem hna)
  have hsp : splitOnFirst ':' h0 = (h0, none) := splitOnFirst_not_mem hnc
  simp only [pyPort, hostPortOf, hinfo, hsp, portTextOf]

theorem pyHostname_goodHost_port {h0 : Str} (p : Nat) (hg : goodHost h0) :
    pyHostname (h0 ++ ':' :: natRepr p) = some h0 := by
  obtain ⟨hne, hlow, hnc, hna, _⟩ := hg
  have hinfo : hostinfoOf (h0 ++ ':' :: natRepr p) = h0 ++ ':' :: natRepr p :=
    hostinfoOf_no_at (splitOnLast_not_mem (at_not_mem_hostport p hna))
  have hsp := splitOnFirst_append (b := natRepr p) hnc
  simp only [pyHostname, hostPortOf, hinfo, hsp]
  rw [if_neg hne, hlow]

theorem pyPort_goodHost_port {h0 : Str} (p : Nat) (hg : goodHost h0) :
    pyPort (h0 ++ ':' :: natRepr p) = some p := by
  obtain ⟨_, _, hnc, hna, _⟩ := hg
  have hinfo : hostinfoOf (h0 ++ ':' :: natRepr p) = h0 ++ ':' :: natRepr p :=
    hostinfoOf_no_at (splitOnLast_not_mem (at_not_mem_hostport p hna))
  have hsp := splitOnFirst_append (b := natRepr p) hnc
  simp only [pyPort, hostPortOf, hinfo, hsp, portTextOf, if_neg (natRepr_spec p).1]
  exact parseDigits_natRepr p

theorem normRec_netloc_cases (u : Str) (t : Bool) (hhp : hostlessPortKeep u t = false) :
    (normRec u t).netloc = none ∨
    (∃ h0, (normRec u t).netloc = some h0 ∧ goodHost h0 ∧
      pyHostname h0 = some h0 ∧ pyPort h0 = none) ∨
    (∃ h0 p, (normRec u t).netloc = some (h0 ++ ':' :: natRepr p) ∧ goodHost h0 ∧
      pyHostname (h0 ++ ':' :: natRepr p) = some h0 ∧
      pyPort (h0 ++ ':' :: natRepr p) = some p ∧
      (p ≠ 0 ∧ ¬((pyLower (urlparse u).scheme = S "http" ∧ p = 80) ∨
        (pyLower (urlparse u).scheme = S "https" ∧ p = 443)))) := by
  rcases hport : pyPort (urlparse u).netloc with _ | p
  · rcases hh : pyHostname (urlparse u).netloc with _ | h
    · left
      rw [normRec_netloc_noport hport, hh]
      rfl
    · right; left
      have hg := goodHost_of_hostname hh
      exact ⟨pyLower h, by rw [normRec_netloc_noport hport, hh]; rfl, hg,
        pyHostname_goodHost hg, pyPort_goodHost hg⟩
  · by_cases hcond : p ≠ 0 ∧ ¬((pyLower (urlparse u).scheme = S "http" ∧ p = 80) ∨
      (pyLower (urlparse u).scheme = S "https" ∧ p = 443))
    · rcases hh : pyHostname (urlparse u).netloc with _ | h
      · exfalso
        rw [hostlessPortKeep, hh] at hhp
        have hfalse : netlocTruthy (normRec u t).netloc = false := by simpa using hhp
        rw [normRec_netloc_port_keep hport hcond, hh] at hfalse
        simp [netlocTruthy, S] at hfalse
      · right; right
        have hg := goodHost_of_hostname hh
        exact ⟨pyLower h, p, by rw [normRec_netloc_port_keep hport hcond, hh]; rfl, hg,
          pyHostname_goodHost_port p hg, pyPort_goodHost_port p hg, hcond⟩
    · rcases hh : pyHostname (urlparse u).netloc with _ | h
      · left
        rw [normRec_netloc_port_drop hport hcond, hh]
        rfl
      · right; left
        have hg := goodHost_of_hostname hh
        exact ⟨pyLower h, by rw [normRec_netloc_port_drop hport hcond, hh]; rfl, hg,
          pyHostname_goodHost hg, pyPort_goodHost hg⟩

theorem normRec_netloc_getD_facts (u : Str) (t : Bool)
    (hhp : hostlessPortKeep u t = false) :
    ∀ x ∈ (normRec u t).netloc.getD [], (x ∉ ['/', '?', '#']) ∧
      ¬(x = '\t' ∨ x = '\r' ∨ x = '\n') := by
  rcases normRec_netloc_cases u t hhp with hnone | ⟨h0, heq, hg, _, _⟩ |
    ⟨h0, p, heq, hg, _, _, _⟩
  · rw [hnone]
    intro x hx
    cases hx
  · rw [heq]
    intro x hx
    exact hg.2.2.2.2 x hx
  · rw [heq]
    intro x hx
    rw [Option.getD_some] at hx
    rcases List.mem_append.1 hx with hx | hx
    · exact hg.2.2.2.2 x hx
    · rcases List.mem_cons.1 hx with rfl | hx
      · exact ⟨by decide, by decide⟩
      · exact digitRange_facts ((natRepr_spec p).2.1 x hx)

/-! ### The rendered output re-enters urlsplit unchanged -/

theorem cleanUrl_eq_self {s : Str} (hh : s = [] ∨ 0x20 < (s.headD ' ').toNat)
    (hmem : ∀ x ∈ s, ¬(x = '\t' ∨ x = '\r' ∨ x = '\n')) : cleanUrl s = s := by
  rw [cleanUrl]
  have hdw : s.dropWhile isC0OrSpace = s := by
    rcases hh with rfl | hh
    · rfl
    · rcases hs : s with _ | ⟨c, r⟩
      · rfl
      · refine dropWhile_isC0_eq_self rfl ?_
        rw [hs] at hh
        exact hh
  rw [hdw]
  exact dropTabCrLf_eq_self hmem

theorem cleanUrl_head_gt (u : Str) :
    cleanUrl u = [] ∨ 0x20 < ((cleanUrl u).headD ' ').toNat := by
  rcases hd : (u.dropWhile isC0OrSpace) with _ | ⟨c, r⟩
  · left
    rw [cleanUrl, hd]
    rfl
  · have hc : isC0OrSpace c = false := dropWhile_first_false hd
    have hcc : 0x20 < c.toNat := by
      rw [isC0OrSpace] at hc
      simp only [decide_eq_false_iff_not, not_le] at hc
      exact hc
    right
    rw [cleanUrl, hd, dropTabCrLf, List.filter_cons, if_pos ?_]
    · exact hcc
    · have h1 : c ≠ '\t' := fun he => by subst he; revert hcc; decide
      have h2 : c ≠ '\r' := fun he => by subst he; revert hcc; decide
      have h3 : c ≠ '\n' := fun he => by subst he; revert hcc; decide
      simp [h1, h2, h3]

theorem urlsplit_path_head_gt {u : Str}
    (hdef : schemeSplit (cleanUrl u) [] = ([], cleanUrl u))
    (hne : (urlsplit u []).path ≠ []) :
    0x20 < ((urlsplit u []).path.headD ' ').toNat := by
  rcases hnet : netSplit (cleanUrl u) with ⟨nlp, rest1⟩
  have hcomp := @urlsplit_comp u ([] : Str) _ _ _ _ (by rw [hdef]) hnet
  have hpath : (urlsplit u []).path = (splitOnFirst '?' (splitOnFirst '#' rest1).1).1 := by
    rw [hcomp]
  have hfr1ne : (splitOnFirst '#' rest1).1 ≠ [] := by
    intro he
    rw [hpath, he] at hne
    exact hne rfl
  have hr1ne : rest1 ≠ [] := by
    intro he
    rw [he] at hfr1ne
    exact hfr1ne rfl
  have hh1 := splitOnFirst_fst_head (c := '?') (s := (splitOnFirst '#' rest1).1)
    (by rw [← hpath]; exact hne)
  have hh2 := splitOnFirst_fst_head (c := '#') (s := rest1) hfr1ne
  rw [hpath, hh1, hh2]
  by_cases hsw : startsWithSeq (S "//") (cleanUrl u) = true
  · have hrspec := (takeUntilStops_spec ['/', '?', '#'] ((cleanUrl u).drop 2)).2.2
    rw [← netSplit_pos hsw, hnet] at hrspec
    rcases hrspec with he | ⟨d, ds, hds, hd⟩
    · exact absurd he hr1ne
    · have hds2 : rest1 = d :: ds := hds
      rw [hds2]
      rcases List.mem_cons.1 hd with rfl | hd2
      · show 0x20 < ('/' : Char).toNat
        decide
      rcases List.mem_cons.1 hd2 with rfl | hd3
      · show 0x20 < ('?' : Char).toNat
        decide
      rcases List.mem_cons.1 hd3 with rfl | hd4
      · show 0x20 < ('#' : Char).toNat
        decide
      · cases hd4
  · have hrest1 : rest1 = cleanUrl u := by
      have hnn : (nlp, rest1) = (([] : Str), cleanUrl u) := by
        rw [← hnet, netSplit_neg (Bool.not_eq_true _ ▸ hsw)]
      exact congrArg Prod.snd hnn
    rw [hrest1]
    rcases cleanUrl_head_gt u with he | hgt
    · exfalso
      rw [he] at hrest1
      exact hr1ne hrest1
    · exact hgt

theorem renderedPathOf_head_gt (u : Str) (t : Bool) :
    renderedPathOf u t = [] ∨ 0x20 < ((renderedPathOf u t).headD ' ').toNat ∨
      (normRec u t).scheme ≠ [] := by
  have hattach : attachParams (normRec u t).path (normRec u t).params = [] ∨
      0x20 < ((attachParams (normRec u t).path (normRec u t).params).headD ' ').toNat ∨
      (normRec u t).scheme ≠ [] := by
    by_cases hP : (normRec u t).path = []
    · rw [hP, attachParams_nil_left]
      by_cases hpar : (normRec u t).params ≠ []
      · rw [if_pos hpar]
        right; left
        show 0x20 < (';' : Char).toNat
        decide
      · rw [if_neg hpar]
        exact Or.inl rfl
    · right
      rw [attachParams_headD hP]
      by_cases hpp : (urlparse u).path = []
      · left
        rw [normRec_path, hpp, pathPhase_nil]
        decide
      · rw [normRec_path, pathPhase_headD hpp (by rw [← normRec_path]; exact hP)]
        by_cases hsch : (normRec u t).scheme = []
        · left
          have hdef : schemeSplit (cleanUrl u) [] = ([], cleanUrl u) := by
            rcases schemeSplit_cases (cleanUrl u) [] with hd | ⟨b, t2, _, hne2, _, _, _, hval⟩
            · exact hd
            · exfalso
              have hsc2 : (urlparse u).scheme = pyLower b := by
                show (urlsplit u []).scheme = pyLower b
                rw [urlsplit_scheme, hval]
              rw [normRec_scheme, hsc2, pyLower_idem] at hsch
              exact pyLower_ne_nil hne2 hsch
          obtain ⟨j, hj⟩ := urlparse_path_prefix u
          have hsplitne : (urlsplit u []).path ≠ [] := by
            rw [hj]
            exact fun he => hpp (List.append_eq_nil.1 he).1
          have hhead : ((urlparse u).path).headD ' ' = (urlsplit u []).path.headD ' ' := by
            rw [hj, headD_append hpp]
          rw [hhead]
          exact urlsplit_path_head_gt hdef hsplitne
        · exact Or.inr hsch
  simp only [renderedPathOf]
  split
  · right; left
    show 0x20 < ('/' : Char).toNat
    decide
  · exact hattach

theorem urlunparse_attach (scheme : Str) (netloc : Option Str)
    (path params query fragment : Str) :
    urlunparse scheme netloc path params query fragment =
      urlunsplit scheme netloc (attachParams path params) query fragment := rfl

theorem normalize_url_rec (u : Str) (t : Bool) :
    normalize_url u t = urlunsplit (normRec u t).scheme (normRec u t).netloc
      (attachParams (normRec u t).path (normRec u t).params) (normRec u t).query [] := rfl

theorem urlunsplit_eq (scheme : Str) (netloc : Option Str) (path query : Str) :
    urlunsplit scheme netloc path query [] =
      (if scheme ≠ [] then scheme ++ [':'] else []) ++
      ((if (netlocTruthy netloc || (decide (scheme ≠ []) && memB scheme usesNetloc &&
            !startsWithSeq (S "//") path)) = true then
        '/' :: '/' :: (netloc.getD [] ++
          (if path ≠ [] ∧ path.headD ' ' ≠ '/' then '/' :: path else path))
      else path) ++
      (if query ≠ [] then '?' :: query else [])) := by
  simp only [urlunsplit]
  rw [if_neg (show ¬(([] : Str) ≠ []) from fun h => h rfl)]
  by_cases hc : (netlocTruthy netloc || (decide (scheme ≠ []) && memB scheme usesNetloc &&
      !startsWithSeq (S "//") path)) = true
  all_goals first
    | rw [if_pos hc]
    | rw [if_neg hc]
  all_goals by_cases hs : scheme ≠ []
  all_goals first
    | rw [if_pos hs]
    | rw [if_neg hs]
  all_goals by_cases hq : query ≠ []
  all_goals first
    | rw [if_pos hq]
    | rw [if_neg hq]
  all_goals simp [hs, hq, List.append_assoc]

theorem renderedPathOf_eq (u : Str) (t : Bool) :
    renderedPathOf u t =
      if ((netlocTruthy (normRec u t).netloc ||
          (decide ((normRec u t).scheme ≠ []) && memB (normRec u t).scheme usesNetloc &&
            !startsWithSeq (S "//") (attachParams (normRec u t).path (normRec u t).params))) &&
          (decide (attachParams (normRec u t).path (normRec u t).params ≠ []) &&
            decide ((attachParams (normRec u t).path (normRec u t).params).headD ' ' ≠ '/')))
          = true
      then '/' :: attachParams (normRec u t).path (normRec u t).params
      else attachParams (normRec u t).path (normRec u t).params := by
  simp only [renderedPathOf]

theorem split_path_query {RP Q : Str} (hph : '#' ∉ RP) (hpq : '?' ∉ RP) (hqh : '#' ∉ Q) :
    (splitOnFirst '?' (splitOnFirst '#' (RP ++ (if Q ≠ [] then '?' :: Q else []))).1).1 = RP ∧
    ((splitOnFirst '?' (splitOnFirst '#' (RP ++ (if Q ≠ [] then '?' :: Q else []))).1).2).getD []
      = Q ∧
    ((splitOnFirst '#' (RP ++ (if Q ≠ [] then '?' :: Q else []))).2).getD [] = [] := by
  by_cases hq : Q ≠ []
  · rw [if_pos hq]
    have hfr : splitOnFirst '#' (RP ++ '?' :: Q) = (RP ++ '?' :: Q, none) := by
      apply splitOnFirst_not_mem
      intro hm
      rcases List.mem_append.1 hm with hm | hm
      · exact hph hm
      · rcases List.mem_cons.1 hm with he | hm
        · exact absurd he (by decide)
        · exact hqh hm
    have hqu : splitOnFirst '?' (RP ++ '?' :: Q) = (RP, some Q) := splitOnFirst_append hpq
    simp only [hfr, hqu, Option.getD_some, Option.getD_none]
    exact ⟨by trivial, by trivial, by trivial⟩
  · rw [if_neg hq, List.append_nil]
    have hfr : splitOnFirst '#' RP = (RP, none) := splitOnFirst_not_mem hph
    have hqu : splitOnFirst '?' RP = (RP, none) := splitOnFirst_not_mem hpq
    simp only [hfr, hqu, Option.getD_none]
    exact ⟨by trivial, (not_not.1 hq).symm, by trivial⟩

theorem netSplit_norm_pos {NLs P1 QP : Str}
    (hnl : ∀ x ∈ NLs, x ∉ ['/', '?', '#'])
    (hp1 : P1 = [] ∨ P1.headD ' ' = '/')
    (hqp : QP = [] ∨ QP.headD ' ' = '?') :
    netSplit ('/' :: '/' :: (NLs ++ P1) ++ QP) = (NLs, P1 ++ QP) := by
  have hshape : '/' :: '/' :: (NLs ++ P1) ++ QP = '/' :: '/' :: (NLs ++ (P1 ++ QP)) := by
    simp [List.append_assoc]
  rw [hshape]
  apply netSplit_build hnl
  rcases hp1 with rfl | hp1
  · rw [List.nil_append]
    rcases hqp with rfl | hqp
    · exact Or.inl rfl
    · right
      rw [hqp]
      decide
  · right
    have hP1ne : P1 ≠ [] := by
      intro h0
      rw [h0] at hp1
      exact absurd hp1 (by decide)
    rw [headD_append hP1ne, hp1]
    decide

theorem startsWith2_append_false {a b : Str} (h : startsWithSeq (S "//") a = false)
    (hb : b = [] ∨ b.headD ' ' = '?') : startsWithSeq (S "//") (a ++ b) = false := by
  rcases hbool : startsWithSeq (S "//") (a ++ b) with _ | _
  · rfl
  · exfalso
    obtain ⟨r, hr⟩ := startsWithSeq_slash2 hbool
    rcases a with _ | ⟨x, _ | ⟨y, a2⟩⟩
    · rw [List.nil_append] at hr
      rcases hb with rfl | hb
      · cases hr
      · rw [hr] at hb
        exact absurd (show ('/' : Char) = '?' from hb) (by decide)
    · rw [List.cons_append, List.nil_append] at hr
      injection hr with h1 h2
      rcases hb with rfl | hb
      · cases h2
      · rw [h2] at hb
        exact absurd (show ('/' : Char) = '?' from hb) (by decide)
    · rw [List.cons_append, List.cons_append] at hr
      injection hr with h1 hrest
      injection hrest with h2 _
      subst h1
      subst h2
      exact absurd h (by simp [startsWithSeq, S])

theorem urlsplit_normalize (u : Str) (t : Bool)
    (hhp : hostlessPortKeep u t = false)
    (hsc : slashSlashCapture u t = false) :
    urlsplit (normalize_url u t) [] =
      ⟨(normRec u t).scheme, (normRec u t).netloc.getD [], renderedPathOf u t,
        (normRec u t).query, []⟩ := by
  have hQsrc : (normRec u t).query = normQuery (urlparse u).query := normRec_query u t
  have hQhash : '#' ∉ (normRec u t).query := fun hm => (mem_normQuery_char (hQsrc ▸ hm)).1 rfl
  have hQtab : ∀ x ∈ (normRec u t).query, ¬(x = '\t' ∨ x = '\r' ∨ x = '\n') :=
    fun x hm => (mem_normQuery_char (hQsrc ▸ hm)).2.1
  have hRPhash : '#' ∉ renderedPathOf u t := fun hm => (mem_renderedPathOf hm).1 rfl
  have hRPq : '?' ∉ renderedPathOf u t := fun hm => (mem_renderedPathOf hm).2.1 rfl
  have hRPtab : ∀ x ∈ renderedPathOf u t, ¬(x = '\t' ∨ x = '\r' ∨ x = '\n') :=
    fun x hm => (mem_renderedPathOf hm).2.2
  have hNL := normRec_netloc_getD_facts u t hhp
  have hQPtab : ∀ x ∈ (if (normRec u t).query ≠ [] then '?' :: (normRec u t).query else []),
      ¬(x = '\t' ∨ x = '\r' ∨ x = '\n') := by
    intro x hx
    by_cases hq : (normRec u t).query ≠ []
    · rw [if_pos hq] at hx
      rcases List.mem_cons.1 hx with rfl | hx
      · decide
      · exact hQtab x hx
    · rw [if_neg hq] at hx
      cases hx
  have hQPhead : (if (normRec u t).query ≠ [] then '?' :: (normRec u t).query else []) = [] ∨
      (if (normRec u t).query ≠ [] then '?' :: (normRec u t).query else []).headD ' ' = '?' := by
    by_cases hq : (normRec u t).query ≠ []
    · rw [if_pos hq]
      exact Or.inr rfl
    · rw [if_neg hq]
      exact Or.inl rfl
  obtain ⟨hf1, hf2, hf3⟩ := @split_path_query (renderedPathOf u t)
    ((normRec u t).query) hRPhash hRPq hQhash
  rw [normalize_url_rec, urlunsplit_eq]
  by_cases hcond : (netlocTruthy (normRec u t).netloc ||
      (decide ((normRec u t).scheme ≠ []) && memB (normRec u t).scheme usesNetloc &&
        !startsWithSeq (S "//") (attachParams (normRec u t).path (normRec u t).params))) = true
  · rw [if_pos hcond]
    have hRP : renderedPathOf u t =
        (if attachParams (normRec u t).path (normRec u t).params ≠ [] ∧
            (attachParams (normRec u t).path (normRec u t).params).headD ' ' ≠ '/' then
          '/' :: attachParams (normRec u t).path (normRec u t).params
        else attachParams (normRec u t).path (normRec u t).params) := by
      rw [renderedPathOf_eq, hcond, Bool.true_and]
      by_cases hpp : attachParams (normRec u t).path (normRec u t).params ≠ [] ∧
          (attachParams (normRec u t).path (normRec u t).params).headD ' ' ≠ '/'
      · rw [if_pos (by rw [decide_eq_true hpp.1, decide_eq_true hpp.2]; rfl), if_pos hpp]
      · rw [if_neg ?_, if_neg hpp]
        intro hb
        rw [Bool.and_eq_true, decide_eq_true_eq, decide_eq_true_eq] at hb
        exact hpp hb
    have hP1head : renderedPathOf u t = [] ∨ (renderedPathOf u t).headD ' ' = '/' := by
      rw [hRP]
      by_cases hpp : attachParams (normRec u t).path (normRec u t).params ≠ [] ∧
          (attachParams (normRec u t).path (normRec u t).params).headD ' ' ≠ '/'
      · rw [if_pos hpp]
        exact Or.inr rfl
      · rw [if_neg hpp]
        by_cases h0 : attachParams (normRec u t).path (normRec u t).params = []
        · exact Or.inl h0
        · right
          by_cases hh : (attachParams (normRec u t).path (normRec u t).params).headD ' ' = '/'
          · exact hh
          · exact absurd ⟨h0, hh⟩ hpp
    rw [← hRP]
    have hn : netSplit ('/' :: '/' :: ((normRec u t).netloc.getD [] ++ renderedPathOf u t) ++
        (if (normRec u t).query ≠ [] then '?' :: (normRec u t).query else [])) =
        ((normRec u t).netloc.getD [], renderedPathOf u t ++
          (if (normRec u t).query ≠ [] then '?' :: (normRec u t).query else [])) :=
      netSplit_norm_pos (fun x hx => (hNL x hx).1) hP1head hQPhead
    have hBmem : ∀ x ∈ '/' :: '/' :: ((normRec u t).netloc.getD [] ++ renderedPathOf u t) ++
        (if (normRec u t).query ≠ [] then '?' :: (normRec u t).query else []),
        ¬(x = '\t' ∨ x = '\r' ∨ x = '\n') := by
      intro x hx
      rcases List.mem_append.1 hx with hx | hx
      · rcases List.mem_cons.1 hx with rfl | hx
        · decide
        rcases List.mem_cons.1 hx with rfl | hx
        · decide
        rcases List.mem_append.1 hx with hx | hx
        · exact (hNL x hx).2
        · exact hRPtab x hx
      · exact hQPtab x hx
    rcases normRec_scheme_cases u t with hsch | ⟨hsne, hsal, hsall, hslow⟩
    · rw [hsch, if_neg (fun h => h rfl), List.nil_append]
      have hclean : cleanUrl ('/' :: '/' :: ((normRec u t).netloc.getD [] ++
          renderedPathOf u t) ++
          (if (normRec u t).query ≠ [] then '?' :: (normRec u t).query else [])) =
          '/' :: '/' :: ((normRec u t).netloc.getD [] ++ renderedPathOf u t) ++
          (if (normRec u t).query ≠ [] then '?' :: (normRec u t).query else []) := by
        refine cleanUrl_eq_self (Or.inr ?_) hBmem
        rw [headD_append (List.cons_ne_nil _ _)]
        show 0x20 < ('/' : Char).toNat
        decide
      have hs : schemeSplit (cleanUrl ('/' :: '/' :: ((normRec u t).netloc.getD [] ++
          renderedPathOf u t) ++
          (if (normRec u t).query ≠ [] then '?' :: (normRec u t).query else []))) [] =
          ([], '/' :: '/' :: ((normRec u t).netloc.getD [] ++ renderedPathOf u t) ++
          (if (normRec u t).query ≠ [] then '?' :: (normRec u t).query else [])) := by
        rw [hclean]
        apply schemeSplit_of_noSchemeText
        apply noSchemeText_of_head
        rw [headD_append (List.cons_ne_nil _ _)]
        show isAsciiAlpha '/' = false
        decide
      rw [urlsplit_comp hs hn, hf1, hf2, hf3]
    · rw [if_pos hsne]
      have hSmem : ∀ x ∈ (normRec u t).scheme ++ [':'],
          ¬(x = '\t' ∨ x = '\r' ∨ x = '\n') := by
        intro x hx
        rcases List.mem_append.1 hx with hx | hx
        · exact (schemeChar_facts (List.all_eq_true.1 hsall x hx)).2.2
        · rcases List.mem_singleton.1 hx with rfl
          decide
      have hclean : cleanUrl (((normRec u t).scheme ++ [':']) ++
          ('/' :: '/' :: ((normRec u t).netloc.getD [] ++ renderedPathOf u t) ++
          (if (normRec u t).query ≠ [] then '?' :: (normRec u t).query else []))) =
          ((normRec u t).scheme ++ [':']) ++
          ('/' :: '/' :: ((normRec u t).netloc.getD [] ++ renderedPathOf u t) ++
          (if (normRec u t).query ≠ [] then '?' :: (normRec u t).query else [])) := by
        refine cleanUrl_eq_self (Or.inr ?_) ?_
        · rw [headD_append (fun he => hsne (List.append_eq_nil.1 he).1),
            headD_append hsne]
          exact alpha_gt_space hsal
        · intro x hx
          rcases List.mem_append.1 hx with hx | hx
          · exact hSmem x hx
          · exact hBmem x hx
      have hs : schemeSplit (cleanUrl (((normRec u t).scheme ++ [':']) ++
          ('/' :: '/' :: ((normRec u t).netloc.getD [] ++ renderedPathOf u t) ++
          (if (normRec u t).query ≠ [] then '?' :: (normRec u t).query else [])))) [] =
          ((normRec u t).scheme,
           '/' :: '/' :: ((normRec u t).netloc.getD [] ++ renderedPathOf u t) ++
           (if (normRec u t).query ≠ [] then '?' :: (normRec u t).query else [])) := by
        rw [hclean, List.append_assoc,
          show ([':'] : Str) ++ ('/' :: '/' :: ((normRec u t).netloc.getD [] ++
            renderedPathOf u t) ++
            (if (normRec u t).query ≠ [] then '?' :: (normRec u t).query else [])) =
            ':' :: ('/' :: '/' :: ((normRec u t).netloc.getD [] ++ renderedPathOf u t) ++
            (if (normRec u t).query ≠ [] then '?' :: (normRec u t).query else [])) from rfl,
          schemeSplit_valid [] hsne hsal hsall, hslow]
      rw [urlsplit_comp hs hn, hf1, hf2, hf3]
  · rw [if_neg hcond]
    have hnt : netlocTruthy (normRec u t).netloc = false := by
      rcases hb : netlocTruthy (normRec u t).netloc with _ | _
      · rfl
      · exact absurd (by rw [hb, Bool.true_or]) hcond
    have hRP : renderedPathOf u t = attachParams (normRec u t).path (normRec u t).params := by
      rw [renderedPathOf_eq]
      rw [if_neg ?_]
      intro hb
      rw [Bool.and_eq_true] at hb
      exact hcond hb.1
    have hNLnil : (normRec u t).netloc.getD [] = [] := by
      rcases hnl2 : (normRec u t).netloc with _ | s
      · rfl
      · rw [hnl2, netlocTruthy] at hnt
        rw [Option.getD_some]
        simpa using hnt
    have hnsw : startsWithSeq (S "//")
        (attachParams (normRec u t).path (normRec u t).params) = false := by
      rw [slashSlashCapture, hnt] at hsc
      simpa using hsc
    have hQPq : (if (normRec u t).query ≠ [] then '?' :: (normRec u t).query else []) = [] ∨
        (if (normRec u t).query ≠ [] then '?' :: (normRec u t).query else []).headD ' '
          = '?' := hQPhead
    have hn : netSplit (attachParams (normRec u t).path (normRec u t).params ++
        (if (normRec u t).query ≠ [] then '?' :: (normRec u t).query else [])) =
        ([], attachParams (normRec u t).path (normRec u t).params ++
          (if (normRec u t).query ≠ [] then '?' :: (normRec u t).query else [])) :=
      netSplit_neg (startsWith2_append_false hnsw hQPq)
    have hBmem : ∀ x ∈ attachParams (normRec u t).path (normRec u t).params ++
        (if (normRec u t).query ≠ [] then '?' :: (normRec u t).query else []),
        ¬(x = '\t' ∨ x = '\r' ∨ x = '\n') := by
      intro x hx
      rcases List.mem_append.1 hx with hx | hx
      · exact hRPtab x (hRP ▸ hx)
      · exact hQPtab x hx
    rcases normRec_scheme_cases u t with hsch | ⟨hsne, hsal, hsall, hslow⟩
    · have hOhead : (attachParams (normRec u t).path (normRec u t).params ++
          (if (normRec u t).query ≠ [] then '?' :: (normRec u t).query else [])) = [] ∨
          0x20 < ((attachParams (normRec u t).path (normRec u t).params ++
          (if (normRec u t).query ≠ [] then '?' :: (normRec u t).query else [])).headD
            ' ').toNat := by
        rcases renderedPathOf_head_gt u t with h0 | hgt | hne2
        · rw [hRP] at h0
          rcases hQPhead with hq0 | hqh
          · left
            rw [h0, hq0]
            rfl
          · right
            rw [h0, List.nil_append, hqh]
            decide
        · right
          have hrpne : renderedPathOf u t ≠ [] := by
            intro h0
            rw [h0] at hgt
            revert hgt
            decide
          rw [headD_append (fun he => hrpne (by rw [hRP]; exact he))]
          rw [hRP] at hgt
          exact hgt
        · exact absurd hsch hne2
      rw [hsch, if_neg (fun h => h rfl), List.nil_append]
      have hclean : cleanUrl (attachParams (normRec u t).path (normRec u t).params ++
          (if (normRec u t).query ≠ [] then '?' :: (normRec u t).query else [])) =
          attachParams (normRec u t).path (normRec u t).params ++
          (if (normRec u t).query ≠ [] then '?' :: (normRec u t).query else []) :=
        cleanUrl_eq_self hOhead hBmem
      have hs : schemeSplit (cleanUrl (attachParams (normRec u t).path
          (normRec u t).params ++
          (if (normRec u t).query ≠ [] then '?' :: (normRec u t).query else []))) [] =
          ([], attachParams (normRec u t).path (normRec u t).params ++
          (if (normRec u t).query ≠ [] then '?' :: (normRec u t).query else [])) := by
        rw [hclean]
        exact schemeSplit_of_noSchemeText [] (noSchemeText_of_norm u t hsch)
      rw [urlsplit_comp hs hn, hNLnil, ← hRP, hf1, hf2, hf3]
    · rw [if_pos hsne]
      have hSmem : ∀ x ∈ (normRec u t).scheme ++ [':'],
          ¬(x = '\t' ∨ x = '\r' ∨ x = '\n') := by
        intro x hx
        rcases List.mem_append.1 hx with hx | hx
        · exact (schemeChar_facts (List.all_eq_true.1 hsall x hx)).2.2
        · rcases List.mem_singleton.1 hx with rfl
          decide
      have hclean : cleanUrl (((normRec u t).scheme ++ [':']) ++
          (attachParams (normRec u t).path (normRec u t).params ++
          (if (normRec u t).query ≠ [] then '?' :: (normRec u t).query else []))) =
          ((normRec u t).scheme ++ [':']) ++
          (attachParams (normRec u t).path (normRec u t).params ++
          (if (normRec u t).query ≠ [] then '?' :: (normRec u t).query else [])) := by
        refine cleanUrl_eq_self (Or.inr ?_) ?_
        · rw [headD_append (fun he => hsne (List.append_eq_nil.1 he).1),
            headD_append hsne]
          exact alpha_gt_space hsal
        · intro x hx
          rcases List.mem_append.1 hx with hx | hx
          · exact hSmem x hx
          · exact hBmem x hx
      have hs : schemeSplit (cleanUrl (((normRec u t).scheme ++ [':']) ++
          (attachParams (normRec u t).path (normRec u t).params ++
          (if (normRec u t).query ≠ [] then '?' :: (normRec u t).query else [])))) [] =
          ((normRec u t).scheme,
           attachParams (normRec u t).path (normRec u t).params ++
           (if (normRec u t).query ≠ [] then '?' :: (normRec u t).query else [])) := by
        rw [hclean, List.append_assoc,
          show ([':'] : Str) ++ (attachParams (normRec u t).path (normRec u t).params ++
            (if (normRec u t).query ≠ [] then '?' :: (normRec u t).query else [])) =
            ':' :: (attachParams (normRec u t).path (normRec u t).params ++
            (if (normRec u t).query ≠ [] then '?' :: (normRec u t).query else []))
            from rfl,
          schemeSplit_valid [] hsne hsal hsall, hslow]
      rw [urlsplit_comp hs hn, hNLnil, ← hRP, hf1, hf2, hf3]

theorem pyHostname_nil : pyHostname [] = none := by decide

theorem pyPort_nil : pyPort [] = none := by decide

theorem urlparse_normalize (u : Str) (t : Bool)
    (hhp : hostlessPortKeep u t = false)
    (hsc : slashSlashCapture u t = false) :
    urlparse (normalize_url u t) [] =
      ⟨(normRec u t).scheme, (normRec u t).netloc.getD [],
        (if memB (normRec u t).scheme usesParams ∧ ';' ∈ renderedPathOf u t then
          splitparams (renderedPathOf u t) else (renderedPathOf u t, ([] : Str))).1,
        (if memB (normRec u t).scheme usesParams ∧ ';' ∈ renderedPathOf u t then
          splitparams (renderedPathOf u t) else (renderedPathOf u t, ([] : Str))).2,
        (normRec u t).query, []⟩ := by
  have hsplit := urlsplit_normalize u t hhp hsc
  rcases hpp : (if memB (normRec u t).scheme usesParams ∧ ';' ∈ renderedPathOf u t then
      splitparams (renderedPathOf u t) else (renderedPathOf u t, ([] : Str)))
    with ⟨p1, p2⟩
  simp only [urlparse, hsplit, hpp]

theorem startsWith2_cons_slash {u0 : Str} (hhead : u0.headD ' ' ≠ '/') :
    startsWithSeq (S "//") ('/' :: u0) = false := by
  rcases u0 with _ | ⟨h, r⟩
  · decide
  · rcases hb : startsWithSeq (S "//") ('/' :: h :: r) with _ | _
    · rfl
    · exfalso
      obtain ⟨r2, hr2⟩ := startsWithSeq_slash2 hb
      injection hr2 with _ h2
      injection h2 with h3 _
      exact hhead h3

theorem urlunsplit_rendered_stable (sc : Str) (nlo : Option Str) (u0 q : Str)
    (hsw : netlocTruthy nlo = false → startsWithSeq (S "//") u0 = false) :
    urlunsplit sc nlo
      (if ((netlocTruthy nlo || (decide (sc ≠ []) && memB sc usesNetloc &&
          !startsWithSeq (S "//") u0)) &&
          (decide (u0 ≠ []) && decide (u0.headD ' ' ≠ '/'))) = true
       then '/' :: u0 else u0) q [] =
      urlunsplit sc nlo u0 q [] := by
  by_cases hb : ((netlocTruthy nlo || (decide (sc ≠ []) && memB sc usesNetloc &&
      !startsWithSeq (S "//") u0)) &&
      (decide (u0 ≠ []) && decide (u0.headD ' ' ≠ '/'))) = true
  · rw [if_pos hb]
    rw [Bool.and_eq_true, Bool.and_eq_true, decide_eq_true_eq, decide_eq_true_eq] at hb
    obtain ⟨hcond, hne, hhead⟩ := hb
    have hsw2 : startsWithSeq (S "//") ('/' :: u0) = false := startsWith2_cons_slash hhead
    rw [urlunsplit_eq, urlunsplit_eq]
    have hcond2 : (netlocTruthy nlo || (decide (sc ≠ []) && memB sc usesNetloc &&
        !startsWithSeq (S "//") ('/' :: u0))) = true := by
      rcases hnt : netlocTruthy nlo with _ | _
      · rw [hnt, Bool.false_or] at hcond
        rw [Bool.false_or, hsw2, Bool.not_false, Bool.and_true]
        rw [Bool.and_eq_true] at hcond
        exact hcond.1
      · rw [Bool.true_or]
    rw [if_pos hcond, if_pos hcond2]
    rw [if_pos (show u0 ≠ [] ∧ u0.headD ' ' ≠ '/' from ⟨hne, hhead⟩)]
    rw [if_neg (show ¬('/' :: u0 ≠ [] ∧ ('/' :: u0).headD ' ' ≠ '/') from
      fun hx => hx.2 rfl)]
  · rw [if_neg hb]

/-! ### Generic list facts -/

theorem memB_iff [DecidableEq α] (x : α) (l : List α) : memB x l = true ↔ x ∈ l := by
  induction l with
  | nil => simp [memB]
  | cons a r ih =>
    simp only [memB, Bool.or_eq_true, decide_eq_true_eq, ih, List.mem_cons]
    exact or_congr_left eq_comm

theorem mem_dedup_go (seen l : List Str) (x : Str) :
    x ∈ dedupKeepFirst.go seen l ↔ x ∈ l ∧ x ∉ seen := by
  induction l generalizing seen with
  | nil => simp [dedupKeepFirst.go]
  | cons a r ih =>
    rw [dedupKeepFirst.go]
    by_cases h : memB a seen = true
    · have ha : a ∈ seen := (memB_iff a seen).1 h
      rw [if_pos h, ih]
      constructor
      · rintro ⟨hx, hn⟩; exact ⟨List.mem_cons_of_mem a hx, hn⟩
      · rintro ⟨hx, hn⟩
        rcases List.mem_cons.1 hx with rfl | hx'
        · exact absurd ha hn
        · exact ⟨hx', hn⟩
    · have ha : a ∉ seen := fun hs => h ((memB_iff a seen).2 hs)
      rw [if_neg h]
      constructor
      · intro hx
        rcases List.mem_cons.1 hx with rfl | hx'
        · exact ⟨List.mem_cons_self x r, ha⟩
        · rcases (ih (a :: seen)).1 hx' with ⟨hr, hn⟩
          exact ⟨List.mem_cons_of_mem a hr, fun hs => hn (List.mem_cons_of_mem a hs)⟩
      · rintro ⟨hx, hn⟩
        by_cases hxa : x = a
        · subst hxa; exact List.mem_cons_self x _
        · rcases List.mem_cons.1 hx with rfl | hx'
          · exact absurd rfl hxa
          · exact List.mem_cons_of_mem a ((ih (a :: seen)).2
              ⟨hx', fun hs => (List.mem_cons.1 hs).elim hxa hn⟩)

theorem nodup_dedup_go (seen l : List Str) : (dedupKeepFirst.go seen l).Nodup := by
  induction l generalizing seen with
  | nil => exact List.nodup_nil
  | cons a r ih =>
    rw [dedupKeepFirst.go]
    by_cases h : memB a seen = true
    · rw [if_pos h]; exact ih seen
    · rw [if_neg h]
      refine List.Nodup.cons (fun hmem => ?_) (ih (a :: seen))
      exact ((mem_dedup_go (a :: seen) r a).1 hmem).2 (List.mem_cons_self a seen)

theorem mem_dedupKeepFirst (l : List Str) (x : Str) : x ∈ dedupKeepFirst l ↔ x ∈ l := by
  unfold dedupKeepFirst
  rw [mem_dedup_go]
  simp

theorem nodup_dedupKeepFirst (l : List Str) : (dedupKeepFirst l).Nodup :=
  nodup_dedup_go [] l

/-! ### Claim C4: the masker -/

/-- Claim C4: mask_sensitive_value returns the fixed replacement token exactly
when the key matches the case-insensitive sensitive-name pattern and the value
unchanged otherwise; masking is idempotent, and the replacement token itself
never matches the pattern. -/
theorem claim_C4 (key value : Str) :
    (maskingSearch key = true → mask_sensitive_value key value = masking_replacement) ∧
    (maskingSearch key = false → mask_sensitive_value key value = value) ∧
    mask_sensitive_value key (mask_sensitive_value key value) = mask_sensitive_value key value ∧
    maskingSearch masking_replacement = false := by
  refine ⟨fun h => by simp [mask_sensitive_value, h], fun h => by simp [mask_sensitive_value, h],
    ?_, by decide⟩
  by_cases h : maskingSearch key = true <;> simp [mask_sensitive_value, h]

/-- Witness for C4 at the concrete keys of the spec's testable property. -/
theorem claim_C4_witness :
    (maskingSearch (S "api_key") = true ∧
      mask_sensitive_value (S "api_key") (S "xyz") = masking_replacement) ∧
    (maskingSearch (S "title") = false ∧
      mask_sensitive_value (S "title") (S "xyz") = S "xyz") ∧
    mask_sensitive_value (S "api_key") (mask_sensitive_value (S "api_key") (S "xyz")) =
      mask_sensitive_value (S "api_key") (S "xyz") :=
  ⟨⟨by decide, (claim_C4 (S "api_key") (S "xyz")).1 (by decide)⟩,
   ⟨by decide, (claim_C4 (S "title") (S "xyz")).2.1 (by decide)⟩,
   (claim_C4 (S "api_key") (S "xyz")).2.2.1⟩

/-! ### Claim C8: required-field validation of POST /crawl -/

theorem removeKey_cons (a : Str × Jv) (r : List (Str × Jv)) (f : Str) :
    removeKey (a :: r) f = if a.1 = f then removeKey r f else a :: removeKey r f := by
  by_cases h : a.1 = f <;> simp [removeKey, List.filter_cons, h]

theorem lookupJv_removeKey (payload : List (Str × Jv)) (f g : Str) (h : g ≠ f) :
    lookupJv (removeKey payload f) g = lookupJv payload g := by
  induction payload with
  | nil => rfl
  | cons a r ih =>
    rw [removeKey_cons]
    by_cases ha : a.1 = f
    · have hag : ¬ (a.1 = g) := fun hg => h (hg ▸ ha)
      rw [if_pos ha, ih, lookupJv, if_neg hag]
    · rw [if_neg ha, lookupJv, lookupJv]
      by_cases hg : a.1 = g
      · rw [if_pos hg, if_pos hg]
      · rw [if_neg hg, if_neg hg, ih]

theorem lookupJv_removeKey_self (payload : List (Str × Jv)) (f : Str) :
    lookupJv (removeKey payload f) f = none := by
  induction payload with
  | nil => rfl
  | cons a r ih =>
    rw [removeKey_cons]
    by_cases ha : a.1 = f
    · rw [if_pos ha]; exact ih
    · rw [if_neg ha, lookupJv, if_neg ha]; exact ih

theorem lookupJv_setKey (payload : List (Str × Jv)) (f g : Str) (v : Jv) :
    lookupJv (setKey payload f v) g =
      if g = f then some v else lookupJv payload g := by
  by_cases h : g = f
  · subst h; simp [setKey, lookupJv]
  · have hfg : ¬ (f = g) := fun hg => h hg.symm
    rw [setKey, lookupJv, if_neg hfg, if_neg h]
    exact lookupJv_removeKey payload f g h

/-- Claim C8: a required field present with a falsy value is rejected exactly as
if it were absent, and acceptance requires every required field present and
truthy. -/
theorem claim_C8 (payload : List (Str × Jv)) (f : Str) (v : Jv)
    (hf : f ∈ requiredFields) (hv : truthyJv v = false) :
    crawlRoute true (setKey payload f v) = crawlRoute true (removeKey payload f) ∧
    (crawlRoute true payload = .accepted ↔
      ∀ g ∈ requiredFields, truthyJv ((lookupJv payload g).getD .null) = true) := by
  constructor
  · have hsame : ∀ g, truthyJv ((lookupJv (setKey payload f v) g).getD .null) =
        truthyJv ((lookupJv (removeKey payload f) g).getD .null) := by
      intro g
      by_cases hg : g = f
      · subst hg
        rw [lookupJv_setKey, if_pos rfl, lookupJv_removeKey_self]
        simpa [truthyJv] using hv
      · rw [lookupJv_setKey, if_neg hg, lookupJv_removeKey payload f g hg]
    have : (requiredFields.filter fun g => !truthyJv ((lookupJv (setKey payload f v) g).getD .null)) =
        (requiredFields.filter fun g => !truthyJv ((lookupJv (removeKey payload f) g).getD .null)) :=
      List.filter_congr (fun g _ => by rw [hsame g])
    simp only [crawlRoute, if_pos rfl, this]
  · simp only [crawlRoute, if_pos rfl]
    by_cases h : (requiredFields.filter fun g => !truthyJv ((lookupJv payload g).getD .null)) = []
    · rw [h]
      simp only [ne_eq, not_true_eq_false, if_neg, not_false_eq_true]
      constructor
      · intro _ g hg
        have := List.filter_eq_nil_iff.1 h g hg
        simpa using this
      · intro _; rfl
    · rw [if_pos h]
      constructor
      · intro hcontra; exact absurd hcontra (by simp)
      · intro hall
        exfalso
        apply h
        rw [List.filter_eq_nil_iff]
        intro g hg
        simp [hall g hg]

/-- Witness for C8: a payload whose target_url is the empty string is rejected
exactly like one with no target_url, and a fully-populated payload is accepted. -/
theorem claim_C8_witness :
    crawlRoute true
        (setKey [(S "task_guid", Jv.s (S "t")), (S "parent_guid", Jv.s (S "p"))]
          (S "target_url") (Jv.s [])) =
      crawlRoute true
        (removeKey [(S "task_guid", Jv.s (S "t")), (S "parent_guid", Jv.s (S "p"))]
          (S "target_url")) ∧
    crawlRoute true
        [(S "task_guid", Jv.s (S "t")), (S "parent_guid", Jv.s (S "p")),
         (S "target_url", Jv.s (S "http://ex.com/"))] = .accepted :=
  ⟨(claim_C8 [(S "task_guid", Jv.s (S "t")), (S "parent_guid", Jv.s (S "p"))]
      (S "target_url") (Jv.s []) (by decide) (by decide)).1,
   (claim_C8 [(S "task_guid", Jv.s (S "t")), (S "parent_guid", Jv.s (S "p")),
      (S "target_url", Jv.s (S "http://ex.com/"))]
      (S "target_url") (Jv.s []) (by decide) (by decide)).2.mpr (by decide)⟩

/-! ### Claim C7: session release -/

/-- Claim C7 counterexample: on a successfully rendered task the session
teardown never removes the temporary profile directory — the rmtree call is
commented out in the source — contradicting the claim that release includes
cleanup of the profile directory. -/
theorem claim_C7_counterexample :
    SessionEffect.removeProfileDir ∉
      crawl_session_effects (.ok ⟨S "http://ex.com/", blankPage⟩) := by
  decide

/-- Claim C7 (amended): on every exit path, success or failure, driver.quit()
runs unconditionally, but the temporary profile directory created at session
setup is never removed. -/
theorem claim_C7_amended (render : Except Str RenderedPage) :
    SessionEffect.quitDriver ∈ crawl_session_effects render ∧
    SessionEffect.removeProfileDir ∉ crawl_session_effects render := by
  cases render <;> simp [crawl_session_effects]

/-! ### Claim C6: terminal callbacks -/

/-- Claim C6: a task whose render step raises terminates FAILED with the error
message verbatim and no result data; a successful crawl emits exactly one
completed callback carrying the report; exactly one callback is emitted either
way. -/
theorem claim_C6 (guid : Str) (inp : ApiInput) (e : Str) (page : RenderedPage) :
    (run_crawl_async guid inp (.error e)).status = S "failed" ∧
    (run_crawl_async guid inp (.error e)).error_message = some e ∧
    (run_crawl_async guid inp (.error e)).result_data = none ∧
    ((crawl_and_parse inp (.ok page)).error = none →
      (run_crawl_async guid inp (.ok page)).status = S "completed" ∧
      (run_crawl_async guid inp (.ok page)).result_data =
        some (crawl_and_parse inp (.ok page)) ∧
      (run_crawl_async guid inp (.ok page)).error_message = none) ∧
    (callbacksEmitted guid inp (.error e)).length = 1 ∧
    (callbacksEmitted guid inp (.ok page)).length = 1 := by
  refine ⟨?_, ?_, ?_, ?_, rfl, rfl⟩
  · simp [run_crawl_async, crawl_and_parse]
  · simp [run_crawl_async, crawl_and_parse]
  · simp [run_crawl_async, crawl_and_parse]
  · intro h
    have hsplit : ∃ rep, parse_all page.final_url page.doc
        (collectLinksFor inp.remaining_depth) = .ok rep := by
      rcases hp : parse_all page.final_url page.doc (collectLinksFor inp.remaining_depth) with
        err | rep
      · exfalso
        simp [crawl_and_parse, hp] at h
      · exact ⟨rep, rfl⟩
    rcases hsplit with ⟨rep, hp⟩
    simp [run_crawl_async, crawl_and_parse, hp]

/-- Witness for C6 at a concrete error and a concrete successful page. -/
theorem claim_C6_witness :
    (run_crawl_async (S "g") ⟨S "p", S "http://ex.com/", [], 0, 1, 0⟩
        (.error (S "net::ERR_TIMED_OUT"))).error_message = some (S "net::ERR_TIMED_OUT") ∧
    (run_crawl_async (S "g") ⟨S "p", S "http://ex.com/", [], 0, 1, 0⟩
        (.ok ⟨S "http://ex.com/", blankPage⟩)).status = S "completed" :=
  ⟨(claim_C6 (S "g") ⟨S "p", S "http://ex.com/", [], 0, 1, 0⟩ (S "net::ERR_TIMED_OUT")
      ⟨S "http://ex.com/", blankPage⟩).2.1,
   ((claim_C6 (S "g") ⟨S "p", S "http://ex.com/", [], 0, 1, 0⟩ (S "net::ERR_TIMED_OUT")
      ⟨S "http://ex.com/", blankPage⟩).2.2.2.1 (by decide)).1⟩

/-! ### Claim C5: totality of the extraction passes -/

/-- Claim C5 fails on the code: on a parseable page whose title element has no
string child (e.g. `<title></title>`), soup.title.string is None and the
.strip() call raises AttributeError, so the DOM pass and the login-signal pass
are not total; the error propagates out of parse_all and the crawl falls into
the generic except path. -/
theorem claim_C5_failure :
    parse_dom (S "http://ex.com/") emptyTitlePage true = .error .attributeError ∧
    parse_panel_login_signals (S "http://ex.com/") emptyTitlePage = .error .attributeError ∧
    parse_all (S "http://ex.com/") emptyTitlePage true = .error .attributeError ∧
    (crawl_and_parse ⟨S "p", S "http://ex.com/", [], 0, 1, 0⟩
        (.ok ⟨S "http://ex.com/", emptyTitlePage⟩)).error =
      some (S "'NoneType' object has no attribute 'strip'") := by
  refine ⟨rfl, rfl, rfl, rfl⟩

/-! ### Claim C3: depth-gated link collection -/

/-- Claim C3: link collection is enabled iff remaining_depth > 0; with the gate
off the visible-link output is empty, and with it on it is the deduplicated set
of the page's anchor hrefs resolved against the base URL. -/
theorem claim_C3 (base : Str) (doc : HtmlDoc) (d : Int) :
    (collectLinksFor d = true ↔ d > 0) ∧
    (d ≤ 0 → visibleLinksOf base doc (collectLinksFor d) = []) ∧
    (d > 0 →
      (∀ x, x ∈ visibleLinksOf base doc (collectLinksFor d) ↔
        ∃ h ∈ hrefsOf doc, urljoin base h = x) ∧
      (visibleLinksOf base doc (collectLinksFor d)).Nodup) := by
  refine ⟨by simp [collectLinksFor], fun hle => ?_, fun hgt => ⟨fun x => ?_, ?_⟩⟩
  · have : collectLinksFor d = false := by
      simp [collectLinksFor]; omega
    simp [visibleLinksOf, this]
  · have hc : collectLinksFor d = true := by simp [collectLinksFor, hgt]
    rw [visibleLinksOf, if_pos hc, mem_dedupKeepFirst, List.mem_map]
  · have hc : collectLinksFor d = true := by simp [collectLinksFor, hgt]
    rw [visibleLinksOf, if_pos hc]
    exact nodup_dedupKeepFirst _

/-- Witness for C3: at depth 0 the link set is empty; at depth 1 it is the
deduplicated resolved set. -/
theorem claim_C3_witness :
    visibleLinksOf (S "http://ex.com/") twoLinkPage (collectLinksFor 0) = [] ∧
    ((S "http://ex.com/a") ∈ visibleLinksOf (S "http://ex.com/") twoLinkPage (collectLinksFor 1) ∧
      (visibleLinksOf (S "http://ex.com/") twoLinkPage (collectLinksFor 1)).Nodup) :=
  ⟨(claim_C3 (S "http://ex.com/") twoLinkPage 0).2.1 (by decide),
   ⟨((claim_C3 (S "http://ex.com/") twoLinkPage 1).2.2 (by decide)).1 (S "http://ex.com/a")
      |>.mpr ⟨S "a", by decide, by decide⟩,
    ((claim_C3 (S "http://ex.com/") twoLinkPage 1).2.2 (by decide)).2⟩⟩

/-! ### Claims C1 and C9: the scope check -/

theorem is_within_scope_eq (base target : Str) (sub : Bool) :
    is_within_scope base target sub =
      ((target ≠ [] : Bool) && scopeHostOk (urlparse base) (urlparse target) sub &&
        scopePathOk (urlparse target)) := by
  by_cases h1 : target = []
  · simp [is_within_scope, h1]
  · by_cases h2 : scopeHostOk (urlparse base) (urlparse target) sub = true
    · by_cases h3 : scopePathOk (urlparse target) = true
      · simp [is_within_scope, h1, h2, h3]
      · simp [is_within_scope, h1, h2, h3]
    · simp [is_within_scope, h1, h2]

/-- Claim C1 counterexample: a candidate written with an explicit default port
is judged out of scope of the portless base because is_within_scope compares
the parsed ports as written (None vs 80) — even though scheme and host match
and the port is the scheme's default, so default-port normalization would put
it in scope as the claim asserts. -/
theorem claim_C1_counterexample :
    is_within_scope (S "http://ex.com/") (S "http://ex.com:80/") false = false ∧
    (urlparse (S "http://ex.com:80/")).scheme = (urlparse (S "http://ex.com/")).scheme ∧
    pyHostname (urlparse (S "http://ex.com:80/")).netloc =
      pyHostname (urlparse (S "http://ex.com/")).netloc ∧
    pyPort (urlparse (S "http://ex.com:80/")).netloc = some 80 ∧
    pyPort (urlparse (S "http://ex.com/")).netloc = none ∧
    scopePathOk (urlparse (S "http://ex.com:80/")) = true := by
  refine ⟨by decide, by decide, by decide, by decide, by decide, by decide⟩

/-- Claim C1 (amended): with includeSubdomains false, a candidate is in scope
iff it is nonempty, its scheme, hostname, and parsed port equal the base's
exactly as written (no default-port normalization, so an explicit default port
is out of scope of a portless base), and the path checks pass; with
includeSubdomains true, iff it is nonempty, its hostname equals the base
hostname or ends with "." followed by the base hostname, and the path checks
pass. -/
theorem claim_C1_amended (base target : Str) :
    (is_within_scope base target false = true ↔
      target ≠ [] ∧
      (urlparse target).scheme = (urlparse base).scheme ∧
      pyHostname (urlparse target).netloc = pyHostname (urlparse base).netloc ∧
      pyPort (urlparse target).netloc = pyPort (urlparse base).netloc ∧
      scopePathOk (urlparse target) = true) ∧
    (is_within_scope base target true = true ↔
      target ≠ [] ∧
      (pyHostname (urlparse target).netloc = pyHostname (urlparse base).netloc ∨
        ∃ th, pyHostname (urlparse target).netloc = some th ∧
          endsWithSeq ('.' :: ((pyHostname (urlparse base).netloc).getD (S "None"))) th = true) ∧
      scopePathOk (urlparse target) = true) := by
  constructor
  · rw [is_within_scope_eq]
    simp only [Bool.and_eq_true, decide_eq_true_eq, ne_eq]
    constructor
    · rintro ⟨⟨ht, hh⟩, hp⟩
      rw [scopeHostOk, if_neg (by simp)] at hh
      simp only [Bool.and_eq_true, decide_eq_true_eq] at hh
      exact ⟨ht, hh.1.1, hh.1.2, hh.2, hp⟩
    · rintro ⟨ht, hs, hh, hport, hp⟩
      refine ⟨⟨ht, ?_⟩, hp⟩
      rw [scopeHostOk, if_neg (by simp)]
      simp [hs, hh, hport]
  · rw [is_within_scope_eq]
    simp only [Bool.and_eq_true, decide_eq_true_eq, ne_eq]
    constructor
    · rintro ⟨⟨ht, hh⟩, hp⟩
      rw [scopeHostOk, if_pos rfl, Bool.or_eq_true] at hh
      refine ⟨ht, ?_, hp⟩
      rcases hh with heq | hsub
      · exact Or.inl (by simpa using heq)
      · rcases hth : pyHostname (urlparse target).netloc with _ | th
        · rw [hth] at hsub; exact absurd hsub (by simp)
        · rw [hth] at hsub
          exact Or.inr ⟨th, rfl, hsub⟩
    · rintro ⟨ht, hh, hp⟩
      refine ⟨⟨ht, ?_⟩, hp⟩
      rw [scopeHostOk, if_pos rfl]
      rcases hh with heq | ⟨th, hth, hsuf⟩
      · simp [heq]
      · rw [hth]
        simp [hsuf]

/-- Claim C9: with includeSubdomains true, the scope check compares hostnames
only — a candidate whose host matches (equal, or a proper subdomain by the
suffix test) is in scope whatever its scheme and port, provided the path checks
pass. -/
theorem claim_C9 (base target : Str)
    (hne : target ≠ [])
    (hhost : pyHostname (urlparse target).netloc = pyHostname (urlparse base).netloc ∨
      ∃ th, pyHostname (urlparse target).netloc = some th ∧
        endsWithSeq ('.' :: ((pyHostname (urlparse base).netloc).getD (S "None"))) th = true)
    (hpath : scopePathOk (urlparse target) = true) :
    is_within_scope base target true = true := by
  rw [is_within_scope_eq]
  simp only [Bool.and_eq_true, decide_eq_true_eq, ne_eq]
  refine ⟨⟨hne, ?_⟩, hpath⟩
  rw [scopeHostOk, if_pos rfl]
  rcases hhost with heq | ⟨th, hth, hsuf⟩
  · simp [heq]
  · rw [hth]
    simp [hsuf]

/-- Witness for C9: a subdomain candidate with a different scheme and an
explicit non-default port is in scope of the base. -/
theorem claim_C9_witness :
    (urlparse (S "http://b.a.com:9999/x")).scheme ≠ (urlparse (S "https://a.com")).scheme ∧
    pyPort (urlparse (S "http://b.a.com:9999/x")).netloc ≠
      pyPort (urlparse (S "https://a.com")).netloc ∧
    is_within_scope (S "https://a.com") (S "http://b.a.com:9999/x") true = true :=
  ⟨by decide, by decide,
   claim_C9 (S "https://a.com") (S "http://b.a.com:9999/x") (by decide)
     (Or.inr ⟨S "b.a.com", by decide, by decide⟩) (by decide)⟩

/-- Claim C2, counterexample to the original statement: "http://ex.com//" is
accepted by the normalizer (its port access raises nothing), yet normalizing
its normalization differs from normalizing it once — the rstrip('/') step
empties the all-slash path and the second pass re-defaults the empty path to
"/". -/
theorem claim_C2_counterexample :
    acceptedUrl (S "http://ex.com//") = true ∧
    normalize_url (normalize_url (S "http://ex.com//") false) false ≠
      normalize_url (S "http://ex.com//") false :=
  ⟨by decide, by decide⟩

/-- Claim C2, amended: normalize_url is deterministic (it is a pure function of
its input and the trailing-slash flag), and it is idempotent on every URL in
the normalizeIdemSafe domain: accepted by the normalizer, no "None" rendering
of a missing host, no '//'-capture of a hostless path, and a rendered
path-and-params text that re-splits stably.  On that domain the re-parse of the
output reproduces the rebuilt components exactly, so a second pass changes
nothing. -/
theorem claim_C2_amended (u : Str) (t : Bool) (h : normalizeIdemSafe u t = true) :
    normalize_url (normalize_url u t) t = normalize_url u t := by
  rw [normalizeIdemSafe] at h
  simp only [Bool.and_eq_true, Bool.not_eq_true'] at h
  obtain ⟨⟨⟨hacc, hhp⟩, hsc⟩, hst⟩ := h
  have hparse := urlparse_normalize u t hhp hsc
  have hnet2 : (urlparse (normalize_url u t)).netloc = (normRec u t).netloc.getD [] := by
    rw [hparse]
  have hslowO : pyLower (urlparse (normalize_url u t)).scheme = (normRec u t).scheme := by
    rw [show (urlparse (normalize_url u t)).scheme = (normRec u t).scheme from
        by rw [hparse],
      normRec_scheme, pyLower_idem]
  have hsch2 : (normRec (normalize_url u t) t).scheme = (normRec u t).scheme := by
    rw [normRec_scheme, hslowO]
  have hnl2 : (normRec (normalize_url u t) t).netloc = (normRec u t).netloc := by
    rcases normRec_netloc_cases u t hhp with hnone | ⟨h0, heq, hg, hh0, hp0⟩ |
      ⟨h0, p, heq, hg, hh0, hp0, hcond⟩
    · have hport2 : pyPort (urlparse (normalize_url u t)).netloc = none := by
        rw [hnet2, hnone]
        rfl
      rw [normRec_netloc_noport hport2, hnet2, hnone]
      rfl
    · have hport2 : pyPort (urlparse (normalize_url u t)).netloc = none := by
        rw [hnet2, heq, Option.getD_some]
        exact hp0
      rw [normRec_netloc_noport hport2, hnet2, heq, Option.getD_some, hh0,
        Option.map_some', hg.2.1]
    · have hport2 : pyPort (urlparse (normalize_url u t)).netloc = some p := by
        rw [hnet2, heq, Option.getD_some]
        exact hp0
      have hcond2 : p ≠ 0 ∧
          ¬((pyLower (urlparse (normalize_url u t)).scheme = S "http" ∧ p = 80) ∨
            (pyLower (urlparse (normalize_url u t)).scheme = S "https" ∧ p = 443)) := by
        rw [hslowO, normRec_scheme]
        exact hcond
      rw [normRec_netloc_port_keep hport2 hcond2, hnet2, heq, Option.getD_some, hh0,
        Option.map_some', Option.getD_some, hg.2.1]
  have hq2 : (normRec (normalize_url u t) t).query = (normRec u t).query := by
    rw [normRec_query,
      show (urlparse (normalize_url u t)).query = (normRec u t).query from
        by rw [hparse],
      normRec_query, normQuery_idem]
  have hstp : attachParams (pathPhase t
      (if memB (normRec u t).scheme usesParams ∧ ';' ∈ renderedPathOf u t then
        splitparams (renderedPathOf u t) else (renderedPathOf u t, ([] : Str))).1)
      (if memB (normRec u t).scheme usesParams ∧ ';' ∈ renderedPathOf u t then
        splitparams (renderedPathOf u t) else (renderedPathOf u t, ([] : Str))).2 =
      renderedPathOf u t := by
    simp only [stableResplit] at hst
    exact of_decide_eq_true hst
  have hattach2 : attachParams (normRec (normalize_url u t) t).path
      (normRec (normalize_url u t) t).params = renderedPathOf u t := by
    rw [normRec_path, normRec_params,
      show (urlparse (normalize_url u t)).path =
        (if memB (normRec u t).scheme usesParams ∧ ';' ∈ renderedPathOf u t then
          splitparams (renderedPathOf u t) else (renderedPathOf u t, ([] : Str))).1 from
        by rw [hparse],
      show (urlparse (normalize_url u t)).params =
        (if memB (normRec u t).scheme usesParams ∧ ';' ∈ renderedPathOf u t then
          splitparams (renderedPathOf u t) else (renderedPathOf u t, ([] : Str))).2 from
        by rw [hparse]]
    exact hstp
  rw [normalize_url_rec (normalize_url u t) t, hsch2, hnl2, hq2, hattach2,
    renderedPathOf_eq]
  rw [urlunsplit_rendered_stable _ _ _ _ ?_]
  · exact (normalize_url_rec u t).symm
  · intro hnt
    rw [slashSlashCapture, hnt] at hsc
    simpa using hsc

/-- Witness for the amended C2: a URL with mixed-case host, explicit
non-default port, params, unsorted query and a fragment is in the safe domain
and normalizes idempotently. -/
theorem claim_C2_amended_witness :
    normalizeIdemSafe (S "http://User@Ex.COM:8080/a/b;v=1?b=2&a=1#frag") false = true ∧
    normalize_url (normalize_url (S "http://User@Ex.COM:8080/a/b;v=1?b=2&a=1#frag") false)
        false =
      normalize_url (S "http://User@Ex.COM:8080/a/b;v=1?b=2&a=1#frag") false :=
  ⟨by decide, claim_C2_amended _ _ (by decide)⟩

/-- Claim C10: for every input URL whose parsed network location carries a
userinfo component (a "user:password@" part before the host), normalize_url
silently removes it: the netloc the normalizer rebuilds is assembled from the
lower-cased hostname and the kept port only and carries no userinfo, and the
output string is rendered from exactly that userinfo-free netloc. -/
theorem claim_C10 (u : Str) (t : Bool) (w : Str)
    (h : userinfoOf (urlparse u).netloc = some w) :
    userinfoOf ((normRec u t).netloc.getD []) = none ∧
    normalize_url u t = urlunparse (normRec u t).scheme (normRec u t).netloc
      (normRec u t).path (normRec u t).params (normRec u t).query [] :=
  ⟨userinfoOf_of_not_mem (normRec_netloc_no_at u t), rfl⟩

/-- Witness for C10: a URL with "user:pw@" userinfo; the rebuilt netloc of the
normalized output has none. -/
theorem claim_C10_witness :
    userinfoOf (urlparse (S "http://user:pw@Ex.COM:8080/a")).netloc = some (S "user:pw") ∧
    userinfoOf ((normRec (S "http://user:pw@Ex.COM:8080/a") false).netloc.getD []) = none :=
  ⟨by decide,
   (claim_C10 (S "http://user:pw@Ex.COM:8080/a") false (S "user:pw") (by decide)).1⟩

end Crawler
